import Mathlib

/-!
Verification of the Mosaic work-graph execution engine
(`orchestrator/work_graph_manager.js`, function `executeBuildPipeline`).

The JavaScript source is shallowly embedded below:

* `JsMap` models an ECMAScript `Map` (insertion order preserved,
  `set` on an existing key replaces the value in place, `new Map(list)`
  lets later duplicate keys overwrite earlier values).
* `Oracle` models the external collaborators (BullMQ worker queue,
  local file persistence `saveCodeLocally`, VM streaming
  `streamFileToVM`, and the Dev-Flow Manager `start-environment`
  endpoint) as fixed deterministic responses for one build.
* A run produces a `trace` of observable atomic actions (progress-queue
  events, worker submissions, persistence / streaming side effects, and
  node status writes).  Within a wave the concurrently dispatched tasks
  are sequentialised in batch order: the ECMAScript event loop runs each
  async continuation to completion, so every sibling of a wave performs
  all of its effects even when another sibling has already rejected; the
  batch order stands for one admissible interleaving.
* The early-rejection behaviour of `await Promise.all(promises)`
  (line 236 of the source), which is timing-sensitive, is modelled
  separately by `promiseAllSettle` over tasks with completion times.
-/

namespace Mosaic

/-- An ECMAScript `Map` with `String` keys: an association list in key
insertion order; `set` replaces in place, a fresh key is appended. -/
abbrev JsMap (α : Type) := List (String × α)

namespace JsMap

/-- `map.get(k)` (as an `Option`). -/
def get? {α : Type} (m : JsMap α) (k : String) : Option α :=
  (m.find? (fun e => e.1 == k)).map (·.2)

/-- `map.has(k)`. -/
def has {α : Type} (m : JsMap α) (k : String) : Bool :=
  (m.find? (fun e => e.1 == k)).isSome

/-- `map.get(k)` with a default for a missing key. -/
def getD {α : Type} (m : JsMap α) (k : String) (d : α) : α :=
  (m.get? k).getD d

/-- `map.set(k, v)`: replace in place, or append a fresh key. -/
def set {α : Type} : JsMap α → String → α → JsMap α
  | [], k, v => [(k, v)]
  | e :: rest, k, v => if e.1 = k then (k, v) :: rest else e :: set rest k v

/-- The keys, in insertion order. -/
def keys {α : Type} (m : JsMap α) : List String := m.map (·.1)

/-- `map.size`. -/
def size {α : Type} (m : JsMap α) : Nat := m.length

/-- `new Map(list)`: left fold of `set` (later duplicates overwrite). -/
def ofList {α : Type} (l : List (String × α)) : JsMap α :=
  l.foldl (fun m e => m.set e.1 e.2) []

theorem get?_cons {α : Type} (e : String × α) (rest : JsMap α) (k : String) :
    get? (e :: rest) k = if e.1 = k then some e.2 else get? rest k := by
  by_cases h : e.1 = k <;>
    simp [get?, List.find?, h, show (e.1 == k) = decide (e.1 = k) from rfl]

theorem has_cons {α : Type} (e : String × α) (rest : JsMap α) (k : String) :
    has (e :: rest) k = (decide (e.1 = k) || has rest k) := by
  by_cases h : e.1 = k <;>
    simp [has, List.find?, h, show (e.1 == k) = decide (e.1 = k) from rfl]

theorem set_cons {α : Type} (e : String × α) (rest : JsMap α) (k : String) (v : α) :
    set (e :: rest) k v = if e.1 = k then (k, v) :: rest else e :: set rest k v := rfl

theorem keys_set {α : Type} (m : JsMap α) (k : String) (v : α) :
    (m.set k v).keys = if m.has k then m.keys else m.keys ++ [k] := by
  induction m with
  | nil => simp [set, keys, has]
  | cons e rest ih =>
    by_cases h : e.1 = k
    · simp [set_cons, h, keys, has_cons]
    · rw [set_cons, if_neg h]
      simp only [keys, List.map_cons, has_cons, show decide (e.1 = k) = false by simpa using h,
        Bool.false_or]
      simp only [keys] at ih
      rw [ih]
      by_cases h2 : has rest k <;> simp [h2]

theorem mem_keys_iff_has {α : Type} (m : JsMap α) (k : String) :
    k ∈ m.keys ↔ m.has k := by
  induction m with
  | nil => simp [keys, has]
  | cons e rest ih =>
    simp only [keys, List.map_cons, List.mem_cons, has_cons, Bool.or_eq_true,
      decide_eq_true_eq]
    simp only [keys] at ih
    rw [ih]
    constructor
    · rintro (h1 | h2)
      · exact Or.inl h1.symm
      · exact Or.inr h2
    · rintro (h1 | h2)
      · exact Or.inl h1.symm
      · exact Or.inr h2

theorem has_iff_get?_isSome {α : Type} (m : JsMap α) (k : String) :
    m.has k ↔ (m.get? k).isSome := by
  simp [has, get?]

theorem get?_eq_none_of_not_has {α : Type} (m : JsMap α) (k : String)
    (h : ¬ m.has k) : m.get? k = none := by
  rw [has_iff_get?_isSome] at h
  exact Option.not_isSome_iff_eq_none.mp h

theorem get?_isSome_of_has {α : Type} (m : JsMap α) (k : String)
    (h : m.has k) : ∃ v, m.get? k = some v := by
  rw [has_iff_get?_isSome] at h
  exact Option.isSome_iff_exists.mp h

theorem get?_set_self {α : Type} (m : JsMap α) (k : String) (v : α) :
    (m.set k v).get? k = some v := by
  induction m with
  | nil => simp [set, get?_cons]
  | cons e rest ih =>
    by_cases h : e.1 = k
    · simp [set_cons, h, get?_cons]
    · rw [set_cons, if_neg h, get?_cons, if_neg h]
      exact ih

theorem get?_set_ne {α : Type} (m : JsMap α) (k k' : String) (v : α)
    (h : k ≠ k') : (m.set k v).get? k' = m.get? k' := by
  induction m with
  | nil => simp [set, get?_cons, get?, h]
  | cons e rest ih =>
    by_cases he : e.1 = k
    · rw [set_cons, if_pos he, get?_cons, get?_cons, if_neg h, if_neg (he ▸ h)]
    · rw [set_cons, if_neg he, get?_cons, get?_cons]
      by_cases he' : e.1 = k'
      · simp [he']
      · rw [if_neg he', if_neg he']
        exact ih

theorem getD_set_self {α : Type} (m : JsMap α) (k : String) (v d : α) :
    (m.set k v).getD k d = v := by
  simp [getD, get?_set_self]

theorem getD_set_ne {α : Type} (m : JsMap α) (k k' : String) (v d : α)
    (h : k ≠ k') : (m.set k v).getD k' d = m.getD k' d := by
  simp [getD, get?_set_ne m k k' v h]

theorem get?_eq_some_mem {α : Type} (m : JsMap α) (k : String) (v : α)
    (h : m.get? k = some v) : (k, v) ∈ m := by
  induction m with
  | nil => simp [get?, List.find?] at h
  | cons e rest ih =>
    rw [get?_cons] at h
    by_cases he : e.1 = k
    · rw [if_pos he] at h
      rcases e with ⟨k0, v0⟩
      cases h
      cases he
      exact List.mem_cons_self _ _
    · rw [if_neg he] at h
      exact List.mem_cons_of_mem _ (ih h)

theorem size_set_of_has {α : Type} (m : JsMap α) (k : String) (v : α)
    (h : m.has k) : (m.set k v).size = m.size := by
  induction m with
  | nil => simp [has] at h
  | cons e rest ih =>
    rw [has_cons] at h
    by_cases he : e.1 = k
    · simp [set_cons, he, size]
    · rw [set_cons, if_neg he]
      simp only [show decide (e.1 = k) = false by simpa using he, Bool.false_or] at h
      simp only [size, List.length_cons] at *
      rw [ih h]

end JsMap

/-- A node of the work graph (`workGraph.nodes[i]`). -/
structure WorkGraphNode where
  id : String
  task : String
  description : String
  dependsOn : List String
deriving DecidableEq, Repr

/-- The work graph of one build plan. -/
structure WorkGraph where
  nodes : List WorkGraphNode
deriving DecidableEq, Repr

/-- The `status` field the scheduler stores on each node. -/
inductive NodeStatus where
  | pending
  | running
  | completed
  | failed
deriving DecidableEq, Repr

/-- One entry added to the progress queue by `emitProgress`. -/
structure ProgressEvent where
  step : String
  status : String
  details : String
deriving DecidableEq, Repr

/-- Result returned by a `generate-*` worker job. -/
structure WorkerResult where
  fileName : String
  code : String
deriving DecidableEq, Repr

/-- An observable atomic action of one pipeline run, in program order. -/
inductive Action where
  /-- `emitProgress`: an event added to the progress queue. -/
  | emit (e : ProgressEvent)
  /-- `callWorker`: a job submitted to the task queue. -/
  | callWorker (task : String) (taskId : String)
  /-- `saveCodeLocally`: the generated file written under `generated_projects`. -/
  | saveCodeLocally (fileName : String) (code : String)
  /-- `streamFileToVM`: the generated file uploaded to the live VM. -/
  | streamFileToVM (fileName : String) (code : String)
  /-- the `start-environment` call of `executeDevOpsTask` for `start-vm`. -/
  | startVM
  /-- a write to `node.status`. -/
  | setStatus (id : String) (s : NodeStatus)
deriving DecidableEq, Repr

/-- The external collaborators of one build, as fixed responses:
the worker queue (keyed by task kind, task id and description), the local
file system, the VM upload endpoint, and the Dev-Flow Manager.  An
`Except.error` value is the message captured from the corresponding
exception (`error.response?.data?.detail || error.message`). -/
structure Oracle where
  worker : String → String → String → Except String WorkerResult
  save : String → String → Except String Unit
  stream : String → String → Except String Unit
  startEnvironment : Except String String
deriving Inhabited

/-- Message of the node-start progress event. -/
def startMsg (id : String) : String := "> Starting: " ++ id

/-- Message of the node-completed progress event. -/
def doneMsg (id : String) : String := "✓ Completed: " ++ id

/-- Message of the node-failed progress event. -/
def failMsg (id : String) : String := "✗ FAILED: " ++ id

/-- Message of the wave-start progress event. -/
def batchMsg (k : Nat) : String :=
  "Starting batch of " ++ toString k ++ " parallel tasks..."

/-- Message of the initialization progress event. -/
def initMsg : String := "Initializing Parallel Build..."

/-- Message of the final progress event of a successful run. -/
def deployMsg : String := "✓ Application deployed. Preview available."

/-- The error thrown when a node's dispatch fails
(`Task ${node.id} (${node.task}) failed: ${errorMessage}`). -/
def taskFailMsg (id task msg : String) : String :=
  "Task " ++ id ++ " (" ++ task ++ ") failed: " ++ msg

/-- The error thrown after the loop when `completedCount !== nodes.size`. -/
def countMismatchMsg : String :=
  "Build failed: Not all tasks in the work graph were completed."

/-- The node-start event (`emitProgress(buildId, "> Starting: id", "active",
"Task: task")`). -/
def startEvt (n : WorkGraphNode) : Action :=
  .emit ⟨startMsg n.id, "active", "Task: " ++ n.task⟩

/-- The success tail of one dispatch: `node.status = "completed"` followed by
the completed event. -/
def doneSeg (n : WorkGraphNode) : List Action :=
  [.setStatus n.id .completed, .emit ⟨doneMsg n.id, "completed", ""⟩]

/-- The failure tail of one dispatch: `node.status = "failed"` followed by the
error event carrying the captured message. -/
def failSeg (n : WorkGraphNode) (e : String) : List Action :=
  [.setStatus n.id .failed, .emit ⟨failMsg n.id, "error", e⟩]

/-- One dispatched node: the body of the async closure built for each batch
member (source lines 181-233).  Returns the actions it performs in order,
and either the thrown error or the `previewUrl` produced (only `start-vm`
produces one). -/
def runNodeCore (ora : Oracle) (n : WorkGraphNode) :
    List Action × Except String (Option String) :=
  let pre : List Action := [.setStatus n.id .running, startEvt n]
  if n.task.startsWith "generate-" then
    match ora.worker n.task n.id n.description with
    | .error e =>
        (pre ++ [.callWorker n.task n.id] ++ failSeg n e,
         .error (taskFailMsg n.id n.task e))
    | .ok r =>
        match ora.save r.fileName r.code with
        | .error e =>
            (pre ++ [.callWorker n.task n.id, .saveCodeLocally r.fileName r.code] ++
               failSeg n e,
             .error (taskFailMsg n.id n.task e))
        | .ok _ =>
            match ora.stream r.fileName r.code with
            | .error e =>
                (pre ++ [.callWorker n.task n.id, .saveCodeLocally r.fileName r.code,
                      .streamFileToVM r.fileName r.code] ++ failSeg n e,
                 .error (taskFailMsg n.id n.task e))
            | .ok _ =>
                (pre ++ [.callWorker n.task n.id, .saveCodeLocally r.fileName r.code,
                      .streamFileToVM r.fileName r.code] ++ doneSeg n,
                 .ok none)
  else if n.task = "start-vm" then
    match ora.startEnvironment with
    | .error e => (pre ++ [.startVM] ++ failSeg n e, .error (taskFailMsg n.id n.task e))
    | .ok url => (pre ++ [.startVM] ++ doneSeg n, .ok (some url))
  else
    (pre ++ doneSeg n, .ok none)

/-- The mutable state of `executeBuildPipeline`: the in-degree map, the ready
queue, the counters, and the trace of actions performed so far.  `failure`
records the first rejection of the current run (the error with which
`Promise.all` rejects and the whole pipeline throws); node statuses are read
off the trace by `statusIn`. -/
structure PState where
  inDegree : JsMap Int
  queue : List String
  completedCount : Nat
  previewUrl : Option String
  trace : List Action
  failure : Option String
deriving Repr

/-- The status writes an action performs on node `id`. -/
def Action.statusOf (id : String) : Action → Option NodeStatus
  | .setStatus j s => if j = id then some s else none
  | _ => none

/-- All writes to `node.status` for `id`, in trace order. -/
def statusWrites (tr : List Action) (id : String) : List NodeStatus :=
  tr.filterMap (Action.statusOf id)

/-- The current value of `node.status` for `id`: the last write, initially
`pending`. -/
def statusIn (tr : List Action) (id : String) : NodeStatus :=
  (statusWrites tr id).getLast?.getD .pending

/-- The success-path dependent update (source lines 215-220): for each entry
of `adj.get(nodeId)`, decrement its in-degree and push it on the ready queue
when the decremented value is `0`. -/
def relaxDependents (adjA : List String) (st : PState) : PState :=
  adjA.foldl
    (fun st d =>
      let deg := st.inDegree.set d (st.inDegree.getD d 0 - 1)
      if deg.getD d 0 = 0 then
        { st with inDegree := deg, queue := st.queue ++ [d] }
      else
        { st with inDegree := deg })
    st

/-- `if (result.previewUrl) previewUrl = result.previewUrl`: a produced
preview URL overwrites the pipeline-level one, otherwise it is kept. -/
def updPreview (pu old : Option String) : Option String :=
  match pu with
  | some u => some u
  | none => old

/-- Bookkeeping after one dispatch settles (the tail of the async closure):
on fulfilment count the completion, record a `previewUrl`, and relax the
dependents; on rejection record the thrown error (the first rejection is the
one `Promise.all` rejects with). -/
def applyOutcome (adj : JsMap (List String)) (nodeId : String) (st1 : PState) :
    Except String (Option String) → PState
  | .ok pu =>
      relaxDependents (adj.getD nodeId [])
        { st1 with
          completedCount := st1.completedCount + 1,
          previewUrl := updPreview pu st1.previewUrl }
  | .error msg =>
      { st1 with
        failure := match st1.failure with | some f => some f | none => some msg }

/-- Dispatch of a single batch member `nodeId` and its bookkeeping: run the
node, append its actions, then apply the outcome. -/
def processNode (ora : Oracle) (m : JsMap WorkGraphNode)
    (adj : JsMap (List String)) (st : PState) (nodeId : String) : PState :=
  match m.get? nodeId with
  | none => st
  | some n =>
      applyOutcome adj nodeId { st with trace := st.trace ++ (runNodeCore ora n).1 }
        (runNodeCore ora n).2

/-- Start of one wave: `const batch = queue.splice(0, queue.length)` plus the
batch progress event. -/
def waveInit (st : PState) : PState :=
  { st with
    queue := [],
    trace := st.trace ++ [.emit ⟨batchMsg st.queue.length, "active", ""⟩] }

/-- One full wave: drain the queue into a batch, emit the wave event, and run
every batch member (the event loop runs each async closure to completion even
when a sibling has already rejected). -/
def waveStep (ora : Oracle) (m : JsMap WorkGraphNode) (adj : JsMap (List String))
    (st : PState) : PState :=
  st.queue.foldl (processNode ora m adj) (waveInit st)

/-- The wave loop (source lines 173-237): waves run while the queue is
nonempty and the loop continues only when `Promise.all` resolved, that is
when no batch member rejected.  The fuel bounds the number of iterations; the
termination theorem shows `nodes.size + 1` is always enough. -/
def runWaves (ora : Oracle) (m : JsMap WorkGraphNode) (adj : JsMap (List String)) :
    Nat → PState → PState
  | 0, st => st
  | Nat.succ fuel, st =>
    if st.queue.isEmpty then st
    else
      match (waveStep ora m adj st).failure with
      | some _ => waveStep ora m adj st
      | none => runWaves ora m adj fuel (waveStep ora m adj st)

/-- The node map: `new Map(workGraph.nodes.map(node => [node.id, {...node,
status: "pending"}]))`.  The status lives in the trace, so the value is the
node itself. -/
def buildNodeMap (g : WorkGraph) : JsMap WorkGraphNode :=
  JsMap.ofList (g.nodes.map (fun n => (n.id, n)))

/-- The in-degree and adjacency maps (source lines 153-163): both are keyed
by every node id; each `dependsOn` entry naming an existing id adds one
adjacency entry and one in-degree unit, and every other entry is skipped. -/
def buildIndices (m : JsMap WorkGraphNode) : JsMap Int × JsMap (List String) :=
  let deg0 : JsMap Int := m.map (fun e => (e.1, 0))
  let adj0 : JsMap (List String) := m.map (fun e => (e.1, []))
  m.foldl
    (fun acc e =>
      e.2.dependsOn.foldl
        (fun (acc : JsMap Int × JsMap (List String)) depId =>
          if acc.2.has depId then
            (acc.1.set e.2.id (acc.1.getD e.2.id 0 + 1),
             acc.2.set depId (acc.2.getD depId [] ++ [e.2.id]))
          else acc)
        acc)
    (deg0, adj0)

/-- The final value of one run: the terminal state and either the thrown
error or the returned `previewUrl` (`return { buildId, previewUrl }`). -/
structure PipelineOutput where
  state : PState
  result : Except String (Option String)
deriving Repr

/-- The count check and the success epilogue (source lines 239-251): throw
the count-mismatch error, or emit the deploy event and return the
`previewUrl`. -/
def finishNoFailure (m : JsMap WorkGraphNode) (stF : PState) : PipelineOutput :=
  if stF.completedCount ≠ m.size then
    ⟨stF, .error countMismatchMsg⟩
  else
    ⟨{ stF with trace := stF.trace ++ [.emit ⟨deployMsg, "completed", ""⟩] },
     .ok stF.previewUrl⟩

/-- The epilogue of the pipeline: rethrow the loop's error, else run the
count check. -/
def finishPipeline (m : JsMap WorkGraphNode) (stF : PState) : PipelineOutput :=
  match stF.failure with
  | some e => ⟨stF, .error e⟩
  | none => finishNoFailure m stF

/-- The scheduler state right after the index build: the ready queue holds
the zero-in-degree ids and only the initial progress event was emitted. -/
def initState (g : WorkGraph) : PState :=
  { inDegree := (buildIndices (buildNodeMap g)).1,
    queue := (((buildIndices (buildNodeMap g)).1.filter (fun e => e.2 = 0)).map (·.1)),
    completedCount := 0,
    previewUrl := none,
    trace := [.emit ⟨initMsg, "active", ""⟩],
    failure := none }

/-- `executeBuildPipeline` (source lines 133-252): build the node map and the
indices, seed the ready queue with the zero-in-degree ids, run the wave
loop, and finish with either the thrown error, the count-mismatch error, or
success carrying the `previewUrl`. -/
def executeBuildPipeline (ora : Oracle) (g : WorkGraph) : PipelineOutput :=
  let m := buildNodeMap g
  finishPipeline m (runWaves ora m (buildIndices m).2 (m.size + 1) (initState g))

/-! ### Distinctness of the progress-event messages -/

theorem head?_append_left (l₁ l₂ : List Char) (c : Char) (h : l₁.head? = some c) :
    (l₁ ++ l₂).head? = some c := by
  cases l₁ with
  | nil => simp at h
  | cons a t => simpa using h

theorem ne_of_data_head? (s t : String) (c₁ c₂ : Char) (h₁ : s.data.head? = some c₁)
    (h₂ : t.data.head? = some c₂) (hc : c₁ ≠ c₂) : s ≠ t := by
  intro h
  rw [h] at h₁
  exact hc (Option.some.inj (h₁.symm.trans h₂))

theorem startMsg_head (a : String) : (startMsg a).data.head? = some '>' := by
  rw [startMsg, String.data_append]
  exact head?_append_left _ _ _ rfl

theorem doneMsg_head (a : String) : (doneMsg a).data.head? = some '✓' := by
  rw [doneMsg, String.data_append]
  exact head?_append_left _ _ _ rfl

theorem failMsg_head (a : String) : (failMsg a).data.head? = some '✗' := by
  rw [failMsg, String.data_append]
  exact head?_append_left _ _ _ rfl

theorem batchMsg_head (k : Nat) : (batchMsg k).data.head? = some 'S' := by
  rw [batchMsg, String.data_append, String.data_append]
  rw [List.append_assoc]
  exact head?_append_left _ _ _ rfl

theorem startMsg_ne_doneMsg (a b : String) : startMsg a ≠ doneMsg b :=
  ne_of_data_head? _ _ _ _ (startMsg_head a) (doneMsg_head b) (by decide)

theorem startMsg_ne_failMsg (a b : String) : startMsg a ≠ failMsg b :=
  ne_of_data_head? _ _ _ _ (startMsg_head a) (failMsg_head b) (by decide)

theorem doneMsg_ne_failMsg (a b : String) : doneMsg a ≠ failMsg b :=
  ne_of_data_head? _ _ _ _ (doneMsg_head a) (failMsg_head b) (by decide)

theorem batchMsg_ne_startMsg (k : Nat) (a : String) : batchMsg k ≠ startMsg a :=
  ne_of_data_head? _ _ _ _ (batchMsg_head k) (startMsg_head a) (by decide)

theorem batchMsg_ne_doneMsg (k : Nat) (a : String) : batchMsg k ≠ doneMsg a :=
  ne_of_data_head? _ _ _ _ (batchMsg_head k) (doneMsg_head a) (by decide)

theorem batchMsg_ne_failMsg (k : Nat) (a : String) : batchMsg k ≠ failMsg a :=
  ne_of_data_head? _ _ _ _ (batchMsg_head k) (failMsg_head a) (by decide)

theorem initMsg_ne_startMsg (a : String) : initMsg ≠ startMsg a :=
  ne_of_data_head? _ _ 'I' _ rfl (startMsg_head a) (by decide)

theorem initMsg_ne_doneMsg (a : String) : initMsg ≠ doneMsg a :=
  ne_of_data_head? _ _ 'I' _ rfl (doneMsg_head a) (by decide)

theorem initMsg_ne_failMsg (a : String) : initMsg ≠ failMsg a :=
  ne_of_data_head? _ _ 'I' _ rfl (failMsg_head a) (by decide)

theorem deployMsg_ne_startMsg (a : String) : deployMsg ≠ startMsg a :=
  ne_of_data_head? _ _ '✓' _ rfl (startMsg_head a) (by decide)

theorem deployMsg_ne_failMsg (a : String) : deployMsg ≠ failMsg a :=
  ne_of_data_head? _ _ '✓' _ (by rfl) (failMsg_head a) (by decide)

theorem getElem?_append_left' (l₁ l₂ : List Char) (i : Nat) (c : Char)
    (h : l₁[i]? = some c) : (l₁ ++ l₂)[i]? = some c := by
  have hi : i < l₁.length := by
    by_contra hlt
    rw [List.getElem?_eq_none (Nat.le_of_not_lt hlt)] at h
    cases h
  rw [List.getElem?_append, if_pos hi]
  exact h

theorem ne_of_data_getElem? (s t : String) (i : Nat) (c₁ c₂ : Char)
    (h₁ : s.data[i]? = some c₁) (h₂ : t.data[i]? = some c₂) (hc : c₁ ≠ c₂) : s ≠ t := by
  intro h
  rw [h] at h₁
  exact hc (Option.some.inj (h₁.symm.trans h₂))

theorem deployMsg_ne_doneMsg (a : String) : deployMsg ≠ doneMsg a := by
  refine ne_of_data_getElem? _ _ 2 'A' 'C' (by rfl) ?_ (by decide)
  rw [doneMsg, String.data_append]
  exact getElem?_append_left' _ _ _ _ (by rfl)

theorem append_left_cancel' (p a b : String) (h : p ++ a = p ++ b) : a = b := by
  have hd := congrArg String.data h
  rw [String.data_append, String.data_append] at hd
  exact String.ext (List.append_cancel_left hd)

theorem startMsg_inj (a b : String) (h : startMsg a = startMsg b) : a = b :=
  append_left_cancel' _ _ _ h

theorem doneMsg_inj (a b : String) (h : doneMsg a = doneMsg b) : a = b :=
  append_left_cancel' _ _ _ h

theorem failMsg_inj (a b : String) (h : failMsg a = failMsg b) : a = b :=
  append_left_cancel' _ _ _ h

/-! ### Reading the trace -/

/-- Is `a` a progress event addressed to node `id` (its step is one of the
three per-node messages)? -/
def nodeEvt? (id : String) : Action → Option ProgressEvent
  | .emit e =>
      if e.step = startMsg id ∨ e.step = doneMsg id ∨ e.step = failMsg id then some e
      else none
  | _ => none

/-- The progress events emitted for node `id`, in trace order. -/
def eventsFor (tr : List Action) (id : String) : List ProgressEvent :=
  tr.filterMap (nodeEvt? id)

/-- Is `a` the wave-start progress event of some batch? -/
def IsWaveStart (a : Action) : Prop :=
  ∃ k, a = .emit ⟨batchMsg k, "active", ""⟩

/-- `a` dispatches node `id` (the `node.status = "running"` write). -/
def IsRun (id : String) (a : Action) : Prop := a = .setStatus id .running

/-- The number of dispatches of `id` in a trace. -/
def dispatchCount (tr : List Action) (id : String) : Nat :=
  (statusWrites tr id).count .running

/-- The number of terminal status writes for `id` in a trace. -/
def terminalCount (tr : List Action) (id : String) : Nat :=
  (statusWrites tr id).count .completed + (statusWrites tr id).count .failed

theorem statusWrites_append (t₁ t₂ : List Action) (id : String) :
    statusWrites (t₁ ++ t₂) id = statusWrites t₁ id ++ statusWrites t₂ id := by
  simp [statusWrites]

theorem eventsFor_append (t₁ t₂ : List Action) (id : String) :
    eventsFor (t₁ ++ t₂) id = eventsFor t₁ id ++ eventsFor t₂ id := by
  simp [eventsFor]

theorem statusIn_def (tr : List Action) (id : String) :
    statusIn tr id = ((statusWrites tr id).getLast?).getD .pending := rfl

theorem statusIn_append_of_writes_nil (t₁ t₂ : List Action) (id : String)
    (h : statusWrites t₂ id = []) : statusIn (t₁ ++ t₂) id = statusIn t₁ id := by
  rw [statusIn_def, statusIn_def, statusWrites_append, h, List.append_nil]

theorem statusIn_append_last (t₁ t₂ : List Action) (id : String) (s : NodeStatus)
    (hne : statusWrites t₂ id ≠ [])
    (h : (statusWrites t₂ id).getLast? = some s) : statusIn (t₁ ++ t₂) id = s := by
  rw [statusIn_def, statusWrites_append, List.getLast?_append_of_ne_nil _ hne, h]
  rfl

theorem statusIn_nil (id : String) : statusIn [] id = .pending := rfl

/-- An action that is neither a progress event nor a status write. -/
def Silent (a : Action) : Prop :=
  (∀ e, a ≠ Action.emit e) ∧ (∀ j s, a ≠ Action.setStatus j s)

theorem statusOf_eq_none_of_silent (a : Action) (h : Silent a) (j : String) :
    Action.statusOf j a = none := by
  cases a with
  | setStatus i s => exact absurd rfl (h.2 i s)
  | emit e => rfl
  | callWorker a b => rfl
  | saveCodeLocally a b => rfl
  | streamFileToVM a b => rfl
  | startVM => rfl

theorem nodeEvt?_eq_none_of_silent (a : Action) (h : Silent a) (j : String) :
    nodeEvt? j a = none := by
  cases a with
  | emit e => exact absurd rfl (h.1 e)
  | setStatus i s => rfl
  | callWorker a b => rfl
  | saveCodeLocally a b => rfl
  | streamFileToVM a b => rfl
  | startVM => rfl

theorem not_waveStart_of_silent (a : Action) (h : Silent a) : ¬ IsWaveStart a := by
  rintro ⟨k, rfl⟩
  exact (h.1 _) rfl

theorem statusWrites_writes_nil_of_no_set (tr : List Action) (id : String)
    (h : ∀ s, Action.setStatus id s ∉ tr) : statusWrites tr id = [] := by
  induction tr with
  | nil => rfl
  | cons a t ih =>
    have hih := ih (fun s hs => h s (List.mem_cons_of_mem a hs))
    cases a with
    | setStatus j s =>
        by_cases hj : j = id
        · exact absurd (hj ▸ List.mem_cons_self _ _) (hj ▸ h s)
        · simpa [statusWrites, Action.statusOf, hj] using hih
    | emit e => simpa [statusWrites, Action.statusOf] using hih
    | callWorker a b => simpa [statusWrites, Action.statusOf] using hih
    | saveCodeLocally a b => simpa [statusWrites, Action.statusOf] using hih
    | streamFileToVM a b => simpa [statusWrites, Action.statusOf] using hih
    | startVM => simpa [statusWrites, Action.statusOf] using hih

/-! ### The shape of one dispatched node's action segment -/

/-- Every branch of `runNodeCore` yields the running write, the start event,
a run of silent collaborator effects, and either the success tail or the
failure tail with the matching thrown error. -/
theorem runNodeCore_shape (ora : Oracle) (n : WorkGraphNode) :
    ∃ mid : List Action, (∀ a ∈ mid, Silent a) ∧
      ((∃ pu, runNodeCore ora n =
          ([.setStatus n.id .running, startEvt n] ++ mid ++ doneSeg n, .ok pu)) ∨
       (∃ e, runNodeCore ora n =
          ([.setStatus n.id .running, startEvt n] ++ mid ++ failSeg n e,
           .error (taskFailMsg n.id n.task e)))) := by
  by_cases hg : n.task.startsWith "generate-"
  · cases hw : ora.worker n.task n.id n.description with
    | error e =>
        exact ⟨[.callWorker n.task n.id], by simp [Silent],
          Or.inr ⟨e, by simp only [runNodeCore, hg, hw, if_true]⟩⟩
    | ok r =>
        cases hs : ora.save r.fileName r.code with
        | error e =>
            exact ⟨[.callWorker n.task n.id, .saveCodeLocally r.fileName r.code],
              by simp [Silent],
              Or.inr ⟨e, by simp only [runNodeCore, hg, hw, hs, if_true]⟩⟩
        | ok u =>
            cases hv : ora.stream r.fileName r.code with
            | error e =>
                exact ⟨[.callWorker n.task n.id, .saveCodeLocally r.fileName r.code,
                  .streamFileToVM r.fileName r.code], by simp [Silent],
                  Or.inr ⟨e, by simp only [runNodeCore, hg, hw, hs, hv, if_true]⟩⟩
            | ok v =>
                exact ⟨[.callWorker n.task n.id, .saveCodeLocally r.fileName r.code,
                  .streamFileToVM r.fileName r.code], by simp [Silent],
                  Or.inl ⟨none, by simp only [runNodeCore, hg, hw, hs, hv, if_true]⟩⟩
  · by_cases hv : n.task = "start-vm"
    · cases he : ora.startEnvironment with
      | error e =>
          exact ⟨[.startVM], by simp [Silent],
            Or.inr ⟨e, by rw [runNodeCore, if_neg hg, if_pos hv, he]⟩⟩
      | ok url =>
          exact ⟨[.startVM], by simp [Silent],
            Or.inl ⟨some url, by rw [runNodeCore, if_neg hg, if_pos hv, he]⟩⟩
    · exact ⟨[], by simp, Or.inl ⟨none, by
        rw [runNodeCore, if_neg hg, if_neg hv]
        simp⟩⟩

theorem nodeEvt?_startEvt_ne (n : WorkGraphNode) (j : String) (h : j ≠ n.id) :
    nodeEvt? j (startEvt n) = none := by
  rw [startEvt, nodeEvt?]
  rw [if_neg]
  rintro (h1 | h1 | h1)
  · exact h (startMsg_inj n.id j h1).symm
  · exact startMsg_ne_doneMsg _ _ h1
  · exact startMsg_ne_failMsg _ _ h1

theorem nodeEvt?_doneEvt_ne (n : WorkGraphNode) (j : String) (h : j ≠ n.id) :
    nodeEvt? j (Action.emit ⟨doneMsg n.id, "completed", ""⟩) = none := by
  rw [nodeEvt?]
  rw [if_neg]
  rintro (h1 | h1 | h1)
  · exact startMsg_ne_doneMsg _ _ h1.symm
  · exact h (doneMsg_inj n.id j h1).symm
  · exact doneMsg_ne_failMsg _ _ h1

theorem nodeEvt?_failEvt_ne (n : WorkGraphNode) (j e : String) (h : j ≠ n.id) :
    nodeEvt? j (Action.emit ⟨failMsg n.id, "error", e⟩) = none := by
  rw [nodeEvt?]
  rw [if_neg]
  rintro (h1 | h1 | h1)
  · exact startMsg_ne_failMsg _ _ h1.symm
  · exact doneMsg_ne_failMsg _ _ h1.symm
  · exact h (failMsg_inj n.id j h1).symm

theorem nodeEvt?_startEvt_self (n : WorkGraphNode) :
    nodeEvt? n.id (startEvt n) =
      some ⟨startMsg n.id, "active", "Task: " ++ n.task⟩ := by
  rw [startEvt, nodeEvt?, if_pos (Or.inl rfl)]

theorem nodeEvt?_doneEvt_self (n : WorkGraphNode) :
    nodeEvt? n.id (Action.emit ⟨doneMsg n.id, "completed", ""⟩) =
      some ⟨doneMsg n.id, "completed", ""⟩ := by
  rw [nodeEvt?, if_pos (Or.inr (Or.inl rfl))]

theorem nodeEvt?_failEvt_self (n : WorkGraphNode) (e : String) :
    nodeEvt? n.id (Action.emit ⟨failMsg n.id, "error", e⟩) =
      some ⟨failMsg n.id, "error", e⟩ := by
  rw [nodeEvt?, if_pos (Or.inr (Or.inr rfl))]

theorem filterMap_eq_nil_of_none {α β : Type} (f : α → Option β) (l : List α)
    (h : ∀ a ∈ l, f a = none) : l.filterMap f = [] := by
  induction l with
  | nil => rfl
  | cons a t ih =>
      rw [List.filterMap_cons, h a (List.mem_cons_self a t)]
      exact ih (fun a ha => h a (List.mem_cons_of_mem _ ha))

theorem seg_statusWrites_ne (ora : Oracle) (n : WorkGraphNode) (j : String)
    (h : j ≠ n.id) : statusWrites (runNodeCore ora n).1 j = [] := by
  obtain ⟨mid, hmid, hcase⟩ := runNodeCore_shape ora n
  have hall : ∀ a ∈ (runNodeCore ora n).1, Action.statusOf j a = none := by
    rcases hcase with ⟨pu, hc⟩ | ⟨e, hc⟩ <;> rw [hc] <;>
      intro a ha <;> simp only [List.mem_append, List.mem_cons, doneSeg, failSeg,
        List.mem_singleton, List.not_mem_nil, or_false] at ha
    · rcases ha with ((rfl | rfl) | ha) | (rfl | rfl)
      · simp [Action.statusOf, Ne.symm h]
      · rfl
      · exact statusOf_eq_none_of_silent a (hmid a ha) j
      · simp [Action.statusOf, Ne.symm h]
      · rfl
    · rcases ha with ((rfl | rfl) | ha) | (rfl | rfl)
      · simp [Action.statusOf, Ne.symm h]
      · rfl
      · exact statusOf_eq_none_of_silent a (hmid a ha) j
      · simp [Action.statusOf, Ne.symm h]
      · rfl
  exact filterMap_eq_nil_of_none _ _ hall

theorem statusWrites_eq_nil_of_silent (mid : List Action)
    (hmid : ∀ a ∈ mid, Silent a) (j : String) : statusWrites mid j = [] :=
  filterMap_eq_nil_of_none _ mid (fun a ha => statusOf_eq_none_of_silent a (hmid a ha) j)

theorem eventsFor_eq_nil_of_silent (mid : List Action)
    (hmid : ∀ a ∈ mid, Silent a) (j : String) : eventsFor mid j = [] :=
  filterMap_eq_nil_of_none _ mid (fun a ha => nodeEvt?_eq_none_of_silent a (hmid a ha) j)

theorem statusWrites_cons_mid (mid : List Action) (tail : List Action)
    (hmid : ∀ a ∈ mid, Silent a) (j : String) :
    statusWrites (mid ++ tail) j = statusWrites tail j := by
  rw [statusWrites_append, statusWrites_eq_nil_of_silent mid hmid j, List.nil_append]

theorem eventsFor_cons_mid (mid : List Action) (tail : List Action)
    (hmid : ∀ a ∈ mid, Silent a) (j : String) :
    eventsFor (mid ++ tail) j = eventsFor tail j := by
  rw [eventsFor_append, eventsFor_eq_nil_of_silent mid hmid j, List.nil_append]

theorem seg_statusWrites_self_ok (ora : Oracle) (n : WorkGraphNode)
    (pu : Option String) (h : (runNodeCore ora n).2 = .ok pu) :
    statusWrites (runNodeCore ora n).1 n.id = [.running, .completed] := by
  obtain ⟨mid, hmid, hcase⟩ := runNodeCore_shape ora n
  rcases hcase with ⟨pu', hc⟩ | ⟨e, hc⟩
  · have h1 : (runNodeCore ora n).1 =
        [Action.setStatus n.id .running, startEvt n] ++ mid ++ doneSeg n := by rw [hc]
    rw [h1, List.append_assoc, statusWrites_append, statusWrites_cons_mid mid _ hmid]
    simp [statusWrites, Action.statusOf, startEvt, doneSeg]
  · rw [hc] at h
    cases h

theorem seg_statusWrites_self_err (ora : Oracle) (n : WorkGraphNode)
    (e : String) (h : (runNodeCore ora n).2 = .error e) :
    statusWrites (runNodeCore ora n).1 n.id = [.running, .failed] := by
  obtain ⟨mid, hmid, hcase⟩ := runNodeCore_shape ora n
  rcases hcase with ⟨pu', hc⟩ | ⟨e', hc⟩
  · rw [hc] at h
    cases h
  · have h1 : (runNodeCore ora n).1 =
        [Action.setStatus n.id .running, startEvt n] ++ mid ++ failSeg n e' := by rw [hc]
    rw [h1, List.append_assoc, statusWrites_append, statusWrites_cons_mid mid _ hmid]
    simp [statusWrites, Action.statusOf, startEvt, failSeg]

theorem seg_eventsFor_ne (ora : Oracle) (n : WorkGraphNode) (j : String)
    (h : j ≠ n.id) : eventsFor (runNodeCore ora n).1 j = [] := by
  obtain ⟨mid, hmid, hcase⟩ := runNodeCore_shape ora n
  have hall : ∀ a ∈ (runNodeCore ora n).1, nodeEvt? j a = none := by
    rcases hcase with ⟨pu, hc⟩ | ⟨e, hc⟩ <;> rw [hc] <;>
      intro a ha <;> simp only [List.mem_append, List.mem_cons, doneSeg, failSeg,
        List.mem_singleton, List.not_mem_nil, or_false] at ha
    · rcases ha with ((rfl | rfl) | ha) | (rfl | rfl)
      · rfl
      · exact nodeEvt?_startEvt_ne n j h
      · exact nodeEvt?_eq_none_of_silent a (hmid a ha) j
      · rfl
      · exact nodeEvt?_doneEvt_ne n j h
    · rcases ha with ((rfl | rfl) | ha) | (rfl | rfl)
      · rfl
      · exact nodeEvt?_startEvt_ne n j h
      · exact nodeEvt?_eq_none_of_silent a (hmid a ha) j
      · rfl
      · exact nodeEvt?_failEvt_ne n j e h
  exact filterMap_eq_nil_of_none _ _ hall

theorem seg_eventsFor_self_ok (ora : Oracle) (n : WorkGraphNode)
    (pu : Option String) (h : (runNodeCore ora n).2 = .ok pu) :
    eventsFor (runNodeCore ora n).1 n.id =
      [⟨startMsg n.id, "active", "Task: " ++ n.task⟩, ⟨doneMsg n.id, "completed", ""⟩] := by
  obtain ⟨mid, hmid, hcase⟩ := runNodeCore_shape ora n
  rcases hcase with ⟨pu', hc⟩ | ⟨e, hc⟩
  · have h1 : (runNodeCore ora n).1 =
        [Action.setStatus n.id .running, startEvt n] ++ mid ++ doneSeg n := by rw [hc]
    rw [h1, List.append_assoc, eventsFor_append, eventsFor_cons_mid mid _ hmid]
    simp only [eventsFor, doneSeg, List.filterMap_cons, List.filterMap_nil]
    rw [nodeEvt?_startEvt_self, nodeEvt?_doneEvt_self]
    rfl
  · rw [hc] at h
    cases h

theorem seg_eventsFor_self_err (ora : Oracle) (n : WorkGraphNode)
    (e : String) (h : (runNodeCore ora n).2 = .error e) :
    ∃ msg, e = taskFailMsg n.id n.task msg ∧
      eventsFor (runNodeCore ora n).1 n.id =
        [⟨startMsg n.id, "active", "Task: " ++ n.task⟩, ⟨failMsg n.id, "error", msg⟩] := by
  obtain ⟨mid, hmid, hcase⟩ := runNodeCore_shape ora n
  rcases hcase with ⟨pu', hc⟩ | ⟨e', hc⟩
  · rw [hc] at h
    cases h
  · have h2 : e = taskFailMsg n.id n.task e' := by
      rw [hc] at h
      exact (Except.error.inj h).symm
    refine ⟨e', h2, ?_⟩
    have h1 : (runNodeCore ora n).1 =
        [Action.setStatus n.id .running, startEvt n] ++ mid ++ failSeg n e' := by rw [hc]
    rw [h1, List.append_assoc, eventsFor_append, eventsFor_cons_mid mid _ hmid]
    simp only [eventsFor, failSeg, List.filterMap_cons, List.filterMap_nil]
    rw [nodeEvt?_startEvt_self, nodeEvt?_failEvt_self]
    rfl

theorem seg_no_waveStart (ora : Oracle) (n : WorkGraphNode) :
    ∀ a ∈ (runNodeCore ora n).1, ¬ IsWaveStart a := by
  obtain ⟨mid, hmid, hcase⟩ := runNodeCore_shape ora n
  have main : ∀ (tail : List Action), (∀ a ∈ tail, ¬ IsWaveStart a) →
      ∀ a ∈ [Action.setStatus n.id .running, startEvt n] ++ mid ++ tail, ¬ IsWaveStart a := by
    intro tail htail a ha
    simp only [List.mem_append, List.mem_cons, List.not_mem_nil, or_false] at ha
    rcases ha with ((rfl | rfl) | ha) | ha
    · rintro ⟨k, hk⟩
      cases hk
    · rintro ⟨k, hk⟩
      rw [startEvt] at hk
      have := (Action.emit.inj hk)
      exact batchMsg_ne_startMsg k n.id (congrArg ProgressEvent.step this).symm
    · exact not_waveStart_of_silent a (hmid a ha)
    · exact htail a ha
  rcases hcase with ⟨pu, hc⟩ | ⟨e, hc⟩
  · rw [hc]
    refine main (doneSeg n) ?_
    intro a ha
    simp only [doneSeg, List.mem_cons, List.not_mem_nil, or_false] at ha
    rcases ha with rfl | rfl
    · rintro ⟨k, hk⟩
      cases hk
    · rintro ⟨k, hk⟩
      exact batchMsg_ne_doneMsg k n.id (congrArg ProgressEvent.step (Action.emit.inj hk)).symm
  · rw [hc]
    refine main (failSeg n e) ?_
    intro a ha
    simp only [failSeg, List.mem_cons, List.not_mem_nil, or_false] at ha
    rcases ha with rfl | rfl
    · rintro ⟨k, hk⟩
      cases hk
    · rintro ⟨k, hk⟩
      exact batchMsg_ne_failMsg k n.id (congrArg ProgressEvent.step (Action.emit.inj hk)).symm

/-- If the head element of a list occurs nowhere in the tail, any
decomposition of the list at that element is at the head. -/
theorem decomp_head_unique {α : Type} (a : α) (t p r : List α) (x : α)
    (h : a :: t = p ++ x :: r) (hx : x ∉ t) : p = [] ∧ a = x := by
  cases p with
  | nil =>
      rw [List.nil_append] at h
      exact ⟨rfl, (List.cons.inj h).1⟩
  | cons b p' =>
      rw [List.cons_append] at h
      have h1 := List.cons.inj h
      have hmem : x ∈ t := by
        rw [h1.2]
        exact List.mem_append_right _ (List.mem_cons_self x r)
      exact absurd hmem hx

/-- In one dispatch segment the only `running` write is the first action. -/
theorem seg_run_decomp (ora : Oracle) (n : WorkGraphNode) (p r : List Action) (j : String)
    (h : (runNodeCore ora n).1 = p ++ Action.setStatus j .running :: r) :
    j = n.id ∧ p = [] := by
  obtain ⟨mid, hmid, hcase⟩ := runNodeCore_shape ora n
  have htails : ∃ tail : List Action,
      (∀ a ∈ tail, ∀ i, a ≠ Action.setStatus i .running) ∧
      (runNodeCore ora n).1 =
        Action.setStatus n.id .running :: (startEvt n :: (mid ++ tail)) := by
    rcases hcase with ⟨pu, hc⟩ | ⟨e, hc⟩
    · refine ⟨doneSeg n, ?_, by rw [hc]; simp⟩
      intro a ha i
      simp only [doneSeg, List.mem_cons, List.not_mem_nil, or_false] at ha
      rcases ha with rfl | rfl <;> simp
    · refine ⟨failSeg n e, ?_, by rw [hc]; simp⟩
      intro a ha i
      simp only [failSeg, List.mem_cons, List.not_mem_nil, or_false] at ha
      rcases ha with rfl | rfl <;> simp
  obtain ⟨tail, htail, hc⟩ := htails
  rw [hc] at h
  have hx : Action.setStatus j .running ∉ startEvt n :: (mid ++ tail) := by
    intro hmem
    rcases List.mem_cons.mp hmem with hm | hm
    · rw [startEvt] at hm
      cases hm
    · rcases List.mem_append.mp hm with hm2 | hm2
      · exact ((hmid _ hm2).2 j .running) rfl
      · exact (htail _ hm2 j) rfl
  obtain ⟨hp, ha⟩ := decomp_head_unique _ _ _ _ _ h hx
  exact ⟨(Action.setStatus.inj ha).1.symm, hp⟩

/-! ### Well-formedness of the node map and the index maps -/

theorem has_set {α : Type} (m : JsMap α) (k k' : String) (v : α) :
    (m.set k v).has k' ↔ (k' = k ∨ m.has k') := by
  induction m with
  | nil =>
      show JsMap.has [(k, v)] k' ↔ _
      rw [JsMap.has_cons]
      simp only [Bool.or_eq_true, decide_eq_true_eq]
      constructor
      · rintro (h | h)
        · exact Or.inl h.symm
        · exact Or.inr h
      · rintro (h | h)
        · exact Or.inl h.symm
        · exact Or.inr h
  | cons e rest ih =>
      rw [JsMap.set_cons]
      by_cases he : e.1 = k
      · rw [if_pos he]
        simp only [JsMap.has_cons, Bool.or_eq_true, decide_eq_true_eq]
        subst he
        constructor
        · rintro (h | h)
          · exact Or.inl h.symm
          · exact Or.inr (Or.inr h)
        · rintro (h | h | h)
          · exact Or.inl h.symm
          · exact Or.inl h
          · exact Or.inr h
      · rw [if_neg he]
        simp only [JsMap.has_cons, Bool.or_eq_true, decide_eq_true_eq] at *
        constructor
        · rintro (h | h)
          · exact Or.inr (Or.inl h)
          · rcases ih.mp h with h1 | h1
            · exact Or.inl h1
            · exact Or.inr (Or.inr h1)
        · rintro (h | h | h)
          · exact Or.inr (ih.mpr (Or.inl h))
          · exact Or.inl h
          · exact Or.inr (ih.mpr (Or.inr h))

theorem nodup_keys_set {α : Type} (m : JsMap α) (k : String) (v : α)
    (h : m.keys.Nodup) : (m.set k v).keys.Nodup := by
  rw [JsMap.keys_set]
  by_cases hh : m.has k
  · rw [if_pos hh]
    exact h
  · rw [if_neg hh]
    rw [List.nodup_append]
    refine ⟨h, List.nodup_singleton k, ?_⟩
    intro x hx hk
    rw [List.mem_singleton] at hk
    subst hk
    exact hh ((JsMap.mem_keys_iff_has m x).mp hx)

theorem mem_set_elim {α : Type} (m : JsMap α) (k : String) (v : α) (e : String × α)
    (h : e ∈ m.set k v) : e = (k, v) ∨ e ∈ m := by
  induction m with
  | nil =>
      simp only [JsMap.set, List.mem_singleton] at h
      exact Or.inl h
  | cons b rest ih =>
      rw [JsMap.set_cons] at h
      by_cases hb : b.1 = k
      · rw [if_pos hb] at h
        rcases List.mem_cons.mp h with rfl | hm
        · exact Or.inl rfl
        · exact Or.inr (List.mem_cons_of_mem _ hm)
      · rw [if_neg hb] at h
        rcases List.mem_cons.mp h with rfl | hm
        · exact Or.inr (List.mem_cons_self _ _)
        · rcases ih hm with h1 | h1
          · exact Or.inl h1
          · exact Or.inr (List.mem_cons_of_mem _ h1)

/-- The node map is well formed: distinct keys, each entry keyed by its
node's id, each stored node an input node. -/
theorem buildNodeMap_wf (g : WorkGraph) :
    (buildNodeMap g).keys.Nodup ∧
      ∀ e ∈ buildNodeMap g, e.2.id = e.1 ∧ e.2 ∈ g.nodes := by
  have main : ∀ (l : List WorkGraphNode) (m0 : JsMap WorkGraphNode),
      m0.keys.Nodup → (∀ e ∈ m0, e.2.id = e.1 ∧ e.2 ∈ g.nodes) →
      (∀ n ∈ l, n ∈ g.nodes) →
      ((l.map (fun n => (n.id, n))).foldl (fun m e => m.set e.1 e.2) m0).keys.Nodup ∧
        ∀ e ∈ (l.map (fun n => (n.id, n))).foldl (fun m e => m.set e.1 e.2) m0,
          e.2.id = e.1 ∧ e.2 ∈ g.nodes := by
    intro l
    induction l with
    | nil => exact fun m0 h1 h2 _ => ⟨h1, h2⟩
    | cons n rest ih =>
        intro m0 h1 h2 hmem
        simp only [List.map_cons, List.foldl_cons]
        refine ih (m0.set n.id n) (nodup_keys_set m0 n.id n h1) ?_
          (fun x hx => hmem x (List.mem_cons_of_mem _ hx))
        intro e he
        rcases mem_set_elim m0 n.id n e he with rfl | he2
        · exact ⟨rfl, hmem n (List.mem_cons_self _ _)⟩
        · exact h2 e he2
  have h := main g.nodes [] (by simp [JsMap.keys]) (by simp) (fun n hn => hn)
  exact h

/-- The dependsOn list the scheduler sees for id `j` (empty for a missing id). -/
def depsOf (m : JsMap WorkGraphNode) (j : String) : List String :=
  match m.get? j with
  | some n => n.dependsOn
  | none => []

/-- Total dependency occurrences of `a` among the entries of `l` keyed `j`. -/
def contrib (l : List (String × WorkGraphNode)) (j a : String) : Nat :=
  ((l.filter (fun e => e.1 == j)).map (fun e => e.2.dependsOn.count a)).sum

/-- One step of the dependency-edge loop (source lines 157-162). -/
def depStep (nid : String) (acc : JsMap Int × JsMap (List String)) (depId : String) :
    JsMap Int × JsMap (List String) :=
  if acc.2.has depId then
    (acc.1.set nid (acc.1.getD nid 0 + 1),
     acc.2.set depId (acc.2.getD depId [] ++ [nid]))
  else acc

theorem buildIndices_def (m : JsMap WorkGraphNode) :
    buildIndices m =
      m.foldl (fun acc e => e.2.dependsOn.foldl (depStep e.2.id) acc)
        (m.map (fun e => (e.1, (0 : Int))), m.map (fun e => (e.1, ([] : List String)))) := rfl

theorem depFold_spec (nid : String) (Ks : List String) (hnid : nid ∈ Ks)
    (deps : List String) :
    ∀ (acc : JsMap Int × JsMap (List String)),
      acc.1.keys = Ks → acc.2.keys = Ks →
      (deps.foldl (depStep nid) acc).1.keys = Ks ∧
      (deps.foldl (depStep nid) acc).2.keys = Ks ∧
      (deps.foldl (depStep nid) acc).1.getD nid 0 =
        acc.1.getD nid 0 + (deps.countP (fun d => decide (d ∈ Ks)) : Int) ∧
      (∀ j, j ≠ nid → (deps.foldl (depStep nid) acc).1.getD j 0 = acc.1.getD j 0) ∧
      (∀ a, (deps.foldl (depStep nid) acc).2.getD a [] =
        acc.2.getD a [] ++ List.replicate (if a ∈ Ks then deps.count a else 0) nid) := by
  induction deps with
  | nil =>
      intro acc h1 h2
      refine ⟨h1, h2, by simp, fun j _ => rfl, fun a => by simp⟩
  | cons d rest ih =>
      intro acc h1 h2
      rw [List.foldl_cons]
      by_cases hd : d ∈ Ks
      · have hhas : acc.2.has d := by
          rw [← JsMap.mem_keys_iff_has, h2]
          exact hd
        have hstep : depStep nid acc d =
            (acc.1.set nid (acc.1.getD nid 0 + 1),
             acc.2.set d (acc.2.getD d [] ++ [nid])) := by
          rw [depStep, if_pos hhas]
        rw [hstep]
        have hk1 : (acc.1.set nid (acc.1.getD nid 0 + 1)).keys = Ks := by
          rw [JsMap.keys_set, if_pos (by rw [← JsMap.mem_keys_iff_has, h1]; exact hnid)]
          exact h1
        have hk2 : (acc.2.set d (acc.2.getD d [] ++ [nid])).keys = Ks := by
          rw [JsMap.keys_set, if_pos hhas]
          exact h2
        obtain ⟨r1, r2, r3, r4, r5⟩ :=
          ih (acc.1.set nid (acc.1.getD nid 0 + 1),
              acc.2.set d (acc.2.getD d [] ++ [nid])) hk1 hk2
        refine ⟨r1, r2, ?_, ?_, ?_⟩
        · rw [r3, JsMap.getD_set_self, List.countP_cons,
            if_pos (show decide (d ∈ Ks) = true from by simp [hd])]
          push_cast
          ring
        · intro j hj
          rw [r4 j hj, JsMap.getD_set_ne _ _ _ _ _ (fun hh => hj hh.symm)]
        · intro a
          rw [r5 a]
          by_cases ha : a = d
          · subst ha
            rw [JsMap.getD_set_self, if_pos hd, if_pos hd, List.count_cons_self,
              List.replicate_succ, List.append_assoc]
            rfl
          · rw [JsMap.getD_set_ne _ _ _ _ _ (fun hh => ha hh.symm),
              List.count_cons_of_ne ha]
      · have hhas : ¬ acc.2.has d := by
          rw [← JsMap.mem_keys_iff_has, h2]
          exact hd
        have hstep : depStep nid acc d = acc := by
          rw [depStep, if_neg hhas]
        rw [hstep]
        obtain ⟨r1, r2, r3, r4, r5⟩ := ih acc h1 h2
        refine ⟨r1, r2, ?_, r4, ?_⟩
        · rw [r3, List.countP_cons,
            if_neg (show ¬ decide (d ∈ Ks) = true from by simp [hd])]
          simp
        · intro a
          rw [r5 a]
          by_cases ha : a ∈ Ks
          · have had : a ≠ d := fun hh => hd (hh ▸ ha)
            rw [if_pos ha, if_pos ha, List.count_cons_of_ne had]
          · rw [if_neg ha, if_neg ha]

theorem indexFold_spec (Ks : List String) :
    ∀ (l : List (String × WorkGraphNode)),
      (∀ e ∈ l, e.2.id = e.1) → (∀ e ∈ l, e.1 ∈ Ks) → (l.map (·.1)).Nodup →
      ∀ (acc : JsMap Int × JsMap (List String)),
        acc.1.keys = Ks → acc.2.keys = Ks →
        (l.foldl (fun acc e => e.2.dependsOn.foldl (depStep e.2.id) acc) acc).1.keys = Ks ∧
        (l.foldl (fun acc e => e.2.dependsOn.foldl (depStep e.2.id) acc) acc).2.keys = Ks ∧
        (∀ e ∈ l,
          (l.foldl (fun acc e => e.2.dependsOn.foldl (depStep e.2.id) acc) acc).1.getD e.1 0 =
            acc.1.getD e.1 0 + (e.2.dependsOn.countP (fun d => decide (d ∈ Ks)) : Int)) ∧
        (∀ j, j ∉ l.map (·.1) →
          (l.foldl (fun acc e => e.2.dependsOn.foldl (depStep e.2.id) acc) acc).1.getD j 0 =
            acc.1.getD j 0) ∧
        (∀ a j,
          ((l.foldl (fun acc e => e.2.dependsOn.foldl (depStep e.2.id) acc) acc).2.getD a []).count j =
            (acc.2.getD a []).count j + (if a ∈ Ks then contrib l j a else 0)) ∧
        (∀ a x,
          x ∈ (l.foldl (fun acc e => e.2.dependsOn.foldl (depStep e.2.id) acc) acc).2.getD a [] →
            x ∈ acc.2.getD a [] ∨ x ∈ l.map (·.1)) := by
  intro l
  induction l with
  | nil =>
      intro _ _ _ acc h1 h2
      refine ⟨h1, h2, by simp, fun j _ => rfl, fun a j => by simp [contrib], ?_⟩
      intro a x hx
      exact Or.inl hx
  | cons e rest ih =>
      intro hids hkeys hnodup acc h1 h2
      rw [List.foldl_cons]
      have hnid : e.2.id ∈ Ks := by
        rw [hids e (List.mem_cons_self _ _)]
        exact hkeys e (List.mem_cons_self _ _)
      obtain ⟨s1, s2, s3, s4, s5⟩ :=
        depFold_spec e.2.id Ks hnid e.2.dependsOn acc h1 h2
      set acc' := e.2.dependsOn.foldl (depStep e.2.id) acc with hacc'
      have hrest_nodup : (rest.map (·.1)).Nodup := (List.nodup_cons.mp hnodup).2
      have hnotin : e.1 ∉ rest.map (·.1) := by
        have := (List.nodup_cons.mp hnodup).1
        simpa using this
      obtain ⟨t1, t2, t3, t4, t5, t6⟩ :=
        ih (fun x hx => hids x (List.mem_cons_of_mem _ hx))
          (fun x hx => hkeys x (List.mem_cons_of_mem _ hx)) hrest_nodup acc' s1 s2
      refine ⟨t1, t2, ?_, ?_, ?_, ?_⟩
      · intro e' he'
        rcases List.mem_cons.mp he' with rfl | he2
        · rw [t4 e'.1 hnotin, ← hids e' (List.mem_cons_self _ _), s3,
            hids e' (List.mem_cons_self _ _)]
        · rw [t3 e' he2, s4]
          intro hh
          rw [hids e (List.mem_cons_self _ _)] at hh
          apply hnotin
          rw [← hh]
          exact List.mem_map_of_mem (·.1) he2
      · intro j hj
        have hj1 : j ∉ rest.map (·.1) := fun hh => hj (List.mem_cons_of_mem _ hh)
        have hj2 : j ≠ e.1 := by
          intro hh
          exact hj (hh ▸ List.mem_cons_self _ _)
        rw [t4 j hj1, s4 j (by rw [hids e (List.mem_cons_self _ _)]; exact hj2)]
      · intro a j
        have hee : e.2.id = e.1 := hids e (List.mem_cons_self _ _)
        have hcontrib : contrib (e :: rest) j a =
            (if e.1 = j then e.2.dependsOn.count a else 0) + contrib rest j a := by
          rw [contrib, contrib, List.filter_cons]
          by_cases hej : e.1 = j
          · rw [if_pos (by simpa using hej), if_pos hej, List.map_cons, List.sum_cons]
          · rw [if_neg (by simpa using hej), if_neg hej, Nat.zero_add]
        rw [t5 a j, s5 a, List.count_append, List.count_replicate, hcontrib, hee]
        by_cases ha : a ∈ Ks
        · by_cases hej : j = e.1
          · rw [if_pos (show (e.1 == j) = true from by simp [hej]), if_pos ha, if_pos ha,
              if_pos ha, if_pos (show e.1 = j from hej.symm)]
            omega
          · rw [if_neg (show ¬ (e.1 == j) = true from by
                simpa using fun hh => hej hh.symm), if_pos ha, if_pos ha,
              if_neg (show ¬ e.1 = j from fun hh => hej hh.symm)]
            omega
        · by_cases hej : j = e.1
          · rw [if_pos (show (e.1 == j) = true from by simp [hej]), if_neg ha, if_neg ha,
              if_neg ha]
            try omega
          · rw [if_neg (show ¬ (e.1 == j) = true from by
                simpa using fun hh => hej hh.symm), if_neg ha, if_neg ha]
            try omega
      · intro a x hx
        rcases t6 a x hx with hx1 | hx1
        · rw [s5 a] at hx1
          rcases List.mem_append.mp hx1 with hx2 | hx2
          · exact Or.inl hx2
          · right
            have := List.eq_of_mem_replicate hx2
            subst this
            rw [hids e (List.mem_cons_self _ _), List.map_cons]
            exact List.mem_cons_self _ _
        · right
          rw [List.map_cons]
          exact List.mem_cons_of_mem _ hx1

theorem const_entries_get? {α β : Type} (m : JsMap α) (c : β) (k : String) :
    JsMap.get? (List.map (fun e => (e.1, c)) m) k = (m.get? k).map (fun x => c) := by
  induction m with
  | nil => rfl
  | cons e rest ih =>
      rw [List.map_cons, JsMap.get?_cons, JsMap.get?_cons]
      by_cases he : e.1 = k
      · rw [if_pos he, if_pos he]
        rfl
      · rw [if_neg he, if_neg he]
        exact ih

theorem const_entries_keys {α β : Type} (m : JsMap α) (c : β) :
    JsMap.keys (List.map (fun e => (e.1, c)) m) = m.keys := by
  simp [JsMap.keys, List.map_map]

theorem decide_mem_keys {α : Type} (m : JsMap α) (d : String) :
    decide (d ∈ m.keys) = m.has d := by
  by_cases h : m.has d
  · simp [h, (JsMap.mem_keys_iff_has m d).mpr h]
  · have hm : d ∉ m.keys := fun hm => h ((JsMap.mem_keys_iff_has m d).mp hm)
    have h2 : m.has d = false := by
      cases hh : m.has d
      · rfl
      · exact absurd hh h
    rw [h2, decide_eq_false hm]

theorem get?_eq_iff_mem {α : Type} (m : JsMap α) (hnodup : m.keys.Nodup)
    (k : String) (v : α) : m.get? k = some v ↔ (k, v) ∈ m := by
  constructor
  · exact JsMap.get?_eq_some_mem m k v
  · intro hm
    induction m with
    | nil => cases hm
    | cons e rest ih =>
        have hnd := hnodup
        rw [JsMap.keys, List.map_cons, List.nodup_cons] at hnd
        rw [JsMap.get?_cons]
        rcases List.mem_cons.mp hm with heq | hm2
        · rw [← heq, if_pos rfl]
        · by_cases he : e.1 = k
          · exfalso
            apply hnd.1
            rw [he]
            exact List.mem_map_of_mem (·.1) hm2
          · rw [if_neg he]
            exact ih hnd.2 hm2

theorem contrib_nil_of_not_mem (l : List (String × WorkGraphNode)) (j a : String)
    (hj : j ∉ l.map (·.1)) : contrib l j a = 0 := by
  rw [contrib]
  have hfil : l.filter (fun e => e.1 == j) = [] := by
    rw [List.filter_eq_nil_iff]
    intro e he hbeq
    apply hj
    have he1 : e.1 = j := by simpa using hbeq
    rw [← he1]
    exact List.mem_map_of_mem (·.1) he
  rw [hfil]
  rfl

theorem contrib_eq_depsOf (m : JsMap WorkGraphNode) (hnodup : m.keys.Nodup)
    (j a : String) : contrib m j a = (depsOf m j).count a := by
  induction m with
  | nil => rfl
  | cons e rest ih =>
      have hnd := hnodup
      rw [JsMap.keys, List.map_cons, List.nodup_cons] at hnd
      rw [contrib, List.filter_cons, depsOf, JsMap.get?_cons]
      by_cases he : e.1 = j
      · rw [if_pos (by simpa using he), if_pos he, List.map_cons, List.sum_cons]
        have hz : contrib rest j a = 0 :=
          contrib_nil_of_not_mem rest j a (he ▸ hnd.1)
        rw [contrib] at hz
        rw [hz, Nat.add_zero]
      · rw [if_neg (by simpa using he), if_neg he]
        have := ih hnd.2
        rw [contrib, depsOf] at this
        exact this

/-- Bundled well-formedness facts about the two index maps. -/
theorem buildIndices_spec (m : JsMap WorkGraphNode)
    (hnodup : m.keys.Nodup) (hids : ∀ e ∈ m, e.2.id = e.1) :
    (buildIndices m).1.keys = m.keys ∧
    (buildIndices m).2.keys = m.keys ∧
    (∀ e ∈ m, (buildIndices m).1.getD e.1 0 =
      (e.2.dependsOn.countP (fun d => m.has d) : Int)) ∧
    (∀ j, ¬ m.has j → (buildIndices m).1.getD j 0 = 0) ∧
    (∀ a j, ((buildIndices m).2.getD a []).count j =
      if m.has a then (depsOf m j).count a else 0) ∧
    (∀ a x, x ∈ (buildIndices m).2.getD a [] → m.has x) := by
  rw [buildIndices_def]
  have hk1 : JsMap.keys (List.map (fun e => (e.1, (0 : Int))) m) = m.keys :=
    const_entries_keys m (0 : Int)
  have hk2 : JsMap.keys (List.map (fun e => (e.1, ([] : List String))) m) = m.keys :=
    const_entries_keys m ([] : List String)
  obtain ⟨t1, t2, t3, t4, t5, t6⟩ :=
    indexFold_spec m.keys m hids (fun e he => List.mem_map_of_mem (·.1) he) hnodup
      (List.map (fun e => (e.1, (0 : Int))) m, List.map (fun e => (e.1, ([] : List String))) m)
      hk1 hk2
  have hdeg0 : ∀ j, JsMap.getD (List.map (fun e => (e.1, (0 : Int))) m) j 0 = 0 := by
    intro j
    rw [JsMap.getD, const_entries_get?]
    cases m.get? j <;> rfl
  have hadj0 : ∀ a, JsMap.getD (List.map (fun e => (e.1, ([] : List String))) m) a [] = [] := by
    intro a
    rw [JsMap.getD, const_entries_get?]
    cases m.get? a <;> rfl
  have hcontrib_eq : ∀ j a, contrib m j a = (depsOf m j).count a :=
    fun j a => contrib_eq_depsOf m hnodup j a
  refine ⟨t1, t2, ?_, ?_, ?_, ?_⟩
  · intro e he
    rw [t3 e he, hdeg0, zero_add]
    congr 1
    apply List.countP_congr
    intro d _
    rw [← decide_mem_keys m d]
  · intro j hj
    have hj2 : j ∉ m.map (·.1) := fun hh => hj ((JsMap.mem_keys_iff_has m j).mp hh)
    rw [t4 j hj2, hdeg0]
  · intro a j
    rw [t5 a j, hadj0]
    simp only [List.count_nil, Nat.zero_add]
    rw [hcontrib_eq j a]
    by_cases ha : m.has a
    · rw [if_pos ((JsMap.mem_keys_iff_has m a).mpr ha), if_pos ha]
    · rw [if_neg (fun hh => ha ((JsMap.mem_keys_iff_has m a).mp hh)), if_neg ha]
  · intro a x hx
    rcases t6 a x hx with h | h
    · rw [hadj0] at h
      cases h
    · exact (JsMap.mem_keys_iff_has m x).mp h

/-! ### Generic list helpers for the execution invariant -/

theorem decomp_unique {α : Type} (p : List α) :
    ∀ (l r p' r' : List α) (x : α), l = p ++ x :: r → l = p' ++ x :: r' →
      x ∉ p → x ∉ r → p' = p ∧ r' = r := by
  induction p with
  | nil =>
      intro l r p' r' x h1 h2 hp hr
      rw [List.nil_append] at h1
      subst h1
      obtain ⟨hp', hx⟩ := decomp_head_unique x r p' r' x h2 hr
      subst hp'
      rw [List.nil_append] at h2
      exact ⟨rfl, (List.cons.inj h2).2.symm⟩
  | cons b p₁ ih =>
      intro l r p' r' x h1 h2 hp hr
      rcases p' with _ | ⟨b', p₂⟩
      · rw [List.nil_append] at h2
        subst h2
        rw [List.cons_append] at h1
        have hx := (List.cons.inj h1).1
        exact absurd (hx ▸ List.mem_cons_self b p₁) hp
      · rw [List.cons_append] at h1 h2
        subst h1
        have hb := (List.cons.inj h2).1
        have ht := (List.cons.inj h2).2
        have hxp : x ∉ p₁ := fun hh => hp (List.mem_cons_of_mem _ hh)
        obtain ⟨hpp, hrr⟩ := ih (p₁ ++ x :: r) r p₂ r' x rfl ht hxp hr
        exact ⟨by rw [hb, hpp], hrr⟩

theorem trace_decomp_split {α : Type} (t acts p r : List α) (x : α)
    (h : t ++ acts = p ++ x :: r) :
    (∃ r₀, t = p ++ x :: r₀ ∧ r = r₀ ++ acts) ∨
    (∃ p₂, acts = p₂ ++ x :: r ∧ p = t ++ p₂) := by
  rcases List.append_eq_append_iff.mp h with ⟨a', ha1, ha2⟩ | ⟨c', hc1, hc2⟩
  · exact Or.inr ⟨a', ha2, ha1⟩
  · rcases c' with _ | ⟨x', c₂⟩
    · rw [List.append_nil] at hc1
      rw [List.nil_append] at hc2
      exact Or.inr ⟨[], hc2.symm, by rw [hc1, List.append_nil]⟩
    · have hx := (List.cons.inj hc2).1
      have hr := (List.cons.inj hc2).2
      subst hx
      exact Or.inl ⟨c₂, by rw [hc1], hr⟩

theorem mem_statusWrites (tr : List Action) (id : String) (s : NodeStatus) :
    s ∈ statusWrites tr id ↔ Action.setStatus id s ∈ tr := by
  constructor
  · intro h
    rcases List.mem_filterMap.mp h with ⟨a, ha, hfa⟩
    cases a with
    | setStatus j s' =>
        rw [Action.statusOf] at hfa
        by_cases hj : j = id
        · rw [if_pos hj] at hfa
          cases hfa
          subst hj
          exact ha
        · rw [if_neg hj] at hfa
          cases hfa
    | emit e => cases hfa
    | callWorker a b => cases hfa
    | saveCodeLocally a b => cases hfa
    | streamFileToVM a b => cases hfa
    | startVM => cases hfa
  · intro h
    exact List.mem_filterMap.mpr ⟨Action.setStatus id s, h, by
      rw [Action.statusOf, if_pos rfl]⟩

theorem getLast?_mem {α : Type} (l : List α) (a : α) (h : l.getLast? = some a) :
    a ∈ l := by
  induction l with
  | nil => cases h
  | cons b t ih =>
      rcases t with _ | ⟨c, t'⟩
      · rw [List.getLast?_singleton] at h
        cases h
        exact List.mem_cons_self _ _
      · rw [List.getLast?_cons_cons] at h
        exact List.mem_cons_of_mem _ (ih h)

theorem statusIn_mem_writes (tr : List Action) (id : String)
    (h : statusIn tr id ≠ .pending) : statusIn tr id ∈ statusWrites tr id := by
  rw [statusIn_def] at h ⊢
  cases hl : (statusWrites tr id).getLast? with
  | none => exact absurd (by rw [hl]; rfl) h
  | some s =>
      show s ∈ statusWrites tr id
      exact getLast?_mem _ _ hl

theorem setStatus_mem_of_statusIn (tr : List Action) (id : String) (s : NodeStatus)
    (hs : s ≠ .pending) (h : statusIn tr id = s) : Action.setStatus id s ∈ tr := by
  rw [← h]
  exact (mem_statusWrites tr id _).mp
    (statusIn_mem_writes tr id (by rw [h]; exact hs))

theorem countP_congr_mem {l : List String} (p q : String → Bool)
    (h : ∀ x ∈ l, p x = q x) : l.countP p = l.countP q := by
  induction l with
  | nil => rfl
  | cons a t ih =>
      rw [List.countP_cons, List.countP_cons, h a (List.mem_cons_self _ _),
        ih (fun x hx => h x (List.mem_cons_of_mem _ hx))]

theorem countP_update_nodup (l : List String) (hnodup : l.Nodup) (A : String)
    (hA : A ∈ l) (p p' : String → Bool) (hothers : ∀ j, j ≠ A → p' j = p j)
    (hpA : p A = false) (hp'A : p' A = true) :
    l.countP p' = l.countP p + 1 := by
  induction l with
  | nil => cases hA
  | cons a t ih =>
      have hnd := List.nodup_cons.mp hnodup
      rcases List.mem_cons.mp hA with rfl | hA2
      · have hct : t.countP p' = t.countP p :=
          countP_congr_mem p' p (fun x hx => hothers x (fun hh => hnd.1 (hh ▸ hx)))
        rw [List.countP_cons, List.countP_cons, hpA, hp'A, hct, if_pos rfl,
          if_neg (by simp)]
      · have ha : a ≠ A := fun hh => hnd.1 (hh ▸ hA2)
        rw [List.countP_cons, List.countP_cons, hothers a ha, ih hnd.2 hA2]
        omega

theorem countP_flip_at (l : List String) (A : String) (p p' : String → Bool)
    (hothers : ∀ x, x ≠ A → p' x = p x) (hpA : p A = true) (hp'A : p' A = false) :
    l.countP p' = l.countP p - l.count A ∧ l.count A ≤ l.countP p := by
  induction l with
  | nil => exact ⟨rfl, Nat.le_refl 0⟩
  | cons a t ih =>
      rcases ih with ⟨ih1, ih2⟩
      by_cases ha : a = A
      · subst ha
        rw [List.countP_cons, List.countP_cons, List.count_cons_self, hpA, hp'A,
          if_pos rfl, if_neg (by simp)]
        constructor
        · omega
        · omega
      · rw [List.countP_cons, List.countP_cons,
          List.count_cons_of_ne (fun hh => ha hh.symm), hothers a ha]
        constructor
        · omega
        · omega

theorem count_le_countP (l : List String) (A : String) (p : String → Bool)
    (hpA : p A = true) : l.count A ≤ l.countP p := by
  induction l with
  | nil => exact Nat.le_refl 0
  | cons a t ih =>
      by_cases ha : a = A
      · subst ha
        rw [List.count_cons_self, List.countP_cons, hpA, if_pos rfl]
        omega
      · rw [List.count_cons_of_ne (fun hh => ha hh.symm), List.countP_cons]
        omega

theorem countP_eq_length_iff (l : List String) (p : String → Bool) :
    l.countP p = l.length ↔ ∀ x ∈ l, p x = true :=
  List.countP_eq_length

/-! ### The execution invariant -/

/-- Is `a` the error progress event of some node? -/
def IsFailEvt (a : Action) : Prop :=
  ∃ id e, a = Action.emit ⟨failMsg id, "error", e⟩

/-- Number of `dependsOn` occurrences of `id` that still block it: entries
naming an existing node whose status is not yet `completed`. -/
def depCount (m : JsMap WorkGraphNode) (tr : List Action) (id : String) : Nat :=
  (depsOf m id).countP (fun d => m.has d && decide (statusIn tr d ≠ NodeStatus.completed))

/-- The inductive invariant of the scheduler state.  `rem` is the part of
the current wave's batch that is still to be dispatched (`[]` at wave
boundaries). -/
structure Inv (ora : Oracle) (m : JsMap WorkGraphNode) (st : PState)
    (rem : List String) : Prop where
  queueNodup : st.queue.Nodup
  queueKeys : ∀ id ∈ st.queue, m.has id = true
  queuePending : ∀ id ∈ st.queue, statusIn st.trace id = .pending
  queueDegZero : ∀ id ∈ st.queue, st.inDegree.getD id 0 = 0
  remNodup : rem.Nodup
  remKeys : ∀ id ∈ rem, m.has id = true
  remPending : ∀ id ∈ rem, statusIn st.trace id = .pending
  remDegZero : ∀ id ∈ rem, st.inDegree.getD id 0 = 0
  remQueueDisj : ∀ id ∈ rem, id ∉ st.queue
  degSpec : ∀ id, m.has id = true →
    st.inDegree.getD id 0 = (depCount m st.trace id : Int)
  degNotKey : ∀ id, ¬ m.has id = true → st.inDegree.getD id 0 = 0
  pendingPos : ∀ id, m.has id = true → statusIn st.trace id = .pending →
    id ∉ st.queue → id ∉ rem → 0 < st.inDegree.getD id 0
  termDeps : ∀ id, m.has id = true → statusIn st.trace id ≠ .pending →
    ∀ d ∈ depsOf m id, m.has d = true → statusIn st.trace d = .completed
  countEq : st.completedCount =
    m.keys.countP (fun id => statusIn st.trace id == NodeStatus.completed)
  writesShape : ∀ id, statusWrites st.trace id = [] ∨
    statusWrites st.trace id = [.running, .completed] ∨
    statusWrites st.trace id = [.running, .failed]
  writesKey : ∀ id, ¬ m.has id = true → statusWrites st.trace id = []
  eventsKey : ∀ id, ¬ m.has id = true → eventsFor st.trace id = []
  eventsShape : ∀ id (n : WorkGraphNode), m.get? id = some n →
    (statusWrites st.trace id = [] ∧ eventsFor st.trace id = []) ∨
    (statusWrites st.trace id = [.running, .completed] ∧
      eventsFor st.trace id =
        [⟨startMsg id, "active", "Task: " ++ n.task⟩, ⟨doneMsg id, "completed", ""⟩]) ∨
    (∃ e, statusWrites st.trace id = [.running, .failed] ∧
      eventsFor st.trace id =
        [⟨startMsg id, "active", "Task: " ++ n.task⟩, ⟨failMsg id, "error", e⟩])
  depsDone : ∀ p j r, st.trace = p ++ Action.setStatus j .running :: r →
    ∀ n, m.get? j = some n → ∀ d ∈ n.dependsOn, m.has d = true →
      Action.setStatus d .completed ∈ p
  genPersist : ∀ p j r, st.trace = p ++ Action.setStatus j .completed :: r →
    ∀ n, m.get? j = some n → n.task.startsWith "generate-" = true →
      ∃ w, ora.worker n.task n.id n.description = .ok w ∧
        Action.saveCodeLocally w.fileName w.code ∈ p ∧
        Action.streamFileToVM w.fileName w.code ∈ p
  failNone : st.failure = none → ∀ id, statusIn st.trace id ≠ .failed
  failSome : ∀ msg, st.failure = some msg → ∃ id n, m.get? id = some n ∧
    statusIn st.trace id = .failed ∧ ∃ e, msg = taskFailMsg id n.task e
  noWaveAfterFail : ∀ p a r, st.trace = p ++ a :: r → IsFailEvt a →
    ∀ b ∈ r, ¬ IsWaveStart b

theorem relaxDependents_spec (adjA : List String) :
    ∀ (st : PState), (∀ d ∈ adjA, (adjA.count d : Int) ≤ st.inDegree.getD d 0) →
      (∀ d, (relaxDependents adjA st).inDegree.getD d 0 =
        st.inDegree.getD d 0 - (adjA.count d : Int)) ∧
      (∃ pushed : List String,
        (relaxDependents adjA st).queue = st.queue ++ pushed ∧ pushed.Nodup ∧
        (∀ x, x ∈ pushed ↔ (0 < st.inDegree.getD x 0 ∧
          st.inDegree.getD x 0 = (adjA.count x : Int)))) ∧
      (relaxDependents adjA st).trace = st.trace ∧
      (relaxDependents adjA st).completedCount = st.completedCount ∧
      (relaxDependents adjA st).previewUrl = st.previewUrl ∧
      (relaxDependents adjA st).failure = st.failure := by
  induction adjA with
  | nil =>
      intro st hbound
      refine ⟨fun d => by simp [relaxDependents], ⟨[], by simp [relaxDependents],
        List.nodup_nil, ?_⟩, rfl, rfl, rfl, rfl⟩
      intro x
      simp only [List.not_mem_nil, List.count_nil, Nat.cast_zero, false_iff]
      rintro ⟨h1, h2⟩
      omega
  | cons d rest ih =>
      intro st hbound
      have hcnt_head := hbound d (List.mem_cons_self _ _)
      rw [List.count_cons_self] at hcnt_head
      by_cases hz : st.inDegree.getD d 0 - 1 = 0
      · have hstep : relaxDependents (d :: rest) st =
            relaxDependents rest
              { st with inDegree := st.inDegree.set d (st.inDegree.getD d 0 - 1),
                        queue := st.queue ++ [d] } := by
          rw [relaxDependents, List.foldl_cons, relaxDependents]
          congr 1
          rw [if_pos (by rw [JsMap.getD_set_self]; exact hz)]
        set st' : PState :=
          { st with inDegree := st.inDegree.set d (st.inDegree.getD d 0 - 1),
                    queue := st.queue ++ [d] } with hst'
        have hdeg' : ∀ x, st'.inDegree.getD x 0 =
            if x = d then st.inDegree.getD d 0 - 1 else st.inDegree.getD x 0 := by
          intro x
          by_cases hx : x = d
          · subst hx
            simp only [hst', if_pos rfl]
            exact JsMap.getD_set_self _ _ _ _
          · simp only [hst', if_neg hx]
            exact JsMap.getD_set_ne _ _ _ _ _ (fun hh => hx hh.symm)
        have hbound' : ∀ x ∈ rest, ((rest.count x : Int)) ≤ st'.inDegree.getD x 0 := by
          intro x hx
          rw [hdeg' x]
          by_cases hxd : x = d
          · subst hxd
            rw [if_pos rfl]
            have hb := hbound x (List.mem_cons_of_mem _ hx)
            rw [List.count_cons_self] at hb
            push_cast at hb ⊢
            omega
          · rw [if_neg hxd]
            have hb := hbound x (List.mem_cons_of_mem _ hx)
            rw [List.count_cons_of_ne hxd] at hb
            exact hb
        obtain ⟨R1, ⟨pushed', hq', hnd', hiff'⟩, R5, R6, R7, R8⟩ := ih st' hbound'
        rw [hstep]
        refine ⟨?_, ⟨d :: pushed', ?_, ?_, ?_⟩, R5, R6, R7, R8⟩
        · intro x
          rw [R1 x, hdeg' x]
          by_cases hx : x = d
          · subst hx
            rw [if_pos rfl, List.count_cons_self]
            push_cast
            ring
          · rw [if_neg hx, List.count_cons_of_ne hx]
        · rw [hq']
          show st.queue ++ [d] ++ pushed' = st.queue ++ d :: pushed'
          rw [List.append_assoc]
          rfl
        · rw [List.nodup_cons]
          refine ⟨?_, hnd'⟩
          intro hmem
          rcases (hiff' d).mp hmem with ⟨hpos, _⟩
          rw [hdeg' d, if_pos rfl] at hpos
          omega
        · intro x
          simp only [List.mem_cons]
          rw [hiff' x, hdeg' x]
          by_cases hx : x = d
          · subst hx
            rw [if_pos rfl, List.count_cons_self]
            have hc0 : rest.count x = 0 := by
              by_cases hdr : x ∈ rest
              · have hb := hbound' x hdr
                rw [hdeg' x, if_pos rfl] at hb
                omega
              · exact List.count_eq_zero_of_not_mem hdr
            constructor
            · intro _
              rw [hc0]
              constructor
              · omega
              · push_cast
                omega
            · intro _
              exact Or.inl rfl
          · rw [if_neg hx, List.count_cons_of_ne hx]
            constructor
            · rintro (h | h)
              · exact absurd h hx
              · exact h
            · exact fun h => Or.inr h
      · have hstep : relaxDependents (d :: rest) st =
            relaxDependents rest
              { st with inDegree := st.inDegree.set d (st.inDegree.getD d 0 - 1) } := by
          rw [relaxDependents, List.foldl_cons, relaxDependents]
          congr 1
          rw [if_neg (by rw [JsMap.getD_set_self]; exact hz)]
        set st' : PState :=
          { st with inDegree := st.inDegree.set d (st.inDegree.getD d 0 - 1) } with hst'
        have hdeg' : ∀ x, st'.inDegree.getD x 0 =
            if x = d then st.inDegree.getD d 0 - 1 else st.inDegree.getD x 0 := by
          intro x
          by_cases hx : x = d
          · subst hx
            simp only [hst', if_pos rfl]
            exact JsMap.getD_set_self _ _ _ _
          · simp only [hst', if_neg hx]
            exact JsMap.getD_set_ne _ _ _ _ _ (fun hh => hx hh.symm)
        have hbound' : ∀ x ∈ rest, ((rest.count x : Int)) ≤ st'.inDegree.getD x 0 := by
          intro x hx
          rw [hdeg' x]
          by_cases hxd : x = d
          · subst hxd
            rw [if_pos rfl]
            have hb := hbound x (List.mem_cons_of_mem _ hx)
            rw [List.count_cons_self] at hb
            push_cast at hb ⊢
            omega
          · rw [if_neg hxd]
            have hb := hbound x (List.mem_cons_of_mem _ hx)
            rw [List.count_cons_of_ne hxd] at hb
            exact hb
        obtain ⟨R1, ⟨pushed', hq', hnd', hiff'⟩, R5, R6, R7, R8⟩ := ih st' hbound'
        rw [hstep]
        refine ⟨?_, ⟨pushed', hq', hnd', ?_⟩, R5, R6, R7, R8⟩
        · intro x
          rw [R1 x, hdeg' x]
          by_cases hx : x = d
          · subst hx
            rw [if_pos rfl, List.count_cons_self]
            push_cast
            ring
          · rw [if_neg hx, List.count_cons_of_ne hx]
        · intro x
          rw [hiff' x, hdeg' x]
          by_cases hx : x = d
          · subst hx
            rw [if_pos rfl, List.count_cons_self]
            constructor
            · rintro ⟨h1, h2⟩
              push_cast at h2 ⊢
              constructor
              · omega
              · omega
            · rintro ⟨h1, h2⟩
              push_cast at h2 ⊢
              constructor
              · omega
              · omega
          · rw [if_neg hx, List.count_cons_of_ne hx]

/-! ### More facts about one dispatch segment -/

theorem statusIn_of_writes_pair (tr : List Action) (id : String) (a b : NodeStatus)
    (h : statusWrites tr id = [a, b]) : statusIn tr id = b := by
  rw [statusIn_def, h]
  rfl

theorem runNodeCore_gen_worker_err (ora : Oracle) (n : WorkGraphNode) (e : String)
    (hg : n.task.startsWith "generate-" = true)
    (hw : ora.worker n.task n.id n.description = .error e) :
    runNodeCore ora n =
      ([.setStatus n.id .running, startEvt n] ++ [.callWorker n.task n.id] ++ failSeg n e,
       .error (taskFailMsg n.id n.task e)) := by
  rw [runNodeCore, if_pos hg, hw]

theorem runNodeCore_gen_save_err (ora : Oracle) (n : WorkGraphNode)
    (w : WorkerResult) (e : String)
    (hg : n.task.startsWith "generate-" = true)
    (hw : ora.worker n.task n.id n.description = .ok w)
    (hs : ora.save w.fileName w.code = .error e) :
    runNodeCore ora n =
      ([.setStatus n.id .running, startEvt n] ++
        [.callWorker n.task n.id, .saveCodeLocally w.fileName w.code] ++ failSeg n e,
       .error (taskFailMsg n.id n.task e)) := by
  simp only [runNodeCore, hg, hw, hs, if_true]

theorem runNodeCore_gen_stream_err (ora : Oracle) (n : WorkGraphNode)
    (w : WorkerResult) (e : String)
    (hg : n.task.startsWith "generate-" = true)
    (hw : ora.worker n.task n.id n.description = .ok w)
    (hs : ora.save w.fileName w.code = .ok ())
    (hv : ora.stream w.fileName w.code = .error e) :
    runNodeCore ora n =
      ([.setStatus n.id .running, startEvt n] ++
        [.callWorker n.task n.id, .saveCodeLocally w.fileName w.code,
         .streamFileToVM w.fileName w.code] ++ failSeg n e,
       .error (taskFailMsg n.id n.task e)) := by
  simp only [runNodeCore, hg, hw, hs, hv, if_true]

theorem runNodeCore_gen_ok (ora : Oracle) (n : WorkGraphNode) (w : WorkerResult)
    (hg : n.task.startsWith "generate-" = true)
    (hw : ora.worker n.task n.id n.description = .ok w)
    (hs : ora.save w.fileName w.code = .ok ())
    (hv : ora.stream w.fileName w.code = .ok ()) :
    runNodeCore ora n =
      ([.setStatus n.id .running, startEvt n] ++
        [.callWorker n.task n.id, .saveCodeLocally w.fileName w.code,
         .streamFileToVM w.fileName w.code] ++ doneSeg n,
       .ok none) := by
  simp only [runNodeCore, hg, hw, hs, hv, if_true]

theorem unit_ok (r : Except String Unit) (h : ¬ ∃ e, r = .error e) : r = .ok () := by
  cases r with
  | ok u => cases u; rfl
  | error e => exact absurd ⟨e, rfl⟩ h

/-- In the success case of a `generate-*` node, the worker result exists and
the persist and stream side effects sit between the worker call and the
`completed` status write. -/
theorem runNodeCore_generate_ok_inv (ora : Oracle) (n : WorkGraphNode)
    (pu : Option String) (hg : n.task.startsWith "generate-" = true)
    (hout : (runNodeCore ora n).2 = .ok pu) :
    ∃ w, ora.worker n.task n.id n.description = .ok w ∧
      (runNodeCore ora n).1 =
        [Action.setStatus n.id .running, startEvt n, Action.callWorker n.task n.id,
         Action.saveCodeLocally w.fileName w.code, Action.streamFileToVM w.fileName w.code] ++
          doneSeg n := by
  cases hw : ora.worker n.task n.id n.description with
  | error e =>
      rw [runNodeCore_gen_worker_err ora n e hg hw] at hout
      cases hout
  | ok w =>
      by_cases hse : ∃ e, ora.save w.fileName w.code = .error e
      · obtain ⟨e, hs⟩ := hse
        rw [runNodeCore_gen_save_err ora n w e hg hw hs] at hout
        cases hout
      · have hs := unit_ok _ hse
        by_cases hve : ∃ e, ora.stream w.fileName w.code = .error e
        · obtain ⟨e, hv⟩ := hve
          rw [runNodeCore_gen_stream_err ora n w e hg hw hs hv] at hout
          cases hout
        · have hv := unit_ok _ hve
          refine ⟨w, rfl, ?_⟩
          rw [runNodeCore_gen_ok ora n w hg hw hs hv]
          rfl

theorem seg_error_msg (ora : Oracle) (n : WorkGraphNode) (msg : String)
    (h : (runNodeCore ora n).2 = .error msg) :
    ∃ e, msg = taskFailMsg n.id n.task e := by
  obtain ⟨mid, hmid, hcase⟩ := runNodeCore_shape ora n
  rcases hcase with ⟨pu, hc⟩ | ⟨e, hc⟩
  · rw [hc] at h
    cases h
  · rw [hc] at h
    exact ⟨e, (Except.error.inj h).symm⟩

theorem seg_no_failEvt_ok (ora : Oracle) (n : WorkGraphNode) (pu : Option String)
    (hout : (runNodeCore ora n).2 = .ok pu) :
    ∀ a ∈ (runNodeCore ora n).1, ¬ IsFailEvt a := by
  obtain ⟨mid, hmid, hcase⟩ := runNodeCore_shape ora n
  rcases hcase with ⟨pu', hc⟩ | ⟨e, hc⟩
  · rw [hc]
    intro a ha
    simp only [List.mem_append, List.mem_cons, doneSeg, List.not_mem_nil, or_false] at ha
    rcases ha with ((rfl | rfl) | ha) | (rfl | rfl)
    · rintro ⟨id, e', hk⟩
      cases hk
    · rintro ⟨id, e', hk⟩
      rw [startEvt] at hk
      exact startMsg_ne_failMsg n.id id (congrArg ProgressEvent.step (Action.emit.inj hk))
    · rintro ⟨id, e', hk⟩
      exact (hmid a ha).1 _ hk
    · rintro ⟨id, e', hk⟩
      cases hk
    · rintro ⟨id, e', hk⟩
      exact doneMsg_ne_failMsg n.id id (congrArg ProgressEvent.step (Action.emit.inj hk))
  · rw [hc] at hout
    cases hout

theorem seg_setStatus_mem (ora : Oracle) (n : WorkGraphNode) (j : String)
    (s : NodeStatus) (h : Action.setStatus j s ∈ (runNodeCore ora n).1) : j = n.id := by
  by_contra hj
  have hw := seg_statusWrites_ne ora n j hj
  have : s ∈ statusWrites (runNodeCore ora n).1 j := (mem_statusWrites _ _ _).mpr h
  rw [hw] at this
  cases this

/-! ### Preservation of the invariant by one dispatch -/

/-- Facts available about the node at the head of the batch. -/
theorem batch_head_facts (ora : Oracle) (m : JsMap WorkGraphNode)
    (hmwf : ∀ e ∈ m, e.2.id = e.1) (st : PState) (A : String) (rem : List String)
    (hInv : Inv ora m st (A :: rem)) :
    ∃ n, m.get? A = some n ∧ n.id = A ∧
      statusIn st.trace A = .pending ∧ st.inDegree.getD A 0 = 0 ∧
      depCount m st.trace A = 0 ∧
      (∀ d, d ∈ depsOf m A → m.has d = true → statusIn st.trace d = .completed) ∧
      statusWrites st.trace A = [] ∧ eventsFor st.trace A = [] := by
  have hAkey : m.has A = true := hInv.remKeys A (List.mem_cons_self _ _)
  obtain ⟨n, hgetA⟩ := JsMap.get?_isSome_of_has m A hAkey
  have hnid : n.id = A := hmwf (A, n) (JsMap.get?_eq_some_mem m A n hgetA)
  have hApending : statusIn st.trace A = .pending :=
    hInv.remPending A (List.mem_cons_self _ _)
  have hAdeg : st.inDegree.getD A 0 = 0 := hInv.remDegZero A (List.mem_cons_self _ _)
  have hAdepCount : depCount m st.trace A = 0 := by
    have h := hInv.degSpec A hAkey
    rw [hAdeg] at h
    omega
  have hAdeps : ∀ d, d ∈ depsOf m A → m.has d = true →
      statusIn st.trace d = .completed := by
    intro d hd hhas
    have h2 := List.countP_eq_zero.mp hAdepCount d hd
    by_contra hne
    apply h2
    rw [hhas]
    simpa using hne
  have hwritesA : statusWrites st.trace A = [] := by
    rcases hInv.writesShape A with h | h | h
    · exact h
    · have h2 := statusIn_of_writes_pair st.trace A _ _ h
      rw [h2] at hApending
      cases hApending
    · have h2 := statusIn_of_writes_pair st.trace A _ _ h
      rw [h2] at hApending
      cases hApending
  have heventsA : eventsFor st.trace A = [] := by
    rcases hInv.eventsShape A n hgetA with ⟨_, h⟩ | ⟨h, _⟩ | ⟨e, h, _⟩
    · exact h
    · rw [hwritesA] at h
      cases h
    · rw [hwritesA] at h
      cases h
  exact ⟨n, hgetA, hnid, hApending, hAdeg, hAdepCount, hAdeps, hwritesA, heventsA⟩

theorem processNode_eq (ora : Oracle) (m : JsMap WorkGraphNode)
    (adj : JsMap (List String)) (st : PState) (A : String)
    (n : WorkGraphNode) (hgetA : m.get? A = some n) :
    processNode ora m adj st A =
      applyOutcome adj A { st with trace := st.trace ++ (runNodeCore ora n).1 }
        (runNodeCore ora n).2 := by
  rw [processNode, hgetA]

theorem processNode_eq_ok (ora : Oracle) (m : JsMap WorkGraphNode)
    (adj : JsMap (List String)) (st : PState) (A : String)
    (n : WorkGraphNode) (hgetA : m.get? A = some n)
    (pu : Option String) (hout : (runNodeCore ora n).2 = .ok pu) :
    processNode ora m adj st A = relaxDependents (adj.getD A [])
      { st with trace := st.trace ++ (runNodeCore ora n).1,
                completedCount := st.completedCount + 1,
                previewUrl := updPreview pu st.previewUrl } := by
  rw [processNode_eq ora m adj st A n hgetA]
  conv_lhs => rw [hout]
  rfl

theorem processNode_eq_err (ora : Oracle) (m : JsMap WorkGraphNode)
    (adj : JsMap (List String)) (st : PState) (A : String)
    (n : WorkGraphNode) (hgetA : m.get? A = some n)
    (msg : String) (hout : (runNodeCore ora n).2 = .error msg) :
    processNode ora m adj st A =
      { st with trace := st.trace ++ (runNodeCore ora n).1,
                failure := match st.failure with | some f => some f | none => some msg } := by
  rw [processNode_eq ora m adj st A n hgetA]
  conv_lhs => rw [hout]
  rfl

set_option maxHeartbeats 1000000 in
theorem processNode_inv_ok (ora : Oracle) (m : JsMap WorkGraphNode)
    (adj : JsMap (List String))
    (hmnodup : m.keys.Nodup) (hmwf : ∀ e ∈ m, e.2.id = e.1)
    (hadjcount : ∀ a j, ((adj.getD a []).count j) =
      if m.has a then (depsOf m j).count a else 0)
    (hadjmem : ∀ a x, x ∈ adj.getD a [] → m.has x = true)
    (st : PState) (A : String) (rem : List String)
    (hInv : Inv ora m st (A :: rem))
    (n : WorkGraphNode) (hgetA : m.get? A = some n)
    (pu : Option String) (hout : (runNodeCore ora n).2 = .ok pu) :
    Inv ora m (processNode ora m adj st A) rem ∧
    statusIn (processNode ora m adj st A).trace A ≠ .pending ∧
    (∀ j, j ≠ A → statusIn (processNode ora m adj st A).trace j = statusIn st.trace j) ∧
    ((processNode ora m adj st A).failure = none → st.failure = none) := by
  obtain ⟨n', hgetA', hnid, hApending, hAdeg, hAdepCount, hAdeps, hwritesA, heventsA⟩ :=
    batch_head_facts ora m hmwf st A rem hInv
  have hnn : n' = n := by
    rw [hgetA] at hgetA'
    exact (Option.some.inj hgetA').symm
  rw [hnn] at hnid
  have hAkey : m.has A = true := hInv.remKeys A (List.mem_cons_self _ _)
  have hAnotq : A ∉ st.queue := hInv.remQueueDisj A (List.mem_cons_self _ _)
  have hAnotrem : A ∉ rem := (List.nodup_cons.mp hInv.remNodup).1
  have hremNodup : rem.Nodup := (List.nodup_cons.mp hInv.remNodup).2
  have hWritesNe : ∀ j, j ≠ A → statusWrites (runNodeCore ora n).1 j = [] := by
    intro j hj
    exact seg_statusWrites_ne ora n j (by rw [hnid]; exact hj)
  have hEvtsNe : ∀ j, j ≠ A → eventsFor (runNodeCore ora n).1 j = [] := by
    intro j hj
    exact seg_eventsFor_ne ora n j (by rw [hnid]; exact hj)
  have hNoWave : ∀ a ∈ (runNodeCore ora n).1, ¬ IsWaveStart a := seg_no_waveStart ora n
  rw [processNode_eq_ok ora m adj st A n hgetA pu hout]
  set st2 : PState :=
    { st with trace := st.trace ++ (runNodeCore ora n).1,
              completedCount := st.completedCount + 1,
              previewUrl := updPreview pu st.previewUrl }
    with hst2
  have hpredA : (fun d => m.has d &&
      decide (statusIn st.trace d ≠ NodeStatus.completed)) A = true := by
    show (m.has A && decide (statusIn st.trace A ≠ NodeStatus.completed)) = true
    rw [hAkey, hApending]
    decide
  have hbound : ∀ d ∈ adj.getD A [],
      ((adj.getD A []).count d : Int) ≤ st2.inDegree.getD d 0 := by
    intro d hd
    have hdkey := hadjmem A d hd
    have hcnt := hadjcount A d
    rw [if_pos hAkey] at hcnt
    rw [hcnt]
    show ((depsOf m d).count A : Int) ≤ st.inDegree.getD d 0
    rw [hInv.degSpec d hdkey]
    exact_mod_cast count_le_countP _ _ _ hpredA
  obtain ⟨R1, ⟨pushed, hq, hpnd, hpiff⟩, R5, R6, R7, R8⟩ :=
    relaxDependents_spec (adj.getD A []) st2 hbound
  set stF := relaxDependents (adj.getD A []) st2 with hstF
  have hcntA : ∀ x, ((adj.getD A []).count x) = (depsOf m x).count A := by
    intro x
    rw [hadjcount A x, if_pos hAkey]
  have htr' : stF.trace = st.trace ++ (runNodeCore ora n).1 := R5
  have hWA : statusWrites (runNodeCore ora n).1 A = [.running, .completed] := by
    have h := seg_statusWrites_self_ok ora n pu hout
    rw [hnid] at h
    exact h
  have hEvA : eventsFor (runNodeCore ora n).1 A =
      [⟨startMsg A, "active", "Task: " ++ n.task⟩, ⟨doneMsg A, "completed", ""⟩] := by
    have h := seg_eventsFor_self_ok ora n pu hout
    rw [hnid] at h
    exact h
  have hwrites' : ∀ j, statusWrites stF.trace j =
      if j = A then [NodeStatus.running, NodeStatus.completed]
      else statusWrites st.trace j := by
    intro j
    rw [htr', statusWrites_append]
    by_cases hj : j = A
    · subst hj
      rw [if_pos rfl, hwritesA, hWA, List.nil_append]
    · rw [if_neg hj, hWritesNe j hj, List.append_nil]
  have hstat' : ∀ j, statusIn stF.trace j =
      if j = A then NodeStatus.completed else statusIn st.trace j := by
    intro j
    by_cases hj : j = A
    · rw [if_pos hj, statusIn_def, hwrites' j, if_pos hj]
      rfl
    · rw [if_neg hj, statusIn_def, hwrites' j, if_neg hj, ← statusIn_def]
  have hevents' : ∀ j, eventsFor stF.trace j =
      if j = A then
        [⟨startMsg A, "active", "Task: " ++ n.task⟩, ⟨doneMsg A, "completed", ""⟩]
      else eventsFor st.trace j := by
    intro j
    rw [htr', eventsFor_append]
    by_cases hj : j = A
    · subst hj
      rw [if_pos rfl, heventsA, hEvA, List.nil_append]
    · rw [if_neg hj, hEvtsNe j hj, List.append_nil]
  have hdcnew : ∀ id,
      depCount m stF.trace id = depCount m st.trace id - (depsOf m id).count A ∧
      (depsOf m id).count A ≤ depCount m st.trace id := by
    intro id
    have h := countP_flip_at (depsOf m id) A
      (fun d => m.has d && decide (statusIn st.trace d ≠ NodeStatus.completed))
      (fun d => m.has d && decide (statusIn stF.trace d ≠ NodeStatus.completed))
      (by
        intro x hx
        show (m.has x && decide (statusIn stF.trace x ≠ NodeStatus.completed)) =
          (m.has x && decide (statusIn st.trace x ≠ NodeStatus.completed))
        rw [hstat' x, if_neg hx])
      hpredA
      (by
        show (m.has A && decide (statusIn stF.trace A ≠ NodeStatus.completed)) = false
        rw [hstat' A, if_pos rfl]
        simp)
    exact h
  have hdeg' : ∀ x, stF.inDegree.getD x 0 =
      st.inDegree.getD x 0 - ((depsOf m x).count A : Int) := by
    intro x
    rw [R1 x, hcntA x]
  have hpushed : ∀ x, x ∈ pushed ↔ (0 < st.inDegree.getD x 0 ∧
      st.inDegree.getD x 0 = ((depsOf m x).count A : Int)) := by
    intro x
    rw [hpiff x, hcntA x]
  have hpushedKey : ∀ x ∈ pushed, m.has x = true := by
    intro x hx
    rcases (hpushed x).mp hx with ⟨hpos, _⟩
    by_contra hk
    rw [hInv.degNotKey x hk] at hpos
    omega
  have hpushedNeA : ∀ x ∈ pushed, x ≠ A := by
    intro x hx hxa
    subst hxa
    rcases (hpushed x).mp hx with ⟨hpos, _⟩
    rw [hAdeg] at hpos
    omega
  have hpushedPending : ∀ x ∈ pushed, statusIn st.trace x = .pending := by
    intro x hx
    rcases (hpushed x).mp hx with ⟨hpos, _⟩
    have hk := hpushedKey x hx
    by_contra hnp
    have hdeps := hInv.termDeps x hk hnp
    have hdc : depCount m st.trace x = 0 := by
      apply List.countP_eq_zero.mpr
      intro d hd hpd
      rw [Bool.and_eq_true, decide_eq_true_eq] at hpd
      exact hpd.2 (hdeps d hd hpd.1)
    rw [hInv.degSpec x hk, hdc] at hpos
    simp at hpos
  have hpushedNotQ : ∀ x ∈ pushed, x ∉ st.queue := by
    intro x hx hq'
    rcases (hpushed x).mp hx with ⟨hpos, _⟩
    rw [hInv.queueDegZero x hq'] at hpos
    omega
  have hpushedNotRem : ∀ x ∈ pushed, x ∉ rem := by
    intro x hx hr'
    rcases (hpushed x).mp hx with ⟨hpos, _⟩
    rw [hInv.remDegZero x (List.mem_cons_of_mem _ hr')] at hpos
    omega
  have hcnt0 : ∀ q, m.has q = true → st.inDegree.getD q 0 = 0 →
      (depsOf m q).count A = 0 := by
    intro q hk hdg
    have hdc : (depCount m st.trace q : Int) = 0 := by
      rw [← hInv.degSpec q hk, hdg]
    have hle : (depsOf m q).count A ≤ depCount m st.trace q :=
      count_le_countP _ _ _ hpredA
    omega
  have hqF : stF.queue = st.queue ++ pushed := hq
  have hdegF : stF.inDegree.getD A 0 = 0 := by
    rw [hdeg' A, hAdeg]
    have h0 : (depsOf m A).count A = 0 := hcnt0 A hAkey hAdeg
    rw [h0]
    rfl
  refine ⟨?_, ?_, ?_, ?_⟩
  · refine
      { queueNodup := ?_, queueKeys := ?_, queuePending := ?_, queueDegZero := ?_,
        remNodup := hremNodup, remKeys := ?_, remPending := ?_, remDegZero := ?_,
        remQueueDisj := ?_, degSpec := ?_, degNotKey := ?_, pendingPos := ?_,
        termDeps := ?_, countEq := ?_, writesShape := ?_, writesKey := ?_,
        eventsKey := ?_, eventsShape := ?_, depsDone := ?_, genPersist := ?_,
        failNone := ?_, failSome := ?_, noWaveAfterFail := ?_ }
    · rw [hqF, List.nodup_append]
      exact ⟨hInv.queueNodup, hpnd, fun a ha hb => hpushedNotQ a hb ha⟩
    · intro id hid
      rw [hqF] at hid
      rcases List.mem_append.mp hid with h | h
      · exact hInv.queueKeys id h
      · exact hpushedKey id h
    · intro id hid
      rw [hqF] at hid
      rcases List.mem_append.mp hid with h | h
      · rw [hstat' id, if_neg (fun hh => hAnotq (by rw [← hh]; exact h))]
        exact hInv.queuePending id h
      · rw [hstat' id, if_neg (hpushedNeA id h)]
        exact hpushedPending id h
    · intro id hid
      rw [hqF] at hid
      rcases List.mem_append.mp hid with h | h
      · rw [hdeg' id, hInv.queueDegZero id h,
          hcnt0 id (hInv.queueKeys id h) (hInv.queueDegZero id h)]
        rfl
      · rcases (hpushed id).mp h with ⟨_, heq⟩
        rw [hdeg' id, ← heq]
        ring
    · exact fun id h => hInv.remKeys id (List.mem_cons_of_mem _ h)
    · intro id h
      rw [hstat' id, if_neg (fun hh => hAnotrem (by rw [← hh]; exact h))]
      exact hInv.remPending id (List.mem_cons_of_mem _ h)
    · intro id h
      have hdg := hInv.remDegZero id (List.mem_cons_of_mem _ h)
      rw [hdeg' id, hdg, hcnt0 id (hInv.remKeys id (List.mem_cons_of_mem _ h)) hdg]
      rfl
    · intro id h
      rw [hqF]
      intro hmem
      rcases List.mem_append.mp hmem with h2 | h2
      · exact hInv.remQueueDisj id (List.mem_cons_of_mem _ h) h2
      · exact hpushedNotRem id h2 h
    · intro id hk
      rw [hdeg' id, hInv.degSpec id hk]
      rcases hdcnew id with ⟨h1, h2⟩
      rw [h1]
      push_cast [h2]
      ring
    · intro id hk
      have hdeps0 : depsOf m id = [] := by
        rw [depsOf, JsMap.get?_eq_none_of_not_has m id (by simpa using hk)]
      rw [hdeg' id, hInv.degNotKey id hk, hdeps0]
      rfl
    · intro id hk hpend hq' hr'
      have hidA : id ≠ A := by
        intro h
        subst h
        rw [hstat' id, if_pos rfl] at hpend
        cases hpend
      rw [hstat' id, if_neg hidA] at hpend
      have hnotq : id ∉ st.queue := fun h => hq' (by rw [hqF]; exact List.mem_append_left _ h)
      have hnotp : id ∉ pushed := fun h => hq' (by rw [hqF]; exact List.mem_append_right _ h)
      have hold := hInv.pendingPos id hk hpend hnotq (by
        intro h
        rcases List.mem_cons.mp h with h2 | h2
        · exact hidA h2
        · exact hr' h2)
      rw [hdeg' id]
      have hle := (hdcnew id).2
      have hdspec := hInv.degSpec id hk
      by_cases heq : st.inDegree.getD id 0 = ((depsOf m id).count A : Int)
      · exact absurd ((hpushed id).mpr ⟨hold, heq⟩) hnotp
      · omega
    · intro id hk hnp d hd hhas
      by_cases hdA : d = A
      · subst hdA
        rw [hstat' d, if_pos rfl]
      · rw [hstat' d, if_neg hdA]
        by_cases hidA : id = A
        · subst hidA
          exact hAdeps d hd hhas
        · rw [hstat' id, if_neg hidA] at hnp
          exact hInv.termDeps id hk hnp d hd hhas
    · rw [show stF.completedCount = st.completedCount + 1 from R6, hInv.countEq]
      symm
      apply countP_update_nodup m.keys hmnodup A ((JsMap.mem_keys_iff_has m A).mpr hAkey)
      · intro j hj
        rw [hstat' j, if_neg hj]
      · rw [hApending]
        rfl
      · rw [hstat' A, if_pos rfl]
        rfl
    · intro id
      rw [hwrites' id]
      by_cases hj : id = A
      · rw [if_pos hj]
        exact Or.inr (Or.inl rfl)
      · rw [if_neg hj]
        exact hInv.writesShape id
    · intro id hk
      have hidA : id ≠ A := fun hh => hk (hh ▸ hAkey)
      rw [hwrites' id, if_neg hidA]
      exact hInv.writesKey id hk
    · intro id hk
      have hidA : id ≠ A := fun hh => hk (hh ▸ hAkey)
      rw [hevents' id, if_neg hidA]
      exact hInv.eventsKey id hk
    · intro id n0 hget0
      by_cases hj : id = A
      · subst hj
        have hn0 : n0 = n := by
          rw [hgetA] at hget0
          exact (Option.some.inj hget0).symm
        subst hn0
        right
        left
        rw [hwrites' _, if_pos rfl, hevents' _, if_pos rfl]
        exact ⟨rfl, rfl⟩
      · have h := hInv.eventsShape id n0 hget0
        rw [hwrites' id, if_neg hj, hevents' id, if_neg hj]
        exact h
    · intro p j r hdecomp n0 hget0 d hd hhas
      rw [htr'] at hdecomp
      rcases trace_decomp_split _ _ _ _ _ hdecomp with ⟨r₀, h1, _⟩ | ⟨p₂, h1, h2⟩
      · exact hInv.depsDone p j r₀ h1 n0 hget0 d hd hhas
      · obtain ⟨hj, hp2⟩ := seg_run_decomp ora n p₂ r j h1
        rw [hp2, List.append_nil] at h2
        subst h2
        have hjA : j = A := by rw [hj, hnid]
        subst hjA
        have hn0 : n0 = n := by
          rw [hgetA] at hget0
          exact (Option.some.inj hget0).symm
        subst hn0
        have hc : statusIn st.trace d = .completed := by
          apply hAdeps d _ hhas
          rw [depsOf, hgetA]
          exact hd
        exact setStatus_mem_of_statusIn st.trace d .completed (by decide) hc
    · intro p j r hdecomp n0 hget0 hgen
      rw [htr'] at hdecomp
      rcases trace_decomp_split _ _ _ _ _ hdecomp with ⟨r₀, h1, _⟩ | ⟨p₂, h1, h2⟩
      · exact hInv.genPersist p j r₀ h1 n0 hget0 hgen
      · have hjA : j = A := by
          have hmem : Action.setStatus j .completed ∈ (runNodeCore ora n).1 := by
            rw [h1]
            exact List.mem_append_right _ (List.mem_cons_self _ _)
          rw [seg_setStatus_mem ora n j _ hmem, hnid]
        subst hjA
        have hn0 : n0 = n := by
          rw [hgetA] at hget0
          exact (Option.some.inj hget0).symm
        subst n0
        obtain ⟨w, hwk, hacts⟩ := runNodeCore_generate_ok_inv ora n pu hgen hout
        have h1' : (runNodeCore ora n).1 =
            p₂ ++ Action.setStatus n.id .completed :: r := by
          rw [hnid]
          exact h1
        have hknown : (runNodeCore ora n).1 =
            [Action.setStatus n.id .running, startEvt n, Action.callWorker n.task n.id,
             Action.saveCodeLocally w.fileName w.code,
             Action.streamFileToVM w.fileName w.code] ++
              Action.setStatus n.id .completed ::
                [Action.emit ⟨doneMsg n.id, "completed", ""⟩] := by
          rw [hacts]
          rfl
        have hx1 : Action.setStatus n.id .completed ∉
            [Action.setStatus n.id .running, startEvt n, Action.callWorker n.task n.id,
             Action.saveCodeLocally w.fileName w.code,
             Action.streamFileToVM w.fileName w.code] := by
          simp [startEvt]
        have hx2 : Action.setStatus n.id .completed ∉
            [Action.emit (⟨doneMsg n.id, "completed", ""⟩ : ProgressEvent)] := by
          simp
        obtain ⟨hp2eq, _⟩ := decomp_unique _ _ _ _ _ _ hknown h1' hx1 hx2
        refine ⟨w, hwk, ?_, ?_⟩
        · rw [h2, hp2eq]
          refine List.mem_append_right _ ?_
          simp
        · rw [h2, hp2eq]
          refine List.mem_append_right _ ?_
          simp
    · intro hf id
      have hf0 : st.failure = none := by
        rw [← R8]
        exact hf
      rw [hstat' id]
      by_cases hj : id = A
      · rw [if_pos hj]
        decide
      · rw [if_neg hj]
        exact hInv.failNone hf0 id
    · intro msg hmsg
      rw [R8] at hmsg
      obtain ⟨id0, n0, hget0, hfail0, e0, he0⟩ := hInv.failSome msg hmsg
      have hid0A : id0 ≠ A := by
        intro h
        subst h
        rw [hApending] at hfail0
        cases hfail0
      refine ⟨id0, n0, hget0, ?_, e0, he0⟩
      rw [hstat' id0, if_neg hid0A]
      exact hfail0
    · intro p a r hdecomp hfe b hb
      rw [htr'] at hdecomp
      rcases trace_decomp_split _ _ _ _ _ hdecomp with ⟨r₀, h1, h2⟩ | ⟨p₂, h1, _⟩
      · rw [h2] at hb
        rcases List.mem_append.mp hb with hb1 | hb1
        · exact hInv.noWaveAfterFail p a r₀ h1 hfe b hb1
        · exact hNoWave b hb1
      · have hamem : a ∈ (runNodeCore ora n).1 := by
          rw [h1]
          exact List.mem_append_right _ (List.mem_cons_self _ _)
        exact absurd hfe (seg_no_failEvt_ok ora n pu hout a hamem)
  · rw [hstat' A, if_pos rfl]
    decide
  · intro j hj
    rw [hstat' j, if_neg hj]
  · intro hf
    rw [← R8]
    exact hf

set_option maxHeartbeats 1000000 in
theorem processNode_inv_err (ora : Oracle) (m : JsMap WorkGraphNode)
    (adj : JsMap (List String)) (hmwf : ∀ e ∈ m, e.2.id = e.1)
    (st : PState) (A : String) (rem : List String)
    (hInv : Inv ora m st (A :: rem))
    (n : WorkGraphNode) (hgetA : m.get? A = some n)
    (msg : String) (hout : (runNodeCore ora n).2 = .error msg) :
    Inv ora m (processNode ora m adj st A) rem ∧
    statusIn (processNode ora m adj st A).trace A ≠ .pending ∧
    (∀ j, j ≠ A → statusIn (processNode ora m adj st A).trace j = statusIn st.trace j) ∧
    ((processNode ora m adj st A).failure = none → st.failure = none) := by
  obtain ⟨n', hgetA', hnid, hApending, hAdeg, hAdepCount, hAdeps, hwritesA, heventsA⟩ :=
    batch_head_facts ora m hmwf st A rem hInv
  have hnn : n' = n := by
    rw [hgetA] at hgetA'
    exact (Option.some.inj hgetA').symm
  rw [hnn] at hnid
  have hAkey : m.has A = true := hInv.remKeys A (List.mem_cons_self _ _)
  have hAnotq : A ∉ st.queue := hInv.remQueueDisj A (List.mem_cons_self _ _)
  have hAnotrem : A ∉ rem := (List.nodup_cons.mp hInv.remNodup).1
  have hremNodup : rem.Nodup := (List.nodup_cons.mp hInv.remNodup).2
  have hWritesNe : ∀ j, j ≠ A → statusWrites (runNodeCore ora n).1 j = [] := by
    intro j hj
    exact seg_statusWrites_ne ora n j (by rw [hnid]; exact hj)
  have hEvtsNe : ∀ j, j ≠ A → eventsFor (runNodeCore ora n).1 j = [] := by
    intro j hj
    exact seg_eventsFor_ne ora n j (by rw [hnid]; exact hj)
  have hNoWave : ∀ a ∈ (runNodeCore ora n).1, ¬ IsWaveStart a := seg_no_waveStart ora n
  obtain ⟨efail, hmsgeq, hEvA⟩ := seg_eventsFor_self_err ora n msg hout
  rw [hnid] at hmsgeq hEvA
  have hWA : statusWrites (runNodeCore ora n).1 A = [.running, .failed] := by
    have h := seg_statusWrites_self_err ora n msg hout
    rw [hnid] at h
    exact h
  rw [processNode_eq_err ora m adj st A n hgetA msg hout]
  set stE : PState :=
    { st with trace := st.trace ++ (runNodeCore ora n).1,
              failure := match st.failure with | some f => some f | none => some msg }
    with hstE
  have htr' : stE.trace = st.trace ++ (runNodeCore ora n).1 := rfl
  have hwrites' : ∀ j, statusWrites stE.trace j =
      if j = A then [NodeStatus.running, NodeStatus.failed]
      else statusWrites st.trace j := by
    intro j
    rw [htr', statusWrites_append]
    by_cases hj : j = A
    · subst hj
      rw [if_pos rfl, hwritesA, hWA, List.nil_append]
    · rw [if_neg hj, hWritesNe j hj, List.append_nil]
  have hstat' : ∀ j, statusIn stE.trace j =
      if j = A then NodeStatus.failed else statusIn st.trace j := by
    intro j
    by_cases hj : j = A
    · rw [if_pos hj, statusIn_def, hwrites' j, if_pos hj]
      rfl
    · rw [if_neg hj, statusIn_def, hwrites' j, if_neg hj, ← statusIn_def]
  have hevents' : ∀ j, eventsFor stE.trace j =
      if j = A then
        [⟨startMsg A, "active", "Task: " ++ n.task⟩, ⟨failMsg A, "error", efail⟩]
      else eventsFor st.trace j := by
    intro j
    rw [htr', eventsFor_append]
    by_cases hj : j = A
    · subst hj
      rw [if_pos rfl, heventsA, hEvA, List.nil_append]
    · rw [if_neg hj, hEvtsNe j hj, List.append_nil]
  have hdceq : ∀ id, depCount m stE.trace id = depCount m st.trace id := by
    intro id
    apply countP_congr_mem
    intro x _
    show (m.has x && decide (statusIn stE.trace x ≠ NodeStatus.completed)) =
      (m.has x && decide (statusIn st.trace x ≠ NodeStatus.completed))
    by_cases hx : x = A
    · rw [hstat' x, if_pos hx, hx, hApending]
      rfl
    · rw [hstat' x, if_neg hx]
  refine ⟨?_, ?_, ?_, ?_⟩
  · refine
      { queueNodup := hInv.queueNodup, queueKeys := ?_, queuePending := ?_,
        queueDegZero := ?_, remNodup := hremNodup, remKeys := ?_, remPending := ?_,
        remDegZero := ?_, remQueueDisj := ?_, degSpec := ?_, degNotKey := ?_,
        pendingPos := ?_, termDeps := ?_, countEq := ?_, writesShape := ?_,
        writesKey := ?_, eventsKey := ?_, eventsShape := ?_, depsDone := ?_,
        genPersist := ?_, failNone := ?_, failSome := ?_, noWaveAfterFail := ?_ }
    · exact fun id h => hInv.queueKeys id h
    · intro id hid
      have hidA : id ≠ A := fun hh => hAnotq (by rw [← hh]; exact hid)
      rw [hstat' id, if_neg hidA]
      exact hInv.queuePending id hid
    · exact fun id h => hInv.queueDegZero id h
    · exact fun id h => hInv.remKeys id (List.mem_cons_of_mem _ h)
    · intro id h
      rw [hstat' id, if_neg (fun hh => hAnotrem (by rw [← hh]; exact h))]
      exact hInv.remPending id (List.mem_cons_of_mem _ h)
    · exact fun id h => hInv.remDegZero id (List.mem_cons_of_mem _ h)
    · exact fun id h => hInv.remQueueDisj id (List.mem_cons_of_mem _ h)
    · intro id hk
      rw [hdceq id]
      exact hInv.degSpec id hk
    · exact fun id hk => hInv.degNotKey id hk
    · intro id hk hpend hq' hr'
      have hidA : id ≠ A := by
        intro h
        rw [hstat' id, if_pos h] at hpend
        cases hpend
      rw [hstat' id, if_neg hidA] at hpend
      refine hInv.pendingPos id hk hpend hq' ?_
      intro h
      rcases List.mem_cons.mp h with h2 | h2
      · exact hidA h2
      · exact hr' h2
    · intro id hk hnp d hd hhas
      by_cases hidA : id = A
      · have hc := hAdeps d (by rw [← hidA]; exact hd) hhas
        have hdA : d ≠ A := by
          intro h
          rw [h, hApending] at hc
          cases hc
        rw [hstat' d, if_neg hdA]
        exact hc
      · rw [hstat' id, if_neg hidA] at hnp
        have hc := hInv.termDeps id hk hnp d hd hhas
        have hdA : d ≠ A := by
          intro h
          rw [h, hApending] at hc
          cases hc
        rw [hstat' d, if_neg hdA]
        exact hc
    · have hcp : m.keys.countP (fun id => statusIn stE.trace id == NodeStatus.completed) =
          m.keys.countP (fun id => statusIn st.trace id == NodeStatus.completed) := by
        apply countP_congr_mem
        intro x _
        show (statusIn stE.trace x == NodeStatus.completed) =
          (statusIn st.trace x == NodeStatus.completed)
        by_cases hx : x = A
        · rw [hstat' x, if_pos hx, hx, hApending]
          rfl
        · rw [hstat' x, if_neg hx]
      rw [hcp]
      exact hInv.countEq
    · intro id
      rw [hwrites' id]
      by_cases hj : id = A
      · rw [if_pos hj]
        exact Or.inr (Or.inr rfl)
      · rw [if_neg hj]
        exact hInv.writesShape id
    · intro id hk
      have hidA : id ≠ A := fun hh => hk (hh ▸ hAkey)
      rw [hwrites' id, if_neg hidA]
      exact hInv.writesKey id hk
    · intro id hk
      have hidA : id ≠ A := fun hh => hk (hh ▸ hAkey)
      rw [hevents' id, if_neg hidA]
      exact hInv.eventsKey id hk
    · intro id n0 hget0
      by_cases hj : id = A
      · subst hj
        have hn0 : n0 = n := by
          rw [hgetA] at hget0
          exact (Option.some.inj hget0).symm
        subst n0
        right
        right
        refine ⟨efail, ?_, ?_⟩
        · rw [hwrites' _, if_pos rfl]
        · rw [hevents' _, if_pos rfl]
      · have h := hInv.eventsShape id n0 hget0
        rw [hwrites' id, if_neg hj, hevents' id, if_neg hj]
        exact h
    · intro p j r hdecomp n0 hget0 d hd hhas
      rw [htr'] at hdecomp
      rcases trace_decomp_split _ _ _ _ _ hdecomp with ⟨r₀, h1, _⟩ | ⟨p₂, h1, h2⟩
      · exact hInv.depsDone p j r₀ h1 n0 hget0 d hd hhas
      · obtain ⟨hj, hp2⟩ := seg_run_decomp ora n p₂ r j h1
        rw [hp2, List.append_nil] at h2
        subst h2
        have hjA : j = A := by rw [hj, hnid]
        subst hjA
        have hn0 : n0 = n := by
          rw [hgetA] at hget0
          exact (Option.some.inj hget0).symm
        subst n0
        have hc : statusIn st.trace d = .completed := by
          apply hAdeps d _ hhas
          rw [depsOf, hgetA]
          exact hd
        exact setStatus_mem_of_statusIn st.trace d .completed (by decide) hc
    · intro p j r hdecomp n0 hget0 hgen
      rw [htr'] at hdecomp
      rcases trace_decomp_split _ _ _ _ _ hdecomp with ⟨r₀, h1, _⟩ | ⟨p₂, h1, h2⟩
      · exact hInv.genPersist p j r₀ h1 n0 hget0 hgen
      · exfalso
        have hmem : Action.setStatus j .completed ∈ (runNodeCore ora n).1 := by
          rw [h1]
          exact List.mem_append_right _ (List.mem_cons_self _ _)
        have hjn : j = n.id := seg_setStatus_mem ora n j _ hmem
        have hmw : NodeStatus.completed ∈ statusWrites (runNodeCore ora n).1 j :=
          (mem_statusWrites _ _ _).mpr hmem
        rw [hjn, seg_statusWrites_self_err ora n msg hout] at hmw
        simp at hmw
    · intro hf
      exfalso
      have hf' : (match st.failure with | some f => some f | none => some msg) = none := hf
      cases hsf : st.failure with
      | none =>
          rw [hsf] at hf'
          cases hf'
      | some f =>
          rw [hsf] at hf'
          cases hf'
    · intro msg' hmsg
      have hmsg' : (match st.failure with | some f => some f | none => some msg) =
          some msg' := hmsg
      cases hsf : st.failure with
      | some f =>
          rw [hsf] at hmsg'
          have hfm : f = msg' := Option.some.inj hmsg'
          obtain ⟨id0, n0, hget0, hfail0, e0, he0⟩ := hInv.failSome f hsf
          have hid0A : id0 ≠ A := by
            intro h
            rw [h, hApending] at hfail0
            cases hfail0
          refine ⟨id0, n0, hget0, ?_, e0, ?_⟩
          · rw [hstat' id0, if_neg hid0A]
            exact hfail0
          · rw [← hfm]
            exact he0
      | none =>
          rw [hsf] at hmsg'
          have hmm : msg = msg' := Option.some.inj hmsg'
          refine ⟨A, n, hgetA, ?_, efail, ?_⟩
          · rw [hstat' A, if_pos rfl]
          · rw [← hmm]
            exact hmsgeq
    · intro p a r hdecomp hfe b hb
      rw [htr'] at hdecomp
      rcases trace_decomp_split _ _ _ _ _ hdecomp with ⟨r₀, h1, h2⟩ | ⟨p₂, h1, _⟩
      · rw [h2] at hb
        rcases List.mem_append.mp hb with hb1 | hb1
        · exact hInv.noWaveAfterFail p a r₀ h1 hfe b hb1
        · exact hNoWave b hb1
      · have hbmem : b ∈ (runNodeCore ora n).1 := by
          rw [h1]
          exact List.mem_append_right _ (List.mem_cons_of_mem _ hb)
        exact hNoWave b hbmem
  · rw [hstat' A, if_pos rfl]
    decide
  · intro j hj
    rw [hstat' j, if_neg hj]
  · intro hf
    have hf' : (match st.failure with | some f => some f | none => some msg) = none := hf
    cases hsf : st.failure with
    | none => rfl
    | some f =>
        rw [hsf] at hf'
        cases hf'

/-! ### The wave loop: equations and invariant preservation -/

theorem processNode_inv (ora : Oracle) (m : JsMap WorkGraphNode)
    (adj : JsMap (List String))
    (hmnodup : m.keys.Nodup) (hmwf : ∀ e ∈ m, e.2.id = e.1)
    (hadjcount : ∀ a j, ((adj.getD a []).count j) =
      if m.has a then (depsOf m j).count a else 0)
    (hadjmem : ∀ a x, x ∈ adj.getD a [] → m.has x = true)
    (st : PState) (A : String) (rem : List String)
    (hInv : Inv ora m st (A :: rem)) :
    Inv ora m (processNode ora m adj st A) rem ∧
    statusIn (processNode ora m adj st A).trace A ≠ .pending ∧
    (∀ j, j ≠ A → statusIn (processNode ora m adj st A).trace j = statusIn st.trace j) ∧
    ((processNode ora m adj st A).failure = none → st.failure = none) := by
  have hAkey : m.has A = true := hInv.remKeys A (List.mem_cons_self _ _)
  obtain ⟨n, hgetA⟩ := JsMap.get?_isSome_of_has m A hAkey
  cases hout : (runNodeCore ora n).2 with
  | ok pu =>
      exact processNode_inv_ok ora m adj hmnodup hmwf hadjcount hadjmem st A rem hInv
        n hgetA pu hout
  | error msg =>
      exact processNode_inv_err ora m adj hmwf st A rem hInv n hgetA msg hout

theorem foldl_processNode_inv (ora : Oracle) (m : JsMap WorkGraphNode)
    (adj : JsMap (List String))
    (hmnodup : m.keys.Nodup) (hmwf : ∀ e ∈ m, e.2.id = e.1)
    (hadjcount : ∀ a j, ((adj.getD a []).count j) =
      if m.has a then (depsOf m j).count a else 0)
    (hadjmem : ∀ a x, x ∈ adj.getD a [] → m.has x = true) :
    ∀ (batch : List String) (st : PState), Inv ora m st batch →
      Inv ora m (batch.foldl (processNode ora m adj) st) [] ∧
      (∀ j ∈ batch,
        statusIn (batch.foldl (processNode ora m adj) st).trace j ≠ .pending) ∧
      (∀ j, j ∉ batch →
        statusIn (batch.foldl (processNode ora m adj) st).trace j = statusIn st.trace j) ∧
      ((batch.foldl (processNode ora m adj) st).failure = none → st.failure = none) := by
  intro batch
  induction batch with
  | nil =>
      intro st hInv
      exact ⟨hInv, fun j hj => absurd hj (List.not_mem_nil j), fun j _ => rfl, fun h => h⟩
  | cons A rest ih =>
      intro st hInv
      obtain ⟨hInv1, hAdone, hothers, hfail⟩ :=
        processNode_inv ora m adj hmnodup hmwf hadjcount hadjmem st A rest hInv
      have hArest : A ∉ rest := (List.nodup_cons.mp hInv.remNodup).1
      obtain ⟨ih1, ih2, ih3, ih4⟩ := ih (processNode ora m adj st A) hInv1
      rw [List.foldl_cons]
      refine ⟨ih1, ?_, ?_, fun h => hfail (ih4 h)⟩
      · intro j hj
        rcases List.mem_cons.mp hj with rfl | hj2
        · rw [ih3 j hArest]
          exact hAdone
        · exact ih2 j hj2
      · intro j hj
        have hjA : j ≠ A := fun hh => hj (hh ▸ List.mem_cons_self _ _)
        have hjrest : j ∉ rest := fun hh => hj (List.mem_cons_of_mem _ hh)
        rw [ih3 j hjrest]
        exact hothers j hjA

/-! ### Traces extended by a lone progress event -/

theorem statusWrites_singleton_emit (e : ProgressEvent) (id : String) :
    statusWrites [Action.emit e] id = [] := rfl

theorem statusIn_append_emit (tr : List Action) (e : ProgressEvent) (id : String) :
    statusIn (tr ++ [Action.emit e]) id = statusIn tr id := by
  rw [statusIn_def, statusWrites_append, statusWrites_singleton_emit,
    List.append_nil, ← statusIn_def]

theorem statusWrites_append_emit (tr : List Action) (e : ProgressEvent) (id : String) :
    statusWrites (tr ++ [Action.emit e]) id = statusWrites tr id := by
  rw [statusWrites_append, statusWrites_singleton_emit, List.append_nil]

theorem nodeEvt?_emit_none (e : ProgressEvent) (id : String)
    (h1 : e.step ≠ startMsg id) (h2 : e.step ≠ doneMsg id) (h3 : e.step ≠ failMsg id) :
    nodeEvt? id (.emit e) = none := by
  rw [nodeEvt?, if_neg]
  rintro (h | h | h)
  · exact h1 h
  · exact h2 h
  · exact h3 h

theorem eventsFor_append_emit (tr : List Action) (e : ProgressEvent) (id : String)
    (h1 : e.step ≠ startMsg id) (h2 : e.step ≠ doneMsg id) (h3 : e.step ≠ failMsg id) :
    eventsFor (tr ++ [Action.emit e]) id = eventsFor tr id := by
  rw [eventsFor_append]
  have h : eventsFor [Action.emit e] id = [] := by
    show List.filterMap (nodeEvt? id) [Action.emit e] = []
    rw [List.filterMap_cons, nodeEvt?_emit_none e id h1 h2 h3, List.filterMap_nil]
  rw [h, List.append_nil]

theorem mem_of_decomp {α : Type} (l p r : List α) (x : α) (h : l = p ++ x :: r) :
    x ∈ l := by
  rw [h]
  exact List.mem_append_right _ (List.mem_cons_self _ _)

/-- Splitting a decomposition of `tr ++ [emit e]` at an action that is not
that emit: the action lies in `tr`. -/
theorem decomp_emit_tail (tr : List Action) (e : ProgressEvent)
    (p r : List Action) (x : Action) (hx : x ≠ .emit e)
    (h : tr ++ [Action.emit e] = p ++ x :: r) :
    ∃ r₀, tr = p ++ x :: r₀ ∧ r = r₀ ++ [Action.emit e] := by
  rcases trace_decomp_split _ _ _ _ _ h with ⟨r₀, h1, h2⟩ | ⟨p₂, h1, _⟩
  · exact ⟨r₀, h1, h2⟩
  · exfalso
    have : x ∈ [Action.emit e] := mem_of_decomp _ _ _ _ h1
    rcases List.mem_singleton.mp this with rfl
    exact hx rfl

/-- With no recorded failure, the invariant rules out any error progress
event in the trace. -/
theorem no_failEvt_of_failure_none (ora : Oracle) (m : JsMap WorkGraphNode)
    (st : PState) (rem : List String) (hInv : Inv ora m st rem)
    (hf : st.failure = none) : ∀ a ∈ st.trace, ¬ IsFailEvt a := by
  rintro a ha ⟨id, e, rfl⟩
  have hev : (⟨failMsg id, "error", e⟩ : ProgressEvent) ∈ eventsFor st.trace id := by
    apply List.mem_filterMap.mpr
    refine ⟨_, ha, ?_⟩
    rw [nodeEvt?, if_pos (Or.inr (Or.inr rfl))]
  by_cases hk : m.has id = true
  · obtain ⟨n, hget⟩ := JsMap.get?_isSome_of_has m id hk
    rcases hInv.eventsShape id n hget with ⟨_, hE⟩ | ⟨_, hE⟩ | ⟨e', hW, _⟩
    · rw [hE] at hev
      cases hev
    · rw [hE] at hev
      simp only [List.mem_cons, List.not_mem_nil, or_false] at hev
      rcases hev with h | h
      · exact startMsg_ne_failMsg id id (congrArg ProgressEvent.step h).symm
      · exact doneMsg_ne_failMsg id id (congrArg ProgressEvent.step h).symm
    · exact hInv.failNone hf id (statusIn_of_writes_pair st.trace id _ _ hW)
  · rw [hInv.eventsKey id hk] at hev
    cases hev

/-! ### Counting pending nodes -/

/-- The number of nodes of the graph still `pending` in a state. -/
def pendingCount (m : JsMap WorkGraphNode) (st : PState) : Nat :=
  m.keys.countP (fun id => statusIn st.trace id == NodeStatus.pending)

theorem beq_eq_false_of_ne (a b : NodeStatus) (h : a ≠ b) : (a == b) = false := by
  cases a <;> cases b <;> first | rfl | exact absurd rfl h

theorem eq_of_beq_status (a b : NodeStatus) (h : (a == b) = true) : a = b := by
  cases a <;> cases b <;> first | rfl | cases h

theorem ite_tt : (if true = true then (1 : Nat) else 0) = 1 := rfl

theorem ite_ff : (if false = true then (1 : Nat) else 0) = 0 := rfl

theorem countP_le_of_imp (l : List String) (p q : String → Bool)
    (h : ∀ x ∈ l, q x = true → p x = true) : l.countP q ≤ l.countP p := by
  induction l with
  | nil => exact Nat.le_refl 0
  | cons a t ih =>
      rw [List.countP_cons, List.countP_cons]
      have ht := ih (fun x hx => h x (List.mem_cons_of_mem _ hx))
      cases hq : q a with
      | false =>
          rw [ite_ff]
          cases hp : p a with
          | false => rw [ite_ff]; omega
          | true => rw [ite_tt]; omega
      | true =>
          rw [h a (List.mem_cons_self _ _) hq, ite_tt]
          omega

theorem countP_lt_of_flip (l : List String) (p q : String → Bool) (A : String)
    (hA : A ∈ l) (himp : ∀ x ∈ l, q x = true → p x = true)
    (hpA : p A = true) (hqA : q A = false) : l.countP q < l.countP p := by
  induction l with
  | nil => cases hA
  | cons a t ih =>
      rw [List.countP_cons, List.countP_cons]
      have ht := countP_le_of_imp t p q (fun x hx => himp x (List.mem_cons_of_mem _ hx))
      rcases List.mem_cons.mp hA with rfl | hA2
      · rw [hpA, hqA, ite_tt, ite_ff]
        omega
      · have hlt := ih hA2 (fun x hx => himp x (List.mem_cons_of_mem _ hx))
        cases hq : q a with
        | false =>
            rw [ite_ff]
            cases hp : p a with
            | false => rw [ite_ff]; omega
            | true => rw [ite_tt]; omega
        | true =>
            rw [himp a (List.mem_cons_self _ _) hq, ite_tt]
            omega

/-- Starting a wave (drain the queue, emit the batch event) moves the queue
into the batch position of the invariant. -/
theorem waveInit_inv (ora : Oracle) (m : JsMap WorkGraphNode) (st : PState)
    (hInv : Inv ora m st []) (hf : st.failure = none) :
    Inv ora m (waveInit st) st.queue := by
  have htr : (waveInit st).trace =
      st.trace ++ [.emit ⟨batchMsg st.queue.length, "active", ""⟩] := rfl
  have hstat1 : ∀ j, statusIn (waveInit st).trace j = statusIn st.trace j := by
    intro j
    rw [htr, statusIn_append_emit]
  have hwrites1 : ∀ j, statusWrites (waveInit st).trace j = statusWrites st.trace j := by
    intro j
    rw [htr, statusWrites_append_emit]
  have hevents1 : ∀ j, eventsFor (waveInit st).trace j = eventsFor st.trace j := by
    intro j
    rw [htr]
    exact eventsFor_append_emit _ _ _ (batchMsg_ne_startMsg _ _)
      (batchMsg_ne_doneMsg _ _) (batchMsg_ne_failMsg _ _)
  have hdc1 : ∀ id, depCount m (waveInit st).trace id = depCount m st.trace id := by
    intro id
    apply countP_congr_mem
    intro x _
    show (m.has x && decide (statusIn (waveInit st).trace x ≠ NodeStatus.completed)) =
      (m.has x && decide (statusIn st.trace x ≠ NodeStatus.completed))
    rw [hstat1 x]
  refine
    { queueNodup := List.nodup_nil, queueKeys := ?_, queuePending := ?_,
      queueDegZero := ?_, remNodup := hInv.queueNodup, remKeys := hInv.queueKeys,
      remPending := ?_, remDegZero := hInv.queueDegZero, remQueueDisj := ?_,
      degSpec := ?_, degNotKey := hInv.degNotKey, pendingPos := ?_,
      termDeps := ?_, countEq := ?_, writesShape := ?_, writesKey := ?_,
      eventsKey := ?_, eventsShape := ?_, depsDone := ?_, genPersist := ?_,
      failNone := ?_, failSome := ?_, noWaveAfterFail := ?_ }
  · exact fun id hid => absurd hid (List.not_mem_nil id)
  · exact fun id hid => absurd hid (List.not_mem_nil id)
  · exact fun id hid => absurd hid (List.not_mem_nil id)
  · intro id h
    rw [hstat1 id]
    exact hInv.queuePending id h
  · exact fun id _ => List.not_mem_nil id
  · intro id hk
    rw [hdc1 id]
    exact hInv.degSpec id hk
  · intro id hk hpend _ hr
    rw [hstat1 id] at hpend
    exact hInv.pendingPos id hk hpend hr (List.not_mem_nil id)
  · intro id hk hnp d hd hhas
    rw [hstat1 id] at hnp
    rw [hstat1 d]
    exact hInv.termDeps id hk hnp d hd hhas
  · have hcp : m.keys.countP
        (fun id => statusIn (waveInit st).trace id == NodeStatus.completed) =
        m.keys.countP (fun id => statusIn st.trace id == NodeStatus.completed) := by
      apply countP_congr_mem
      intro x _
      show (statusIn (waveInit st).trace x == NodeStatus.completed) =
        (statusIn st.trace x == NodeStatus.completed)
      rw [hstat1 x]
    rw [hcp]
    exact hInv.countEq
  · intro id
    rw [hwrites1 id]
    exact hInv.writesShape id
  · intro id hk
    rw [hwrites1 id]
    exact hInv.writesKey id hk
  · intro id hk
    rw [hevents1 id]
    exact hInv.eventsKey id hk
  · intro id n0 hget0
    rw [hwrites1 id, hevents1 id]
    exact hInv.eventsShape id n0 hget0
  · intro p j r hdecomp n0 hget0 d hd hhas
    rw [htr] at hdecomp
    obtain ⟨r₀, h1, _⟩ := decomp_emit_tail _ _ _ _ _ (by intro h; cases h) hdecomp
    exact hInv.depsDone p j r₀ h1 n0 hget0 d hd hhas
  · intro p j r hdecomp n0 hget0 hgen
    rw [htr] at hdecomp
    obtain ⟨r₀, h1, _⟩ := decomp_emit_tail _ _ _ _ _ (by intro h; cases h) hdecomp
    exact hInv.genPersist p j r₀ h1 n0 hget0 hgen
  · intro hf2 id
    rw [hstat1 id]
    exact hInv.failNone hf id
  · intro msg hm
    have hm' : st.failure = some msg := hm
    rw [hf] at hm'
    cases hm'
  · intro p a r hdecomp hfe b hb
    exfalso
    have hamem : a ∈ (waveInit st).trace := mem_of_decomp _ _ _ _ hdecomp
    rw [htr] at hamem
    rcases List.mem_append.mp hamem with h | h
    · exact no_failEvt_of_failure_none ora m st [] hInv hf a h hfe
    · rcases List.mem_singleton.mp h with rfl
      obtain ⟨id, e, heq⟩ := hfe
      exact batchMsg_ne_failMsg _ id
        (congrArg ProgressEvent.step (Action.emit.inj heq))

/-! ### The wave loop -/

theorem runWaves_zero (ora : Oracle) (m : JsMap WorkGraphNode)
    (adj : JsMap (List String)) (st : PState) :
    runWaves ora m adj 0 st = st := rfl

theorem runWaves_succ_empty (ora : Oracle) (m : JsMap WorkGraphNode)
    (adj : JsMap (List String)) (fuel : Nat) (st : PState)
    (h : st.queue.isEmpty = true) :
    runWaves ora m adj (fuel + 1) st = st := by
  rw [runWaves, if_pos h]

theorem runWaves_succ_fail (ora : Oracle) (m : JsMap WorkGraphNode)
    (adj : JsMap (List String)) (fuel : Nat) (st : PState)
    (h : st.queue.isEmpty = false) (e : String)
    (hfail : (waveStep ora m adj st).failure = some e) :
    runWaves ora m adj (fuel + 1) st = waveStep ora m adj st := by
  rw [runWaves, if_neg (by rw [h]; intro hh; cases hh)]
  rw [hfail]

theorem runWaves_succ_cont (ora : Oracle) (m : JsMap WorkGraphNode)
    (adj : JsMap (List String)) (fuel : Nat) (st : PState)
    (h : st.queue.isEmpty = false)
    (hfail : (waveStep ora m adj st).failure = none) :
    runWaves ora m adj (fuel + 1) st = runWaves ora m adj fuel (waveStep ora m adj st) := by
  rw [runWaves, if_neg (by rw [h]; intro hh; cases hh)]
  rw [hfail]

/-- One full wave preserves the invariant and strictly decreases the number
of pending nodes. -/
theorem waveStep_inv (ora : Oracle) (m : JsMap WorkGraphNode)
    (adj : JsMap (List String))
    (hmnodup : m.keys.Nodup) (hmwf : ∀ e ∈ m, e.2.id = e.1)
    (hadjcount : ∀ a j, ((adj.getD a []).count j) =
      if m.has a then (depsOf m j).count a else 0)
    (hadjmem : ∀ a x, x ∈ adj.getD a [] → m.has x = true)
    (st : PState) (hInv : Inv ora m st []) (hf : st.failure = none)
    (hne : st.queue ≠ []) :
    Inv ora m (waveStep ora m adj st) [] ∧
    pendingCount m (waveStep ora m adj st) < pendingCount m st := by
  have hInv1 : Inv ora m (waveInit st) st.queue := waveInit_inv ora m st hInv hf
  obtain ⟨hI, h2, h3, _⟩ :=
    foldl_processNode_inv ora m adj hmnodup hmwf hadjcount hadjmem
      st.queue (waveInit st) hInv1
  have hWdef : waveStep ora m adj st =
      st.queue.foldl (processNode ora m adj) (waveInit st) := rfl
  refine ⟨by rw [hWdef]; exact hI, ?_⟩
  have hstatW : ∀ j, j ∉ st.queue →
      statusIn (waveStep ora m adj st).trace j = statusIn st.trace j := by
    intro j hj
    rw [hWdef, h3 j hj]
    show statusIn (st.trace ++ [.emit ⟨batchMsg st.queue.length, "active", ""⟩]) j =
      statusIn st.trace j
    rw [statusIn_append_emit]
  have hdoneW : ∀ j ∈ st.queue, statusIn (waveStep ora m adj st).trace j ≠ .pending := by
    intro j hj
    rw [hWdef]
    exact h2 j hj
  obtain ⟨A, rest, hq⟩ : ∃ A rest, st.queue = A :: rest := by
    cases hql : st.queue with
    | nil => exact absurd hql hne
    | cons a t => exact ⟨a, t, rfl⟩
  have hAq : A ∈ st.queue := by rw [hq]; exact List.mem_cons_self _ _
  apply countP_lt_of_flip m.keys _ _ A
  · exact (JsMap.mem_keys_iff_has m A).mpr (hInv.queueKeys A hAq)
  · intro x _ hx
    by_cases hxq : x ∈ st.queue
    · exact absurd (eq_of_beq_status _ _ hx) (hdoneW x hxq)
    · rw [← hstatW x hxq]
      exact hx
  · rw [hInv.queuePending A hAq]
    rfl
  · exact beq_eq_false_of_ne _ _ (hdoneW A hAq)

/-- The wave loop preserves the invariant, reaches a terminated state
(empty queue or recorded failure) whenever the fuel exceeds the number of
pending nodes, and is then insensitive to extra fuel. -/
theorem runWaves_inv (ora : Oracle) (m : JsMap WorkGraphNode)
    (adj : JsMap (List String))
    (hmnodup : m.keys.Nodup) (hmwf : ∀ e ∈ m, e.2.id = e.1)
    (hadjcount : ∀ a j, ((adj.getD a []).count j) =
      if m.has a then (depsOf m j).count a else 0)
    (hadjmem : ∀ a x, x ∈ adj.getD a [] → m.has x = true) :
    ∀ (fuel : Nat) (st : PState), Inv ora m st [] → st.failure = none →
      pendingCount m st < fuel →
      Inv ora m (runWaves ora m adj fuel st) [] ∧
      ((runWaves ora m adj fuel st).queue = [] ∨
        (runWaves ora m adj fuel st).failure ≠ none) ∧
      (∀ fuel', fuel ≤ fuel' →
        runWaves ora m adj fuel' st = runWaves ora m adj fuel st) := by
  intro fuel
  induction fuel with
  | zero =>
      intro st _ _ hlt
      omega
  | succ f ih =>
      intro st hInv hf hlt
      by_cases hq : st.queue.isEmpty = true
      · rw [runWaves_succ_empty ora m adj f st hq]
        refine ⟨hInv, Or.inl (List.isEmpty_iff.mp hq), ?_⟩
        intro fuel' hf'
        obtain ⟨f'', rfl⟩ : ∃ f'', fuel' = f'' + 1 := ⟨fuel' - 1, by omega⟩
        rw [runWaves_succ_empty ora m adj f'' st hq]
      · have hqf : st.queue.isEmpty = false := by
          cases hh : st.queue.isEmpty with
          | false => rfl
          | true => exact absurd hh hq
        have hqne : st.queue ≠ [] := by
          intro hh
          rw [hh] at hqf
          cases hqf
        obtain ⟨hIW, hlt2⟩ :=
          waveStep_inv ora m adj hmnodup hmwf hadjcount hadjmem st hInv hf hqne
        cases hfl : (waveStep ora m adj st).failure with
        | some e =>
            rw [runWaves_succ_fail ora m adj f st hqf e hfl]
            refine ⟨hIW, Or.inr (by rw [hfl]; intro hh; cases hh), ?_⟩
            intro fuel' hf'
            obtain ⟨f'', rfl⟩ : ∃ f'', fuel' = f'' + 1 := ⟨fuel' - 1, by omega⟩
            rw [runWaves_succ_fail ora m adj f'' st hqf e hfl]
        | none =>
            rw [runWaves_succ_cont ora m adj f st hqf hfl]
            have hlt' : pendingCount m (waveStep ora m adj st) < f := by omega
            obtain ⟨a1, a2, a3⟩ := ih (waveStep ora m adj st) hIW hfl hlt'
            refine ⟨a1, a2, ?_⟩
            intro fuel' hf'
            obtain ⟨f'', rfl⟩ : ∃ f'', fuel' = f'' + 1 := ⟨fuel' - 1, by omega⟩
            rw [runWaves_succ_cont ora m adj f'' st hqf hfl, a3 f'' (by omega)]

/-! ### The initial state -/

theorem initTrace_statusWrites (id : String) :
    statusWrites [Action.emit ⟨initMsg, "active", ""⟩] id = [] := rfl

theorem initTrace_statusIn (id : String) :
    statusIn [Action.emit ⟨initMsg, "active", ""⟩] id = .pending := rfl

theorem initTrace_eventsFor (id : String) :
    eventsFor [Action.emit ⟨initMsg, "active", ""⟩] id = [] := by
  show List.filterMap (nodeEvt? id) [Action.emit ⟨initMsg, "active", ""⟩] = []
  rw [List.filterMap_cons, nodeEvt?_emit_none _ _ (initMsg_ne_startMsg id)
    (initMsg_ne_doneMsg id) (initMsg_ne_failMsg id), List.filterMap_nil]

/-- Membership in the seeded ready queue is exactly a zero in-degree entry. -/
theorem initState_queue_mem (g : WorkGraph) (id : String) :
    id ∈ (initState g).queue ↔ (buildIndices (buildNodeMap g)).1.get? id = some 0 := by
  have hnodup : (buildIndices (buildNodeMap g)).1.keys.Nodup := by
    rw [(buildIndices_spec (buildNodeMap g) (buildNodeMap_wf g).1
      (fun e he => ((buildNodeMap_wf g).2 e he).1)).1]
    exact (buildNodeMap_wf g).1
  constructor
  · intro h
    obtain ⟨e, he, heid⟩ := List.mem_map.mp h
    obtain ⟨hel, hez⟩ := List.mem_filter.mp he
    have hz : e.2 = 0 := of_decide_eq_true hez
    rw [← heid]
    apply (get?_eq_iff_mem _ hnodup _ _).mpr
    rw [← hz]
    exact hel
  · intro h
    have hmem : (id, (0 : Int)) ∈ (buildIndices (buildNodeMap g)).1 :=
      JsMap.get?_eq_some_mem _ _ _ h
    have hfmem : (id, (0 : Int)) ∈
        List.filter (fun e => decide (e.2 = 0)) (buildIndices (buildNodeMap g)).1 :=
      List.mem_filter.mpr ⟨hmem, rfl⟩
    show id ∈ List.map (fun e => e.1)
      (List.filter (fun e => decide (e.2 = 0)) (buildIndices (buildNodeMap g)).1)
    exact List.mem_map.mpr ⟨(id, (0 : Int)), hfmem, rfl⟩

/-- The initial state satisfies the invariant with an empty batch. -/
theorem initState_inv (ora : Oracle) (g : WorkGraph) :
    Inv ora (buildNodeMap g) (initState g) [] := by
  have hmnodup : (buildNodeMap g).keys.Nodup := (buildNodeMap_wf g).1
  have hmwf : ∀ e ∈ buildNodeMap g, e.2.id = e.1 :=
    fun e he => ((buildNodeMap_wf g).2 e he).1
  obtain ⟨k1, k2, deg3, deg4, adj5, adj6⟩ :=
    buildIndices_spec (buildNodeMap g) hmnodup hmwf
  have hdinodup : (buildIndices (buildNodeMap g)).1.keys.Nodup := by
    rw [k1]
    exact hmnodup
  have htr : (initState g).trace = [Action.emit ⟨initMsg, "active", ""⟩] := rfl
  have hS0 : ∀ id, statusIn (initState g).trace id = .pending := by
    intro id
    rw [htr]
    exact initTrace_statusIn id
  have hW0 : ∀ id, statusWrites (initState g).trace id = [] := by
    intro id
    rw [htr]
    exact initTrace_statusWrites id
  have hE0 : ∀ id, eventsFor (initState g).trace id = [] := by
    intro id
    rw [htr]
    exact initTrace_eventsFor id
  have hdeg : (initState g).inDegree = (buildIndices (buildNodeMap g)).1 := rfl
  have hdegSpec : ∀ id, (buildNodeMap g).has id = true →
      (initState g).inDegree.getD id 0 =
        (depCount (buildNodeMap g) (initState g).trace id : Int) := by
    intro id hk
    obtain ⟨n, hget⟩ := JsMap.get?_isSome_of_has _ id hk
    have hmem := JsMap.get?_eq_some_mem _ _ _ hget
    have h3 := deg3 (id, n) hmem
    have hdeps : depsOf (buildNodeMap g) id = n.dependsOn := by
      rw [depsOf, hget]
    have hdc : depCount (buildNodeMap g) (initState g).trace id =
        (depsOf (buildNodeMap g) id).countP (fun d => (buildNodeMap g).has d) := by
      apply countP_congr_mem
      intro d _
      show ((buildNodeMap g).has d &&
        decide (statusIn (initState g).trace d ≠ NodeStatus.completed)) =
        (buildNodeMap g).has d
      rw [hS0 d, show decide (NodeStatus.pending ≠ NodeStatus.completed) = true from rfl,
        Bool.and_true]
    rw [hdeg, hdc, hdeps]
    exact h3
  have hq0z : ∀ id ∈ (initState g).queue, (initState g).inDegree.getD id 0 = 0 := by
    intro id hid
    have h := (initState_queue_mem g id).mp hid
    rw [hdeg, JsMap.getD, h]
    rfl
  have hq0keys : ∀ id ∈ (initState g).queue, (buildNodeMap g).has id = true := by
    intro id hid
    have h := (initState_queue_mem g id).mp hid
    have hmemk : id ∈ (buildIndices (buildNodeMap g)).1.keys := by
      apply (JsMap.mem_keys_iff_has _ _).mpr
      rw [JsMap.has_iff_get?_isSome, h]
      rfl
    rw [k1] at hmemk
    exact (JsMap.mem_keys_iff_has _ _).mp hmemk
  refine
    { queueNodup := ?_, queueKeys := hq0keys, queuePending := fun id _ => hS0 id,
      queueDegZero := hq0z, remNodup := List.nodup_nil,
      remKeys := fun id h => absurd h (List.not_mem_nil id),
      remPending := fun id h => absurd h (List.not_mem_nil id),
      remDegZero := fun id h => absurd h (List.not_mem_nil id),
      remQueueDisj := fun id h => absurd h (List.not_mem_nil id),
      degSpec := hdegSpec, degNotKey := ?_, pendingPos := ?_,
      termDeps := fun id _ hnp => absurd (hS0 id) hnp,
      countEq := ?_, writesShape := fun id => Or.inl (hW0 id),
      writesKey := fun id _ => hW0 id, eventsKey := fun id _ => hE0 id,
      eventsShape := fun id n0 _ => Or.inl ⟨hW0 id, hE0 id⟩,
      depsDone := ?_, genPersist := ?_,
      failNone := ?_, failSome := ?_, noWaveAfterFail := ?_ }
  · have hsub : (List.map (fun e => e.1)
        (List.filter (fun e => decide (e.2 = 0)) (buildIndices (buildNodeMap g)).1)).Sublist
        (List.map (fun e => e.1) (buildIndices (buildNodeMap g)).1) :=
      List.Sublist.map (fun e => e.1)
        (List.filter_sublist (buildIndices (buildNodeMap g)).1)
    show (List.map (fun e => e.1)
      (List.filter (fun e => decide (e.2 = 0)) (buildIndices (buildNodeMap g)).1)).Nodup
    exact List.Nodup.sublist hsub hdinodup
  · intro id hk
    rw [hdeg]
    exact deg4 id (by simpa using hk)
  · intro id hk _ hq _
    obtain ⟨v, hv⟩ : ∃ v, (buildIndices (buildNodeMap g)).1.get? id = some v := by
      apply JsMap.get?_isSome_of_has
      apply (JsMap.mem_keys_iff_has _ _).mp
      rw [k1]
      exact (JsMap.mem_keys_iff_has _ _).mpr hk
    have hvne : v ≠ 0 := by
      intro hz
      apply hq
      apply (initState_queue_mem g id).mpr
      rw [← hz]
      exact hv
    have hgd : (initState g).inDegree.getD id 0 = v := by
      rw [hdeg, JsMap.getD, hv]
      rfl
    have hnn := hdegSpec id hk
    rw [hgd] at hnn ⊢
    omega
  · symm
    apply List.countP_eq_zero.mpr
    intro x _
    rw [hS0 x]
    decide
  · intro p j r hdecomp n0 _ d _ _
    exfalso
    rw [htr] at hdecomp
    have := mem_of_decomp _ _ _ _ hdecomp
    rcases List.mem_singleton.mp this with h
    cases h
  · intro p j r hdecomp n0 _ _
    exfalso
    rw [htr] at hdecomp
    have := mem_of_decomp _ _ _ _ hdecomp
    rcases List.mem_singleton.mp this with h
    cases h
  · intro _ id
    rw [hS0 id]
    decide
  · intro msg h
    cases h
  · intro p a r hdecomp hfe _ _
    exfalso
    rw [htr] at hdecomp
    have := mem_of_decomp _ _ _ _ hdecomp
    rcases List.mem_singleton.mp this with rfl
    obtain ⟨id, e, heq⟩ := hfe
    exact initMsg_ne_failMsg id (congrArg ProgressEvent.step (Action.emit.inj heq))

theorem pendingCount_initState_le (g : WorkGraph) :
    pendingCount (buildNodeMap g) (initState g) ≤ (buildNodeMap g).size := by
  have h1 : pendingCount (buildNodeMap g) (initState g) ≤ (buildNodeMap g).keys.length :=
    List.countP_le_length _
  have h2 : (buildNodeMap g).keys.length = (buildNodeMap g).size := by
    rw [JsMap.keys, JsMap.size, List.length_map]
  omega

/-! ### Runs in which no dispatch fails -/

/-- An oracle on which every external call succeeds. -/
def NeverFails (ora : Oracle) : Prop :=
  (∀ t i d, ∃ w, ora.worker t i d = .ok w) ∧
  (∀ f c, ora.save f c = .ok ()) ∧
  (∀ f c, ora.stream f c = .ok ()) ∧
  (∃ u, ora.startEnvironment = .ok u)

theorem runNodeCore_startvm_ok (ora : Oracle) (n : WorkGraphNode) (url : String)
    (hg : n.task.startsWith "generate-" = false) (hv : n.task = "start-vm")
    (hu : ora.startEnvironment = .ok url) :
    runNodeCore ora n =
      ([.setStatus n.id .running, startEvt n] ++ [.startVM] ++ doneSeg n,
       .ok (some url)) := by
  rw [runNodeCore, if_neg (by rw [hg]; decide), if_pos hv, hu]

theorem runNodeCore_startvm_err (ora : Oracle) (n : WorkGraphNode) (e : String)
    (hg : n.task.startsWith "generate-" = false) (hv : n.task = "start-vm")
    (hu : ora.startEnvironment = .error e) :
    runNodeCore ora n =
      ([.setStatus n.id .running, startEvt n] ++ [.startVM] ++ failSeg n e,
       .error (taskFailMsg n.id n.task e)) := by
  rw [runNodeCore, if_neg (by rw [hg]; decide), if_pos hv, hu]

theorem runNodeCore_plain (ora : Oracle) (n : WorkGraphNode)
    (hg : n.task.startsWith "generate-" = false) (hv : ¬ n.task = "start-vm") :
    runNodeCore ora n =
      ([.setStatus n.id .running, startEvt n] ++ doneSeg n, .ok none) := by
  rw [runNodeCore, if_neg (by rw [hg]; decide), if_neg hv]

theorem runNodeCore_ok_of_neverFails (ora : Oracle) (hnf : NeverFails ora)
    (n : WorkGraphNode) : ∃ pu, (runNodeCore ora n).2 = .ok pu := by
  by_cases hg : n.task.startsWith "generate-" = true
  · obtain ⟨w, hw⟩ := hnf.1 n.task n.id n.description
    have hs := hnf.2.1 w.fileName w.code
    have hv := hnf.2.2.1 w.fileName w.code
    refine ⟨none, ?_⟩
    rw [runNodeCore_gen_ok ora n w hg hw hs hv]
  · have hg' : n.task.startsWith "generate-" = false := by
      cases h : n.task.startsWith "generate-" with
      | false => rfl
      | true => exact absurd h hg
    by_cases hv : n.task = "start-vm"
    · obtain ⟨u, hu⟩ := hnf.2.2.2
      refine ⟨some u, ?_⟩
      rw [runNodeCore_startvm_ok ora n u hg' hv hu]
    · refine ⟨none, ?_⟩
      rw [runNodeCore_plain ora n hg' hv]

theorem relaxDependents_failure (adjA : List String) :
    ∀ st : PState, (relaxDependents adjA st).failure = st.failure := by
  induction adjA with
  | nil => exact fun st => rfl
  | cons d t ih =>
      intro st
      rw [relaxDependents, List.foldl_cons]
      have hstep : ∀ st' : PState,
          ((fun (st : PState) d =>
            let deg := st.inDegree.set d (st.inDegree.getD d 0 - 1)
            if deg.getD d 0 = 0 then
              { st with inDegree := deg, queue := st.queue ++ [d] }
            else
              { st with inDegree := deg }) st' d).failure = st'.failure := by
        intro st'
        by_cases hz : ((st'.inDegree.set d (st'.inDegree.getD d 0 - 1)).getD d 0 = 0)
        · show (if (st'.inDegree.set d (st'.inDegree.getD d 0 - 1)).getD d 0 = 0 then
              { st' with inDegree := st'.inDegree.set d (st'.inDegree.getD d 0 - 1),
                          queue := st'.queue ++ [d] }
            else
              { st' with
                  inDegree := st'.inDegree.set d (st'.inDegree.getD d 0 - 1) }).failure =
            st'.failure
          rw [if_pos hz]
        · show (if (st'.inDegree.set d (st'.inDegree.getD d 0 - 1)).getD d 0 = 0 then
              { st' with inDegree := st'.inDegree.set d (st'.inDegree.getD d 0 - 1),
                          queue := st'.queue ++ [d] }
            else
              { st' with
                  inDegree := st'.inDegree.set d (st'.inDegree.getD d 0 - 1) }).failure =
            st'.failure
          rw [if_neg hz]
      have := ih ((fun (st : PState) d =>
        let deg := st.inDegree.set d (st.inDegree.getD d 0 - 1)
        if deg.getD d 0 = 0 then
          { st with inDegree := deg, queue := st.queue ++ [d] }
        else
          { st with inDegree := deg }) st d)
      rw [relaxDependents] at this
      rw [this, hstep st]

theorem relaxDependents_previewUrl (adjA : List String) :
    ∀ st : PState, (relaxDependents adjA st).previewUrl = st.previewUrl := by
  induction adjA with
  | nil => exact fun st => rfl
  | cons d t ih =>
      intro st
      rw [relaxDependents, List.foldl_cons]
      have hstep : ∀ st' : PState,
          ((fun (st : PState) d =>
            let deg := st.inDegree.set d (st.inDegree.getD d 0 - 1)
            if deg.getD d 0 = 0 then
              { st with inDegree := deg, queue := st.queue ++ [d] }
            else
              { st with inDegree := deg }) st' d).previewUrl = st'.previewUrl := by
        intro st'
        by_cases hz : ((st'.inDegree.set d (st'.inDegree.getD d 0 - 1)).getD d 0 = 0)
        · show (if (st'.inDegree.set d (st'.inDegree.getD d 0 - 1)).getD d 0 = 0 then
              { st' with inDegree := st'.inDegree.set d (st'.inDegree.getD d 0 - 1),
                          queue := st'.queue ++ [d] }
            else
              { st' with
                  inDegree := st'.inDegree.set d (st'.inDegree.getD d 0 - 1) }).previewUrl =
            st'.previewUrl
          rw [if_pos hz]
        · show (if (st'.inDegree.set d (st'.inDegree.getD d 0 - 1)).getD d 0 = 0 then
              { st' with inDegree := st'.inDegree.set d (st'.inDegree.getD d 0 - 1),
                          queue := st'.queue ++ [d] }
            else
              { st' with
                  inDegree := st'.inDegree.set d (st'.inDegree.getD d 0 - 1) }).previewUrl =
            st'.previewUrl
          rw [if_neg hz]
      have := ih ((fun (st : PState) d =>
        let deg := st.inDegree.set d (st.inDegree.getD d 0 - 1)
        if deg.getD d 0 = 0 then
          { st with inDegree := deg, queue := st.queue ++ [d] }
        else
          { st with inDegree := deg }) st d)
      rw [relaxDependents] at this
      rw [this, hstep st]

theorem processNode_eq_missing (ora : Oracle) (m : JsMap WorkGraphNode)
    (adj : JsMap (List String)) (st : PState) (A : String)
    (h : m.get? A = none) : processNode ora m adj st A = st := by
  rw [processNode, h]

theorem processNode_failure_none (ora : Oracle) (hnf : NeverFails ora)
    (m : JsMap WorkGraphNode) (adj : JsMap (List String)) (st : PState) (A : String)
    (h : st.failure = none) : (processNode ora m adj st A).failure = none := by
  cases hget : m.get? A with
  | none =>
      rw [processNode_eq_missing ora m adj st A hget]
      exact h
  | some n =>
      obtain ⟨pu, hout⟩ := runNodeCore_ok_of_neverFails ora hnf n
      rw [processNode_eq_ok ora m adj st A n hget pu hout, relaxDependents_failure]
      exact h

theorem foldl_processNode_failure_none (ora : Oracle) (hnf : NeverFails ora)
    (m : JsMap WorkGraphNode) (adj : JsMap (List String)) :
    ∀ (batch : List String) (st : PState), st.failure = none →
      (batch.foldl (processNode ora m adj) st).failure = none := by
  intro batch
  induction batch with
  | nil => exact fun st h => h
  | cons A rest ih =>
      intro st h
      rw [List.foldl_cons]
      exact ih _ (processNode_failure_none ora hnf m adj st A h)

theorem runWaves_failure_none (ora : Oracle) (hnf : NeverFails ora)
    (m : JsMap WorkGraphNode) (adj : JsMap (List String)) :
    ∀ (fuel : Nat) (st : PState), st.failure = none →
      (runWaves ora m adj fuel st).failure = none := by
  intro fuel
  induction fuel with
  | zero => exact fun st h => h
  | succ f ih =>
      intro st h
      by_cases hq : st.queue.isEmpty = true
      · rw [runWaves_succ_empty ora m adj f st hq]
        exact h
      · have hqf : st.queue.isEmpty = false := by
          cases hh : st.queue.isEmpty with
          | false => rfl
          | true => exact absurd hh hq
        have hws : (waveStep ora m adj st).failure = none :=
          foldl_processNode_failure_none ora hnf m adj st.queue (waveInit st) h
        rw [runWaves_succ_cont ora m adj f st hqf hws]
        exact ih _ hws

/-! ### The pipeline end to end -/

/-- The scheduler state after the wave loop of one run. -/
def pipelineStF (ora : Oracle) (g : WorkGraph) : PState :=
  runWaves ora (buildNodeMap g) (buildIndices (buildNodeMap g)).2
    ((buildNodeMap g).size + 1) (initState g)

theorem executeBuildPipeline_def (ora : Oracle) (g : WorkGraph) :
    executeBuildPipeline ora g =
      finishPipeline (buildNodeMap g) (pipelineStF ora g) := rfl

theorem finishPipeline_fail (m : JsMap WorkGraphNode) (stF : PState) (e : String)
    (h : stF.failure = some e) : finishPipeline m stF = ⟨stF, .error e⟩ := by
  rw [finishPipeline, h]

theorem finishPipeline_none (m : JsMap WorkGraphNode) (stF : PState)
    (h : stF.failure = none) : finishPipeline m stF = finishNoFailure m stF := by
  rw [finishPipeline, h]

theorem finishPipeline_mismatch (m : JsMap WorkGraphNode) (stF : PState)
    (h : stF.failure = none) (hc : stF.completedCount ≠ m.size) :
    finishPipeline m stF = ⟨stF, .error countMismatchMsg⟩ := by
  rw [finishPipeline_none m stF h, finishNoFailure, if_pos hc]

theorem finishPipeline_ok (m : JsMap WorkGraphNode) (stF : PState)
    (h : stF.failure = none) (hc : stF.completedCount = m.size) :
    finishPipeline m stF =
      ⟨{ stF with trace := stF.trace ++ [.emit ⟨deployMsg, "completed", ""⟩] },
       .ok stF.previewUrl⟩ := by
  rw [finishPipeline_none m stF h, finishNoFailure, if_neg (not_not_intro hc)]

/-- The invariant holds of the post-loop state, which is terminated: its
queue is empty unless a failure was recorded. -/
theorem pipeline_final_inv (ora : Oracle) (g : WorkGraph) :
    Inv ora (buildNodeMap g) (pipelineStF ora g) [] ∧
    ((pipelineStF ora g).queue = [] ∨ (pipelineStF ora g).failure ≠ none) := by
  have hmnodup : (buildNodeMap g).keys.Nodup := (buildNodeMap_wf g).1
  have hmwf : ∀ e ∈ buildNodeMap g, e.2.id = e.1 :=
    fun e he => ((buildNodeMap_wf g).2 e he).1
  obtain ⟨k1, k2, deg3, deg4, adj5, adj6⟩ :=
    buildIndices_spec (buildNodeMap g) hmnodup hmwf
  obtain ⟨a1, a2, _⟩ :=
    runWaves_inv ora (buildNodeMap g) (buildIndices (buildNodeMap g)).2
      hmnodup hmwf adj5 adj6 ((buildNodeMap g).size + 1) (initState g)
      (initState_inv ora g) rfl
      (Nat.lt_succ_of_le (pendingCount_initState_le g))
  exact ⟨a1, a2⟩

theorem statusIn_of_writesShape (tr : List Action) (id : String)
    (h : statusWrites tr id = [] ∨
      statusWrites tr id = [.running, .completed] ∨
      statusWrites tr id = [.running, .failed]) :
    statusIn tr id = .pending ∨ statusIn tr id = .completed ∨
      statusIn tr id = .failed := by
  rcases h with h | h | h
  · left
    rw [statusIn_def, h]
    rfl
  · right
    left
    exact statusIn_of_writes_pair tr id _ _ h
  · right
    right
    exact statusIn_of_writes_pair tr id _ _ h

/-- Kahn completeness: on an acyclic graph (witnessed by a rank function
that descends along existing dependencies), a run in which no external call
fails completes every node and records no failure. -/
theorem pipeline_completes_of_rank (ora : Oracle) (g : WorkGraph)
    (hnf : NeverFails ora) (rank : String → Nat)
    (hrank : ∀ x d, (buildNodeMap g).has x = true → d ∈ depsOf (buildNodeMap g) x →
      (buildNodeMap g).has d = true → rank d < rank x) :
    (pipelineStF ora g).failure = none ∧
    (pipelineStF ora g).completedCount = (buildNodeMap g).size ∧
    (∀ id, (buildNodeMap g).has id = true →
      statusIn (pipelineStF ora g).trace id = .completed) := by
  obtain ⟨hInv, hterm⟩ := pipeline_final_inv ora g
  have hfn : (pipelineStF ora g).failure = none :=
    runWaves_failure_none ora hnf _ _ _ _ rfl
  have hqe : (pipelineStF ora g).queue = [] := by
    rcases hterm with h | h
    · exact h
    · exact absurd hfn h
  have hnp : ∀ k id, rank id < k → (buildNodeMap g).has id = true →
      statusIn (pipelineStF ora g).trace id ≠ .pending := by
    intro k
    induction k with
    | zero =>
        intro id hlt
        exact absurd hlt (Nat.not_lt_zero _)
    | succ k ih =>
        intro id hlt hk hpend
        have hpos := hInv.pendingPos id hk hpend
          (by rw [hqe]; exact List.not_mem_nil id) (List.not_mem_nil id)
        rw [hInv.degSpec id hk] at hpos
        have hposn : 0 < depCount (buildNodeMap g) (pipelineStF ora g).trace id := by
          exact_mod_cast hpos
        obtain ⟨d, hd, hpd⟩ := List.countP_pos.mp hposn
        rw [Bool.and_eq_true, decide_eq_true_eq] at hpd
        obtain ⟨hdk, hdnc⟩ := hpd
        have hdlt : rank d < rank id := hrank id d hk hd hdk
        rcases statusIn_of_writesShape _ d (hInv.writesShape d) with h | h | h
        · exact ih d (by omega) hdk h
        · exact hdnc h
        · exact hInv.failNone hfn d h
  have hcomp : ∀ id, (buildNodeMap g).has id = true →
      statusIn (pipelineStF ora g).trace id = .completed := by
    intro id hk
    rcases statusIn_of_writesShape _ id (hInv.writesShape id) with h | h | h
    · exact absurd h (hnp (rank id + 1) id (by omega) hk)
    · exact h
    · exact absurd h (hInv.failNone hfn id)
  refine ⟨hfn, ?_, hcomp⟩
  rw [hInv.countEq]
  have hall : (buildNodeMap g).keys.countP
      (fun id => statusIn (pipelineStF ora g).trace id == NodeStatus.completed) =
      (buildNodeMap g).keys.length := by
    apply (countP_eq_length_iff _ _).mpr
    intro x hx
    rw [hcomp x ((JsMap.mem_keys_iff_has _ x).mp hx)]
    rfl
  rw [hall, JsMap.keys, JsMap.size, List.length_map]

/-- The returned state's trace is the loop's trace, possibly extended by the
deploy event. -/
theorem pipeline_state_trace (ora : Oracle) (g : WorkGraph) :
    (executeBuildPipeline ora g).state.trace = (pipelineStF ora g).trace ∨
    (executeBuildPipeline ora g).state.trace =
      (pipelineStF ora g).trace ++ [Action.emit ⟨deployMsg, "completed", ""⟩] := by
  rw [executeBuildPipeline_def]
  cases hf : (pipelineStF ora g).failure with
  | some e =>
      rw [finishPipeline_fail _ _ e hf]
      left
      rfl
  | none =>
      by_cases hc : (pipelineStF ora g).completedCount = (buildNodeMap g).size
      · rw [finishPipeline_ok _ _ hf hc]
        right
        rfl
      · rw [finishPipeline_mismatch _ _ hf hc]
        left
        rfl

theorem pipeline_state_statusWrites (ora : Oracle) (g : WorkGraph) (id : String) :
    statusWrites (executeBuildPipeline ora g).state.trace id =
      statusWrites (pipelineStF ora g).trace id := by
  rcases pipeline_state_trace ora g with h | h
  · rw [h]
  · rw [h, statusWrites_append_emit]

theorem pipeline_state_statusIn (ora : Oracle) (g : WorkGraph) (id : String) :
    statusIn (executeBuildPipeline ora g).state.trace id =
      statusIn (pipelineStF ora g).trace id := by
  rw [statusIn_def, pipeline_state_statusWrites, ← statusIn_def]

theorem pipeline_state_eventsFor (ora : Oracle) (g : WorkGraph) (id : String) :
    eventsFor (executeBuildPipeline ora g).state.trace id =
      eventsFor (pipelineStF ora g).trace id := by
  rcases pipeline_state_trace ora g with h | h
  · rw [h]
  · rw [h]
    exact eventsFor_append_emit _ _ _ (deployMsg_ne_startMsg id)
      (deployMsg_ne_doneMsg id) (deployMsg_ne_failMsg id)

/-- A decomposition of the returned trace at a status write lies inside the
loop's trace, with the same prefix. -/
theorem pipeline_state_set_decomp (ora : Oracle) (g : WorkGraph)
    (p r : List Action) (j : String) (st : NodeStatus)
    (h : (executeBuildPipeline ora g).state.trace = p ++ Action.setStatus j st :: r) :
    ∃ r', (pipelineStF ora g).trace = p ++ Action.setStatus j st :: r' := by
  rcases pipeline_state_trace ora g with ht | ht
  · rw [ht] at h
    exact ⟨r, h⟩
  · rw [ht] at h
    obtain ⟨r₀, h1, _⟩ := decomp_emit_tail _ _ _ _ _ (by intro hh; cases hh) h
    exact ⟨r₀, h1⟩

/-! ### Status-write counts -/

theorem counts_le_one_of_writesShape (tr : List Action) (id : String)
    (h : statusWrites tr id = [] ∨
      statusWrites tr id = [.running, .completed] ∨
      statusWrites tr id = [.running, .failed]) :
    dispatchCount tr id ≤ 1 ∧ terminalCount tr id ≤ 1 := by
  rcases h with h | h | h <;> rw [dispatchCount, terminalCount, h] <;>
    exact ⟨by decide, by decide⟩

theorem writes_pair_of_completed (tr : List Action) (id : String)
    (h : statusWrites tr id = [] ∨
      statusWrites tr id = [.running, .completed] ∨
      statusWrites tr id = [.running, .failed])
    (hst : statusIn tr id = .completed) :
    statusWrites tr id = [.running, .completed] := by
  rcases h with h | h | h
  · rw [statusIn_def, h] at hst
    cases hst
  · exact h
  · rw [statusIn_of_writes_pair tr id _ _ h] at hst
    cases hst

theorem writes_ne_nil_of_dispatch (tr : List Action) (id : String)
    (h1 : 1 ≤ dispatchCount tr id) : statusWrites tr id ≠ [] := by
  intro h
  rw [dispatchCount, h, List.count_nil] at h1
  omega

/-! ### Provenance of the preview URL -/

/-- A recorded preview URL always comes from the Dev-Flow Manager response
of a `start-vm` node of the graph. -/
def PreviewSound (ora : Oracle) (m : JsMap WorkGraphNode) (st : PState) : Prop :=
  ∀ u, st.previewUrl = some u → ora.startEnvironment = .ok u ∧
    ∃ id n, m.get? id = some n ∧ n.task = "start-vm"

theorem runNodeCore_preview (ora : Oracle) (n : WorkGraphNode) (u : String)
    (hout : (runNodeCore ora n).2 = .ok (some u)) :
    n.task = "start-vm" ∧ ora.startEnvironment = .ok u := by
  by_cases hg : n.task.startsWith "generate-" = true
  · cases hw : ora.worker n.task n.id n.description with
    | error e =>
        rw [runNodeCore_gen_worker_err ora n e hg hw] at hout
        cases hout
    | ok w =>
        by_cases hse : ∃ e, ora.save w.fileName w.code = .error e
        · obtain ⟨e, hs⟩ := hse
          rw [runNodeCore_gen_save_err ora n w e hg hw hs] at hout
          cases hout
        · have hs := unit_ok _ hse
          by_cases hve : ∃ e, ora.stream w.fileName w.code = .error e
          · obtain ⟨e, hv⟩ := hve
            rw [runNodeCore_gen_stream_err ora n w e hg hw hs hv] at hout
            cases hout
          · have hv := unit_ok _ hve
            rw [runNodeCore_gen_ok ora n w hg hw hs hv] at hout
            cases hout
  · have hg' : n.task.startsWith "generate-" = false := by
      cases h : n.task.startsWith "generate-" with
      | false => rfl
      | true => exact absurd h hg
    by_cases hv : n.task = "start-vm"
    · cases hu : ora.startEnvironment with
      | error e =>
          rw [runNodeCore_startvm_err ora n e hg' hv hu] at hout
          cases hout
      | ok url =>
          rw [runNodeCore_startvm_ok ora n url hg' hv hu] at hout
          have h2 : (some url : Option String) = some u := Except.ok.inj hout
          obtain rfl : url = u := Option.some.inj h2
          exact ⟨hv, rfl⟩
    · rw [runNodeCore_plain ora n hg' hv] at hout
      cases hout

theorem processNode_preview (ora : Oracle) (m : JsMap WorkGraphNode)
    (adj : JsMap (List String)) (st : PState) (A : String)
    (hPS : PreviewSound ora m st) :
    PreviewSound ora m (processNode ora m adj st A) := by
  cases hget : m.get? A with
  | none =>
      rw [processNode_eq_missing ora m adj st A hget]
      exact hPS
  | some n =>
      cases hout : (runNodeCore ora n).2 with
      | error msg =>
          rw [processNode_eq_err ora m adj st A n hget msg hout]
          intro u hu
          exact hPS u hu
      | ok pu =>
          rw [processNode_eq_ok ora m adj st A n hget pu hout]
          intro u hu
          rw [relaxDependents_previewUrl] at hu
          have hu' : updPreview pu st.previewUrl = some u := hu
          cases pu with
          | none => exact hPS u hu'
          | some v =>
              have h2 : (some v : Option String) = some u := hu'
              obtain rfl : v = u := Option.some.inj h2
              obtain ⟨htask, henv⟩ := runNodeCore_preview ora n v hout
              exact ⟨henv, A, n, hget, htask⟩

theorem foldl_processNode_preview (ora : Oracle) (m : JsMap WorkGraphNode)
    (adj : JsMap (List String)) :
    ∀ (batch : List String) (st : PState), PreviewSound ora m st →
      PreviewSound ora m (batch.foldl (processNode ora m adj) st) := by
  intro batch
  induction batch with
  | nil => exact fun st h => h
  | cons A rest ih =>
      intro st h
      rw [List.foldl_cons]
      exact ih _ (processNode_preview ora m adj st A h)

theorem runWaves_preview (ora : Oracle) (m : JsMap WorkGraphNode)
    (adj : JsMap (List String)) :
    ∀ (fuel : Nat) (st : PState), PreviewSound ora m st →
      PreviewSound ora m (runWaves ora m adj fuel st) := by
  intro fuel
  induction fuel with
  | zero => exact fun st h => h
  | succ f ih =>
      intro st h
      by_cases hq : st.queue.isEmpty = true
      · rw [runWaves_succ_empty ora m adj f st hq]
        exact h
      · have hqf : st.queue.isEmpty = false := by
          cases hh : st.queue.isEmpty with
          | false => rfl
          | true => exact absurd hh hq
        have hws : PreviewSound ora m (waveStep ora m adj st) :=
          foldl_processNode_preview ora m adj st.queue (waveInit st) h
        cases hfl : (waveStep ora m adj st).failure with
        | some e =>
            rw [runWaves_succ_fail ora m adj f st hqf e hfl]
            exact hws
        | none =>
            rw [runWaves_succ_cont ora m adj f st hqf hfl]
            exact ih _ hws

theorem pipeline_preview_sound (ora : Oracle) (g : WorkGraph) :
    PreviewSound ora (buildNodeMap g) (pipelineStF ora g) := by
  apply runWaves_preview
  intro u hu
  cases hu

/-! ### Concrete graphs and oracles used in the examples -/

/-- An oracle on which every call succeeds. -/
def okOracle : Oracle :=
  { worker := fun task id _ => .ok ⟨"src/" ++ id ++ ".tsx", "code-" ++ task⟩,
    save := fun _ _ => .ok (),
    stream := fun _ _ => .ok (),
    startEnvironment := .ok "https://preview.example" }

/-- An oracle whose `start-environment` call rejects, so node `A` of
`chainGraph` (the `start-vm` node) fails. -/
def failAOracle : Oracle :=
  { worker := fun _ _ _ => .ok ⟨"src/x.tsx", "code"⟩,
    save := fun _ _ => .ok (),
    stream := fun _ _ => .ok (),
    startEnvironment := .error "boom" }

/-- A valid two-node chain: `B` depends on `A`. -/
def chainGraph : WorkGraph :=
  ⟨[⟨"A", "start-vm", "boot", []⟩,
    ⟨"B", "setup", "after A", ["A"]⟩]⟩

/-- A rank certificate of `chainGraph`'s acyclicity. -/
def chainRank : String → Nat := fun id => if id = "B" then 1 else 0

/-- A free node `A` next to the two-node cycle `B ↔ C`. -/
def cycleGraph : WorkGraph :=
  ⟨[⟨"A", "setup", "free node", []⟩,
    ⟨"B", "generate-b", "b", ["C"]⟩,
    ⟨"C", "generate-c", "c", ["B"]⟩]⟩

/-- One node whose `dependsOn` names a non-existent id. -/
def danglingGraph : WorkGraph :=
  ⟨[⟨"A", "setup", "only node", ["ghost"]⟩]⟩

/-- A graph whose only node starts the VM. -/
def vmGraph : WorkGraph :=
  ⟨[⟨"A", "start-vm", "boot", []⟩]⟩

theorem dispatchCount_congr (t1 t2 : List Action) (id : String)
    (h : statusWrites t1 id = statusWrites t2 id) :
    dispatchCount t1 id = dispatchCount t2 id := by
  rw [dispatchCount, h]
  rfl

theorem terminalCount_congr (t1 t2 : List Action) (id : String)
    (h : statusWrites t1 id = statusWrites t2 id) :
    dispatchCount t1 id = dispatchCount t2 id ∧
    terminalCount t1 id = terminalCount t2 id := by
  constructor
  · rw [dispatchCount, h]
    rfl
  · rw [terminalCount, h]
    rfl

theorem keys_length (m : JsMap WorkGraphNode) : m.keys.length = m.size := by
  rw [JsMap.keys, JsMap.size, List.length_map]

/-! ### The timing of `Promise.all` (ECMAScript semantics) -/

/-- One dispatched promise of a wave: when it settles, and whether it
fulfils (`ok = true`) or rejects. -/
structure TimedSettle where
  time : Nat
  ok : Bool
deriving DecidableEq, Repr

/-- The instant by which every promise of the list has settled. -/
def allSettledTime (ts : List TimedSettle) : Nat :=
  (ts.map (fun t => t.time)).foldl max 0

/-- The instant at which `Promise.all` over the list settles: at the first
rejection if any promise rejects, otherwise once all have fulfilled. -/
def promiseAllSettleTime (ts : List TimedSettle) : Nat :=
  match (ts.filter (fun t => t.ok == false)).map (fun t => t.time) with
  | [] => allSettledTime ts
  | t :: rest => rest.foldl min t

/-! ### The claims -/

/-- C1 (amended): in every run, each node is dispatched at most once and
receives at most one terminal status write; a node's dispatch is preceded by
a `completed` write for every existing node named in its `dependsOn`; and
when the graph is acyclic (witnessed by a rank function descending along
existing dependencies) and no external call fails, every node of the graph
is dispatched exactly once and reaches `completed` exactly once.  (The
original claim's "exactly once" clause fails when a dispatch rejects:
downstream nodes then stay pending, see the counterexample.) -/
theorem C1_dispatch_terminal_order (g : WorkGraph) (ora : Oracle) :
    (∀ id, dispatchCount (executeBuildPipeline ora g).state.trace id ≤ 1 ∧
      terminalCount (executeBuildPipeline ora g).state.trace id ≤ 1) ∧
    (∀ p j r, (executeBuildPipeline ora g).state.trace =
        p ++ Action.setStatus j .running :: r →
      ∀ n, (buildNodeMap g).get? j = some n → ∀ d ∈ n.dependsOn,
        (buildNodeMap g).has d = true → Action.setStatus d .completed ∈ p) ∧
    (∀ rank : String → Nat,
      (∀ x d, (buildNodeMap g).has x = true → d ∈ depsOf (buildNodeMap g) x →
        (buildNodeMap g).has d = true → rank d < rank x) →
      NeverFails ora →
      ∀ id, (buildNodeMap g).has id = true →
        dispatchCount (executeBuildPipeline ora g).state.trace id = 1 ∧
        terminalCount (executeBuildPipeline ora g).state.trace id = 1 ∧
        statusIn (executeBuildPipeline ora g).state.trace id = .completed) := by
  obtain ⟨hInv, _⟩ := pipeline_final_inv ora g
  refine ⟨?_, ?_, ?_⟩
  · intro id
    obtain ⟨h1, h2⟩ := terminalCount_congr (executeBuildPipeline ora g).state.trace
      (pipelineStF ora g).trace id (pipeline_state_statusWrites ora g id)
    obtain ⟨b1, b2⟩ :=
      counts_le_one_of_writesShape (pipelineStF ora g).trace id (hInv.writesShape id)
    rw [h1, h2]
    exact ⟨b1, b2⟩
  · intro p j r hdec n hget d hd hhas
    obtain ⟨r', hdec'⟩ := pipeline_state_set_decomp ora g p r j .running hdec
    exact hInv.depsDone p j r' hdec' n hget d hd hhas
  · intro rank hrank hnf id hk
    obtain ⟨hfn, hcnt, hcomp⟩ := pipeline_completes_of_rank ora g hnf rank hrank
    have hw : statusWrites (pipelineStF ora g).trace id = [.running, .completed] :=
      writes_pair_of_completed _ _ (hInv.writesShape id) (hcomp id hk)
    obtain ⟨h1, h2⟩ := terminalCount_congr (executeBuildPipeline ora g).state.trace
      (pipelineStF ora g).trace id (pipeline_state_statusWrites ora g id)
    refine ⟨?_, ?_, ?_⟩
    · rw [h1, dispatchCount, hw]
      decide
    · rw [h2, terminalCount, hw]
      decide
    · rw [pipeline_state_statusIn]
      exact hcomp id hk

/-- C1 counterexample: `chainGraph` is a valid acyclic graph (distinct ids,
every dependency exists, `chainRank` certifies acyclicity), yet when node
`A`'s worker call rejects, node `B` of the graph never receives a terminal
status write. -/
theorem C1_counterexample :
    (chainGraph.nodes.map (fun n => n.id)).Nodup ∧
    (∀ x d, (buildNodeMap chainGraph).has x = true →
      d ∈ depsOf (buildNodeMap chainGraph) x →
      (buildNodeMap chainGraph).has d = true → chainRank d < chainRank x) ∧
    (∀ x d, (buildNodeMap chainGraph).has x = true →
      d ∈ depsOf (buildNodeMap chainGraph) x →
      (buildNodeMap chainGraph).has d = true) ∧
    (buildNodeMap chainGraph).has "B" = true ∧
    terminalCount (executeBuildPipeline failAOracle chainGraph).state.trace "B" = 0 := by
  have hkeys : ∀ x, (buildNodeMap chainGraph).has x = true → x = "A" ∨ x = "B" := by
    intro x hx
    have h := (JsMap.mem_keys_iff_has _ x).mpr hx
    rw [show (buildNodeMap chainGraph).keys = ["A", "B"] from rfl] at h
    simpa using h
  refine ⟨by decide, ?_, ?_, rfl, rfl⟩
  · intro x d hx hd hdk
    rcases hkeys x hx with rfl | rfl
    · rw [show depsOf (buildNodeMap chainGraph) "A" = [] from rfl] at hd
      cases hd
    · rw [show depsOf (buildNodeMap chainGraph) "B" = ["A"] from rfl] at hd
      rcases List.mem_singleton.mp hd with rfl
      decide
  · intro x d hx hd
    rcases hkeys x hx with rfl | rfl
    · rw [show depsOf (buildNodeMap chainGraph) "A" = [] from rfl] at hd
      cases hd
    · rw [show depsOf (buildNodeMap chainGraph) "B" = ["A"] from rfl] at hd
      rcases List.mem_singleton.mp hd with rfl
      decide

/-- C2 (amended): there is no validation step and no cycle-specific error:
every run terminates and ends in exactly one of three outcomes — success,
the generic count-mismatch error, or the first failing node's task error.
(The counterexample shows a cyclic graph whose free node is dispatched and
completed before the generic count-mismatch error is thrown.) -/
theorem C2_no_validation_trichotomy (g : WorkGraph) (ora : Oracle) :
    (∃ pu, (executeBuildPipeline ora g).result = .ok pu) ∨
    (executeBuildPipeline ora g).result = .error countMismatchMsg ∨
    (∃ id n e, (buildNodeMap g).get? id = some n ∧
      statusIn (executeBuildPipeline ora g).state.trace id = .failed ∧
      (executeBuildPipeline ora g).result = .error (taskFailMsg id n.task e)) := by
  obtain ⟨hInv, _⟩ := pipeline_final_inv ora g
  cases hf : (pipelineStF ora g).failure with
  | some msg =>
      right
      right
      obtain ⟨id, n, hget, hfail, e, he⟩ := hInv.failSome msg hf
      refine ⟨id, n, e, hget, ?_, ?_⟩
      · rw [executeBuildPipeline_def, finishPipeline_fail _ _ msg hf]
        exact hfail
      · rw [executeBuildPipeline_def, finishPipeline_fail _ _ msg hf, he]
  | none =>
      by_cases hc : (pipelineStF ora g).completedCount = (buildNodeMap g).size
      · left
        refine ⟨(pipelineStF ora g).previewUrl, ?_⟩
        rw [executeBuildPipeline_def, finishPipeline_ok _ _ hf hc]
      · right
        left
        rw [executeBuildPipeline_def, finishPipeline_mismatch _ _ hf hc]

/-- C2 counterexample: on `cycleGraph` (a two-node cycle plus a free node),
the free node is dispatched and completed before the run ends, and the error
thrown is the generic count-mismatch message, not a cycle validation
error. -/
theorem C2_counterexample :
    dispatchCount (executeBuildPipeline okOracle cycleGraph).state.trace "A" = 1 ∧
    statusIn (executeBuildPipeline okOracle cycleGraph).state.trace "A" = .completed ∧
    statusIn (executeBuildPipeline okOracle cycleGraph).state.trace "B" = .pending ∧
    (executeBuildPipeline okOracle cycleGraph).result = .error countMismatchMsg :=
  ⟨rfl, rfl, rfl, rfl⟩

/-- C3: if any node's dispatch fails, the run's result is the error naming
that node's id and task kind, and no wave-start event follows any failure
event in the trace. -/
theorem C3_failure_result (g : WorkGraph) (ora : Oracle)
    (hfail : ∃ id, statusIn (executeBuildPipeline ora g).state.trace id = .failed) :
    ∃ id n e, (buildNodeMap g).get? id = some n ∧
      statusIn (executeBuildPipeline ora g).state.trace id = .failed ∧
      (executeBuildPipeline ora g).result = .error (taskFailMsg id n.task e) ∧
      (∀ p a r, (executeBuildPipeline ora g).state.trace = p ++ a :: r →
        IsFailEvt a → ∀ b ∈ r, ¬ IsWaveStart b) := by
  obtain ⟨hInv, _⟩ := pipeline_final_inv ora g
  obtain ⟨id0, hid0⟩ := hfail
  have hid0' : statusIn (pipelineStF ora g).trace id0 = .failed := by
    rw [← pipeline_state_statusIn]
    exact hid0
  obtain ⟨msg, hmsg⟩ : ∃ msg, (pipelineStF ora g).failure = some msg := by
    cases hf : (pipelineStF ora g).failure with
    | none => exact absurd hid0' (hInv.failNone hf id0)
    | some m => exact ⟨m, rfl⟩
  obtain ⟨id, n, hget, hfail', e, he⟩ := hInv.failSome msg hmsg
  have hstate : (executeBuildPipeline ora g).state = pipelineStF ora g := by
    rw [executeBuildPipeline_def, finishPipeline_fail _ _ msg hmsg]
  refine ⟨id, n, e, hget, ?_, ?_, ?_⟩
  · rw [hstate]
    exact hfail'
  · rw [executeBuildPipeline_def, finishPipeline_fail _ _ msg hmsg, he]
  · intro p a r hdec hfe b hb
    rw [hstate] at hdec
    exact hInv.noWaveAfterFail p a r hdec hfe b hb

/-- C3 witness: on `chainGraph` with the oracle whose `start-environment`
call rejects, node `A` fails and the theorem applies. -/
theorem C3_witness :
    (∃ id, statusIn (executeBuildPipeline failAOracle chainGraph).state.trace id =
      .failed) ∧
    (∃ id n e, (buildNodeMap chainGraph).get? id = some n ∧
      statusIn (executeBuildPipeline failAOracle chainGraph).state.trace id = .failed ∧
      (executeBuildPipeline failAOracle chainGraph).result =
        .error (taskFailMsg id n.task e) ∧
      (∀ p a r, (executeBuildPipeline failAOracle chainGraph).state.trace =
          p ++ a :: r →
        IsFailEvt a → ∀ b ∈ r, ¬ IsWaveStart b)) :=
  ⟨⟨"A", rfl⟩, C3_failure_result chainGraph failAOracle ⟨"A", rfl⟩⟩

/-- C4 (amended): `Promise.all` settles at the first rejection and does not
wait for the remaining promises of the wave (see the counterexample on the
timed model); in the recorded run, however, every async closure still runs
to completion, so every dispatched node ends with a terminal status even
when a sibling failed. -/
theorem C4_siblings_settle (g : WorkGraph) (ora : Oracle) (id : String)
    (hd : 1 ≤ dispatchCount (executeBuildPipeline ora g).state.trace id) :
    statusIn (executeBuildPipeline ora g).state.trace id = .completed ∨
    statusIn (executeBuildPipeline ora g).state.trace id = .failed := by
  obtain ⟨hInv, _⟩ := pipeline_final_inv ora g
  have hd' : 1 ≤ dispatchCount (pipelineStF ora g).trace id := by
    rw [dispatchCount_congr (executeBuildPipeline ora g).state.trace
      (pipelineStF ora g).trace id (pipeline_state_statusWrites ora g id)] at hd
    exact hd
  have hne := writes_ne_nil_of_dispatch _ _ hd'
  rcases hInv.writesShape id with h | h | h
  · exact absurd h hne
  · left
    rw [pipeline_state_statusIn]
    exact statusIn_of_writes_pair _ _ _ _ h
  · right
    rw [pipeline_state_statusIn]
    exact statusIn_of_writes_pair _ _ _ _ h

/-- C4 counterexample: with a sibling fulfilling at time 5 and one rejecting
at time 1, `Promise.all` settles at time 1, before the last outstanding
dispatch has settled at time 5 — the controller does not await the rest of
the wave before failing. -/
theorem C4_counterexample :
    promiseAllSettleTime [⟨5, true⟩, ⟨1, false⟩] = 1 ∧
    allSettledTime [⟨5, true⟩, ⟨1, false⟩] = 5 ∧
    promiseAllSettleTime [⟨5, true⟩, ⟨1, false⟩] <
      allSettledTime [⟨5, true⟩, ⟨1, false⟩] := by
  decide

/-- C4 witness: on the failing run of `chainGraph`, the dispatched node `A`
still carries a terminal status. -/
theorem C4_witness :
    1 ≤ dispatchCount (executeBuildPipeline failAOracle chainGraph).state.trace "A" ∧
    (statusIn (executeBuildPipeline failAOracle chainGraph).state.trace "A" =
        .completed ∨
      statusIn (executeBuildPipeline failAOracle chainGraph).state.trace "A" =
        .failed) :=
  ⟨by decide, C4_siblings_settle chainGraph failAOracle "A" (by decide)⟩

/-- C5: a declared success means the count of completed nodes equals the
graph's node count (and indeed every node is completed), and a run whose
loop ends with no failure but a mismatching count raises the
count-mismatch error instead of succeeding. -/
theorem C5_success_counts (g : WorkGraph) (ora : Oracle) :
    (∀ pu, (executeBuildPipeline ora g).result = .ok pu →
      (buildNodeMap g).keys.countP
        (fun id => statusIn (executeBuildPipeline ora g).state.trace id ==
          NodeStatus.completed) = (buildNodeMap g).size ∧
      ∀ id, (buildNodeMap g).has id = true →
        statusIn (executeBuildPipeline ora g).state.trace id = .completed) ∧
    ((pipelineStF ora g).failure = none →
      (pipelineStF ora g).completedCount ≠ (buildNodeMap g).size →
      (executeBuildPipeline ora g).result = .error countMismatchMsg) := by
  obtain ⟨hInv, _⟩ := pipeline_final_inv ora g
  constructor
  · intro pu hres
    cases hf : (pipelineStF ora g).failure with
    | some e =>
        rw [executeBuildPipeline_def, finishPipeline_fail _ _ e hf] at hres
        exact Except.noConfusion hres
    | none =>
        by_cases hc : (pipelineStF ora g).completedCount = (buildNodeMap g).size
        · have hcountP : (buildNodeMap g).keys.countP
              (fun id => statusIn (pipelineStF ora g).trace id ==
                NodeStatus.completed) = (buildNodeMap g).size := by
            rw [← hInv.countEq]
            exact hc
          have hall : ∀ id, (buildNodeMap g).has id = true →
              statusIn (pipelineStF ora g).trace id = .completed := by
            intro id hk
            have hlen : (buildNodeMap g).keys.countP
                (fun id => statusIn (pipelineStF ora g).trace id ==
                  NodeStatus.completed) = (buildNodeMap g).keys.length := by
              rw [hcountP, keys_length]
            have h := (countP_eq_length_iff _ _).mp hlen id
              ((JsMap.mem_keys_iff_has _ id).mpr hk)
            exact eq_of_beq_status _ _ h
          have hsame : (buildNodeMap g).keys.countP
              (fun id => statusIn (executeBuildPipeline ora g).state.trace id ==
                NodeStatus.completed) = (buildNodeMap g).keys.countP
              (fun id => statusIn (pipelineStF ora g).trace id ==
                NodeStatus.completed) := by
            apply countP_congr_mem
            intro x _
            show (statusIn (executeBuildPipeline ora g).state.trace x ==
              NodeStatus.completed) =
              (statusIn (pipelineStF ora g).trace x == NodeStatus.completed)
            rw [pipeline_state_statusIn]
          refine ⟨by rw [hsame]; exact hcountP, ?_⟩
          intro id hk
          rw [pipeline_state_statusIn]
          exact hall id hk
        · rw [executeBuildPipeline_def, finishPipeline_mismatch _ _ hf hc] at hres
          exact Except.noConfusion hres
  · intro hf hc
    rw [executeBuildPipeline_def, finishPipeline_mismatch _ _ hf hc]

/-- C6 (amended): there is no validation of `dependsOn` references: a
dangling reference is silently skipped — it contributes neither an in-degree
unit nor an adjacency edge — and the pipeline proceeds without it.  (The
counterexample shows a graph with a dangling reference that is dispatched
and succeeds.) -/
theorem C6_dangling_skipped (g : WorkGraph) :
    (∀ id n, (buildNodeMap g).get? id = some n →
      (buildIndices (buildNodeMap g)).1.getD id 0 =
        (n.dependsOn.countP (fun d => (buildNodeMap g).has d) : Int)) ∧
    (∀ a x, x ∈ (buildIndices (buildNodeMap g)).2.getD a [] →
      (buildNodeMap g).has x = true) := by
  have hmnodup : (buildNodeMap g).keys.Nodup := (buildNodeMap_wf g).1
  have hmwf : ∀ e ∈ buildNodeMap g, e.2.id = e.1 :=
    fun e he => ((buildNodeMap_wf g).2 e he).1
  obtain ⟨_, _, deg3, _, _, adj6⟩ := buildIndices_spec (buildNodeMap g) hmnodup hmwf
  constructor
  · intro id n hget
    exact deg3 (id, n) (JsMap.get?_eq_some_mem _ _ _ hget)
  · exact adj6

/-- C6 counterexample: `danglingGraph`'s only node names the non-existent id
`ghost` in `dependsOn`; no validation error occurs — the node is dispatched,
completes, and the run succeeds. -/
theorem C6_counterexample :
    (buildNodeMap danglingGraph).has "ghost" = false ∧
    depsOf (buildNodeMap danglingGraph) "A" = ["ghost"] ∧
    dispatchCount (executeBuildPipeline okOracle danglingGraph).state.trace "A" = 1 ∧
    statusIn (executeBuildPipeline okOracle danglingGraph).state.trace "A" =
      .completed ∧
    (executeBuildPipeline okOracle danglingGraph).result = .ok none :=
  ⟨rfl, rfl, rfl, rfl, rfl⟩

/-- C7: for every `generate-*` node whose status reaches `completed` in a
run, the worker call succeeded and both the local save and the streaming of
its output occur strictly before that status write; and a rejection of
either side-effect makes the node's dispatch reject with the very same task
failure message a worker rejection produces. -/
theorem C7_generate_persist_stream (g : WorkGraph) (ora : Oracle) :
    (∀ p j r, (executeBuildPipeline ora g).state.trace =
        p ++ Action.setStatus j .completed :: r →
      ∀ n, (buildNodeMap g).get? j = some n →
        n.task.startsWith "generate-" = true →
        ∃ w, ora.worker n.task n.id n.description = .ok w ∧
          Action.saveCodeLocally w.fileName w.code ∈ p ∧
          Action.streamFileToVM w.fileName w.code ∈ p) ∧
    (∀ n w e, n.task.startsWith "generate-" = true →
      ora.worker n.task n.id n.description = .ok w →
      ora.save w.fileName w.code = .error e →
      (runNodeCore ora n).2 = .error (taskFailMsg n.id n.task e)) ∧
    (∀ n w e, n.task.startsWith "generate-" = true →
      ora.worker n.task n.id n.description = .ok w →
      ora.save w.fileName w.code = .ok () →
      ora.stream w.fileName w.code = .error e →
      (runNodeCore ora n).2 = .error (taskFailMsg n.id n.task e)) := by
  refine ⟨?_, ?_, ?_⟩
  · intro p j r hdec n hget hgen
    obtain ⟨hInv, _⟩ := pipeline_final_inv ora g
    obtain ⟨r', hdec'⟩ := pipeline_state_set_decomp ora g p r j .completed hdec
    exact hInv.genPersist p j r' hdec' n hget hgen
  · intro n w e hg hw hs
    rw [runNodeCore_gen_save_err ora n w e hg hw hs]
  · intro n w e hg hw hs hv
    rw [runNodeCore_gen_stream_err ora n w e hg hw hs hv]

/-- C8: every dispatched node's progress events are exactly one `active`
start event followed by one terminal event, and the terminal event's kind
matches the node's outcome: the `completed` event when the node's status is
`completed`, the `error` event when it is `failed`. -/
theorem C8_events_ordered (g : WorkGraph) (ora : Oracle) (id : String)
    (n : WorkGraphNode) (hget : (buildNodeMap g).get? id = some n)
    (hdisp : 1 ≤ dispatchCount (executeBuildPipeline ora g).state.trace id) :
    ∃ term : ProgressEvent,
      eventsFor (executeBuildPipeline ora g).state.trace id =
        [⟨startMsg id, "active", "Task: " ++ n.task⟩, term] ∧
      ((statusIn (executeBuildPipeline ora g).state.trace id = .completed ∧
          term = ⟨doneMsg id, "completed", ""⟩) ∨
        (statusIn (executeBuildPipeline ora g).state.trace id = .failed ∧
          ∃ e, term = ⟨failMsg id, "error", e⟩)) := by
  obtain ⟨hInv, _⟩ := pipeline_final_inv ora g
  have hd' : 1 ≤ dispatchCount (pipelineStF ora g).trace id := by
    rw [dispatchCount_congr (executeBuildPipeline ora g).state.trace
      (pipelineStF ora g).trace id (pipeline_state_statusWrites ora g id)] at hdisp
    exact hdisp
  have hne := writes_ne_nil_of_dispatch _ _ hd'
  rcases hInv.eventsShape id n hget with ⟨hw, _⟩ | ⟨hw, hE⟩ | ⟨e, hw, hE⟩
  · exact absurd hw hne
  · refine ⟨⟨doneMsg id, "completed", ""⟩, ?_, Or.inl ⟨?_, rfl⟩⟩
    · rw [pipeline_state_eventsFor]
      exact hE
    · rw [pipeline_state_statusIn]
      exact statusIn_of_writes_pair _ _ _ _ hw
  · refine ⟨⟨failMsg id, "error", e⟩, ?_, Or.inr ⟨?_, e, rfl⟩⟩
    · rw [pipeline_state_eventsFor]
      exact hE
    · rw [pipeline_state_statusIn]
      exact statusIn_of_writes_pair _ _ _ _ hw

/-- C8 witness: node `A` of the successful `chainGraph` run completes, and
its terminal event is the `completed` one. -/
theorem C8_witness :
    (buildNodeMap chainGraph).get? "A" = some ⟨"A", "start-vm", "boot", []⟩ ∧
    1 ≤ dispatchCount (executeBuildPipeline okOracle chainGraph).state.trace "A" ∧
    ∃ term : ProgressEvent,
      eventsFor (executeBuildPipeline okOracle chainGraph).state.trace "A" =
        [⟨startMsg "A", "active", "Task: " ++ ("start-vm" : String)⟩, term] ∧
      ((statusIn (executeBuildPipeline okOracle chainGraph).state.trace "A" =
            .completed ∧
          term = ⟨doneMsg "A", "completed", ""⟩) ∨
        (statusIn (executeBuildPipeline okOracle chainGraph).state.trace "A" =
            .failed ∧
          ∃ e, term = ⟨failMsg "A", "error", e⟩)) :=
  ⟨rfl, by decide,
    C8_events_ordered chainGraph okOracle "A" ⟨"A", "start-vm", "boot", []⟩ rfl
      (by decide)⟩

/-- C9: the wave loop terminates on every input — `nodes.size + 1` units of
fuel are always enough, and more fuel never changes the outcome; each node
is dispatched at most once; and a loop that ends with no failure but with
uncompleted nodes (as on a cyclic graph, whose cycle members never enter the
ready queue) throws the count-mismatch error rather than waiting. -/
theorem C9_termination (g : WorkGraph) (ora : Oracle) :
    (∀ fuel, (buildNodeMap g).size + 1 ≤ fuel →
      runWaves ora (buildNodeMap g) (buildIndices (buildNodeMap g)).2 fuel
        (initState g) = pipelineStF ora g) ∧
    (∀ id, dispatchCount (executeBuildPipeline ora g).state.trace id ≤ 1) ∧
    ((pipelineStF ora g).failure = none →
      (pipelineStF ora g).completedCount ≠ (buildNodeMap g).size →
      (executeBuildPipeline ora g).result = .error countMismatchMsg) := by
  have hmnodup : (buildNodeMap g).keys.Nodup := (buildNodeMap_wf g).1
  have hmwf : ∀ e ∈ buildNodeMap g, e.2.id = e.1 :=
    fun e he => ((buildNodeMap_wf g).2 e he).1
  obtain ⟨k1, k2, deg3, deg4, adj5, adj6⟩ :=
    buildIndices_spec (buildNodeMap g) hmnodup hmwf
  obtain ⟨hInv, _, a3⟩ :=
    runWaves_inv ora (buildNodeMap g) (buildIndices (buildNodeMap g)).2
      hmnodup hmwf adj5 adj6 ((buildNodeMap g).size + 1) (initState g)
      (initState_inv ora g) rfl
      (Nat.lt_succ_of_le (pendingCount_initState_le g))
  refine ⟨fun fuel hf => a3 fuel hf, ?_, ?_⟩
  · intro id
    obtain ⟨h1, _⟩ := terminalCount_congr (executeBuildPipeline ora g).state.trace
      (pipelineStF ora g).trace id (pipeline_state_statusWrites ora g id)
    rw [h1]
    exact (counts_le_one_of_writesShape (pipelineStF ora g).trace id
      (hInv.writesShape id)).1
  · intro hf hc
    rw [executeBuildPipeline_def, finishPipeline_mismatch _ _ hf hc]

/-- C10: a node whose task is neither `generate-*` nor `start-vm` completes
with no worker job, no local save, no streaming and no VM start — its whole
dispatch segment is the two status writes and the two progress events — and
a preview URL in a successful result always comes from the Dev-Flow Manager
response of a `start-vm` node of the graph. -/
theorem C10_plain_tasks (g : WorkGraph) (ora : Oracle) :
    (∀ n : WorkGraphNode, n.task.startsWith "generate-" = false →
      n.task ≠ "start-vm" →
      runNodeCore ora n =
        ([.setStatus n.id .running, startEvt n] ++ doneSeg n, .ok none)) ∧
    (∀ n u, (runNodeCore ora n).2 = .ok (some u) →
      n.task = "start-vm" ∧ ora.startEnvironment = .ok u) ∧
    (∀ u, (executeBuildPipeline ora g).result = .ok (some u) →
      ora.startEnvironment = .ok u ∧
      ∃ id n, (buildNodeMap g).get? id = some n ∧ n.task = "start-vm") := by
  refine ⟨fun n hg hv => runNodeCore_plain ora n hg hv,
    fun n u h => runNodeCore_preview ora n u h, ?_⟩
  intro u hres
  cases hf : (pipelineStF ora g).failure with
  | some e =>
      rw [executeBuildPipeline_def, finishPipeline_fail _ _ e hf] at hres
      exact Except.noConfusion hres
  | none =>
      by_cases hc : (pipelineStF ora g).completedCount = (buildNodeMap g).size
      · rw [executeBuildPipeline_def, finishPipeline_ok _ _ hf hc] at hres
        have hpu : (pipelineStF ora g).previewUrl = some u := Except.ok.inj hres
        exact pipeline_preview_sound ora g u hpu
      · rw [executeBuildPipeline_def, finishPipeline_mismatch _ _ hf hc] at hres
        exact Except.noConfusion hres

end Mosaic
